import Mathlib

/-!
Shallow embedding of the Minesweeper game engine from `src/App.jsx`.

Coordinates are `Int` (JavaScript numbers used as array indices), boards are
`List (List Cell)` (the `rows × cols` array of cell objects).  Array access
`board[r][c]` on an out-of-bounds index throws a `TypeError` in JavaScript as
soon as a property is read; that is modelled by `getC?` returning `none`, and
functions whose JS counterpart would throw return `Option` with `none` for the
crash.  `Math.floor(Math.random() * rows)` is modelled by consuming a stream of
sample pairs reduced mod `rows` / `cols`; the unbounded `while` loop of
`plantMines` is modelled by running out of stream (`none`).
-/

namespace Minesweeper

/-- One grid position, mirroring the cell object literal of `makeEmptyBoard`. -/
structure Cell where
  isMine : Bool
  isRevealed : Bool
  isFlagged : Bool
  count : Nat
deriving DecidableEq, Repr

/-- The value of a fresh cell: `{isMine:false, isRevealed:false, isFlagged:false, count:0}`. -/
def defaultCell : Cell := ⟨false, false, false, 0⟩

/-- The rows × cols matrix of cells. -/
abbrev Board := List (List Cell)

/-- `inBounds(r, c, rows, cols)` from the source. -/
def inBoundsB (rows cols : Nat) (r c : Int) : Bool :=
  decide (0 ≤ r) && decide (r < (rows : Int)) && decide (0 ≤ c) && decide (c < (cols : Int))

/-- `neighbors(r, c)`: the eight surrounding coordinates, in source order. -/
def nbrs (r c : Int) : List (Int × Int) :=
  [(r-1, c-1), (r-1, c), (r-1, c+1),
   (r,   c-1),           (r,   c+1),
   (r+1, c-1), (r+1, c), (r+1, c+1)]

/-- Total read of `board[r][c]`; out-of-bounds yields `defaultCell`.  Used where
the source guarantees the index is in bounds. -/
def getC (b : Board) (r c : Int) : Cell :=
  if r < 0 ∨ c < 0 then defaultCell
  else (b.getD r.toNat []).getD c.toNat defaultCell

/-- Partial read of `board[r][c]`: `none` models the `TypeError` JavaScript
throws when reading a property of `undefined`. -/
def getCq (b : Board) (r c : Int) : Option Cell :=
  if r < 0 ∨ c < 0 then none
  else (b.get? r.toNat).bind (fun row => row.get? c.toNat)

/-- Replace the element at index `n` (no-op when out of range). -/
def updAt {α : Type} : List α → Nat → (α → α) → List α
  | [], _, _ => []
  | x :: xs, 0, f => f x :: xs
  | x :: xs, n + 1, f => x :: updAt xs n f

/-- In-place field assignment `board[r][c].field = v`, as a functional update.
All assignments in the source happen at in-bounds coordinates. -/
def modifyCell (b : Board) (r c : Int) (f : Cell → Cell) : Board :=
  if r < 0 ∨ c < 0 then b
  else updAt b r.toNat (fun row => updAt row c.toNat f)

/-- `makeEmptyBoard(rows, cols)`. -/
def makeEmptyBoard (rows cols : Nat) : Board :=
  List.replicate rows (List.replicate cols defaultCell)

/-- The forbidden set of `plantMines`: the safe cell plus its in-bounds
neighbors (the safe cell itself is added without a bounds check, as in the
source). -/
def forbiddenList (rows cols : Nat) (safeR safeC : Int) : List (Int × Int) :=
  (safeR, safeC) :: (nbrs safeR safeC).filter (fun p => inBoundsB rows cols p.1 p.2)

/-- The `while (planted < mines)` rejection-sampling loop of `plantMines`.
Each stream element `(x, y)` models one `(Math.floor(Math.random()*rows),
Math.floor(Math.random()*cols))` draw via `x % rows`, `y % cols`; an exhausted
stream (`none`) models the loop never terminating. -/
def plantLoop (rows cols : Nat) (forbidden : List (Int × Int)) :
    List (Nat × Nat) → Board → Nat → Option Board
  | _, b, 0 => some b
  | [], _, _ + 1 => none
  | (x, y) :: rest, b, need + 1 =>
    let r : Int := (x % rows : Nat)
    let c : Int := (y % cols : Nat)
    if (r, c) ∉ forbidden ∧ (getC b r c).isMine = false then
      plantLoop rows cols forbidden rest
        (modifyCell b r c (fun cel => { cel with isMine := true })) need
    else
      plantLoop rows cols forbidden rest b (need + 1)

/-- The number of in-bounds mine-bearing neighbors of `(r, c)`: the `cnt`
computed by the counts pass of `plantMines`. -/
def mineNbrCount (rows cols : Nat) (b : Board) (r c : Int) : Nat :=
  ((nbrs r c).filter
    (fun p => inBoundsB rows cols p.1 p.2 && (getC b p.1 p.2).isMine)).length

/-- Map a function over a row of cells, passing each cell's column index;
column indices start at `j`. -/
def mapRowFrom (g : Nat → Cell → Cell) : Nat → List Cell → List Cell
  | _, [] => []
  | j, cell :: cells => g j cell :: mapRowFrom g (j + 1) cells

/-- Map a function over every cell of the board, passing its coordinates;
row indices start at `i`. -/
def mapGridFrom (f : Nat → Nat → Cell → Cell) : Nat → Board → Board
  | _, [] => []
  | i, row :: rest => (mapRowFrom (f i) 0 row) :: mapGridFrom f (i + 1) rest

/-- The counts pass of `plantMines` (`for r < rows, c < cols: if mine continue
else count = cnt`).  The loop ranges coincide with the board dimensions at
every call site, so it is the per-cell map below. -/
def computeCounts (rows cols : Nat) (b : Board) : Board :=
  mapGridFrom
    (fun r c cell =>
      if cell.isMine then cell
      else { cell with count := mineNbrCount rows cols b (r : Int) (c : Int) })
    0 b

/-- `plantMines(board, rows, cols, mines, safeR, safeC)`: the rejection-sampling
placement loop followed by the counts pass. -/
def plantMines (b : Board) (rows cols mines : Nat) (safeR safeC : Int)
    (rng : List (Nat × Nat)) : Option Board :=
  (plantLoop rows cols (forbiddenList rows cols safeR safeC) rng b mines).map
    (computeCounts rows cols)

/-- `cloneBoard(board)`: a per-cell `{...cell}` copy; value-equal to its input. -/
def cloneBoard (b : Board) : Board :=
  b.map (fun row => row.map (fun cell => { cell with }))

/-- The neighbor scan of one `floodReveal` iteration: for each neighbor in
order, if it is in bounds, unseen, unrevealed, unflagged and not a mine, mark
it seen, enqueue it when its count is 0, and reveal it. -/
def scanNbrs (rows cols : Nat) :
    List (Int × Int) → List (Int × Int) → List (Int × Int) → Board →
      List (Int × Int) × List (Int × Int) × Board
  | [], q, seen, b => (q, seen, b)
  | p :: ps, q, seen, b =>
    if inBoundsB rows cols p.1 p.2 = true ∧ p ∉ seen ∧
        (getC b p.1 p.2).isRevealed = false ∧ (getC b p.1 p.2).isFlagged = false ∧
        (getC b p.1 p.2).isMine = false then
      scanNbrs rows cols ps
        (if (getC b p.1 p.2).count = 0 then q ++ [p] else q)
        (p :: seen)
        (modifyCell b p.1 p.2 (fun cel => { cel with isRevealed := true }))
    else
      scanNbrs rows cols ps q seen b

/-- The `while (q.length)` loop of `floodReveal`: dequeue a coordinate, reveal
it, and when its count is 0 scan its neighbors.  The loop always terminates in
the source (the seen set only grows and bounds the queue); the fuel supplied by
`floodReveal` is proved sufficient, so the `0` branch is never taken there. -/
def floodAux (rows cols : Nat) : Nat → List (Int × Int) → List (Int × Int) → Board → Board
  | 0, _, _, b => b
  | _ + 1, [], _, b => b
  | fuel + 1, p :: q, seen, b =>
    let b1 := modifyCell b p.1 p.2 (fun cel => { cel with isRevealed := true })
    if (getC b1 p.1 p.2).count = 0 then
      let res := scanNbrs rows cols (nbrs p.1 p.2) q seen b1
      floodAux rows cols fuel res.1 res.2.1 res.2.2
    else
      floodAux rows cols fuel q seen b1

/-- `floodReveal(board, startR, startC)`: BFS from the start coordinate with
queue and seen set both seeded with it; `rows`/`cols` are read off the board
at entry as in the source. -/
def floodReveal (b : Board) (startR startC : Int) : Board :=
  let rows := b.length
  let cols := (b.getD 0 []).length
  floodAux rows cols (2 * (rows * cols) + 1) [(startR, startC)] [(startR, startC)] b

/-- The session phase: `"ready" | "playing" | "won" | "lost"`. -/
inductive Status where
  | ready
  | playing
  | won
  | lost
deriving DecidableEq, Repr

/-- One game session: the React state owned by `App` that the engine mutates
(`board`, `minesPlanted`, `status`, `revealedCount`) together with the fixed
difficulty values `rows`, `cols`, `mines`. -/
structure GameState where
  rows : Nat
  cols : Nat
  mines : Nat
  board : Board
  minesPlanted : Bool
  status : Status
  revealedCount : Nat
deriving DecidableEq, Repr

/-- A fresh session at a given difficulty: the initial React state, also
produced by `reset` and by a difficulty change. -/
def freshSession (rows cols mines : Nat) : GameState :=
  { rows := rows, cols := cols, mines := mines
    board := makeEmptyBoard rows cols
    minesPlanted := false
    status := Status.ready
    revealedCount := 0 }

/-- `board.flat()`. -/
def flatB (b : Board) : List Cell := b.foldr (fun row acc => row ++ acc) []

/-- `prev.flat().filter(c => c.isFlagged).length`. -/
def countFlagged (b : Board) : Nat := (flatB b).countP (fun cell => cell.isFlagged)

/-- `next.flat().filter(cel => cel.isRevealed && !cel.isMine).length`. -/
def revealedSafe (b : Board) : Nat :=
  (flatB b).countP (fun cell => cell.isRevealed && !cell.isMine)

/-- The number of mine cells on the board. -/
def countMines (b : Board) : Nat := (flatB b).countP (fun cell => cell.isMine)

/-- The derived `flagsLeft = Math.max(0, mines - flagged)`. -/
def flagsLeft (mines : Nat) (b : Board) : Int :=
  max 0 ((mines : Int) - (countFlagged b : Int))

/-- The loss map: `next.map(row => row.map(cel => cel.isMine ?
{...cel, isRevealed: true} : cel))`. -/
def revealMines (b : Board) : Board :=
  b.map (fun row => row.map (fun cel =>
    if cel.isMine then { cel with isRevealed := true } else cel))

/-- The win map: `next.map(row => row.map(cel => cel.isMine ?
{...cel, isFlagged: true} : cel))`. -/
def flagMines (b : Board) : Board :=
  b.map (fun row => row.map (fun cel =>
    if cel.isMine then { cel with isFlagged := true } else cel))

/-- The part of `handleReveal(r, c)` from the `next[r][c]` access on, applied
to the (possibly freshly planted) clone `next`.  `none` models the
`TypeError` thrown on an out-of-bounds access. -/
def handleRevealCore (s : GameState) (next : Board) (r c : Int) : Option GameState :=
  match getCq next r c with
  | none => none
  | some cell =>
    if cell.isRevealed = true ∨ cell.isFlagged = true then
      some { s with minesPlanted := true,
                    status := if s.minesPlanted then s.status else Status.playing }
    else if cell.isMine then
      some { s with board := revealMines next, minesPlanted := true,
                    status := Status.lost }
    else
      let next2 := if cell.count = 0 then floodReveal next r c
                   else modifyCell next r c (fun cel => { cel with isRevealed := true })
      let newlyRevealed := revealedSafe next2
      if (newlyRevealed : Int) = (s.rows : Int) * (s.cols : Int) - (s.mines : Int) then
        some { s with board := flagMines next2, minesPlanted := true,
                      status := Status.won, revealedCount := newlyRevealed }
      else
        some { s with board := next2, minesPlanted := true,
                      status := if s.minesPlanted then s.status else Status.playing,
                      revealedCount := newlyRevealed }

/-- `handleReveal(r, c)` acting on a session.  `rng` feeds `plantMines` on a
first click; `none` models a thrown `TypeError` (out-of-bounds access) or a
non-terminating planting loop.  React's queued setter calls are reflected in
the returned record fields; on the first click `setStatus("playing")` is
superseded by a later `setStatus("lost"/"won")` in the same call. -/
def handleReveal (rng : List (Nat × Nat)) (s : GameState) (r c : Int) :
    Option GameState :=
  if s.status = Status.lost ∨ s.status = Status.won then some s
  else
    match (if s.minesPlanted then some (cloneBoard s.board)
           else plantMines (cloneBoard s.board) s.rows s.cols s.mines r c rng) with
    | none => none
    | some next => handleRevealCore s next r c

/-- `handleFlag(r, c)` acting on a session; `none` models the `TypeError` on an
out-of-bounds access. -/
def handleFlag (s : GameState) (r c : Int) : Option GameState :=
  if s.status = Status.lost ∨ s.status = Status.won then some s
  else
    let flagsLeftNow : Int := (s.mines : Int) - (countFlagged s.board : Int)
    let next := cloneBoard s.board
    match getCq next r c with
    | none => none
    | some cell =>
      if cell.isRevealed then some s
      else
        let willFlag := !cell.isFlagged
        if willFlag = true ∧ flagsLeftNow = 0 then some s
        else some { s with board := modifyCell next r c (fun cel => { cel with isFlagged := willFlag }) }

/-- The session states reachable from a fresh session by any sequence of
`reveal`, `toggleFlag` and `reset` intents.  Fresh sessions carry the
difficulty validity invariant `mines < rows * cols` (§3 of the spec; all three
presets satisfy it). -/
inductive Reachable : GameState → Prop where
  | fresh (rows cols mines : Nat) (h : mines < rows * cols) :
      Reachable (freshSession rows cols mines)
  | reveal {s s' : GameState} (rng : List (Nat × Nat)) (r c : Int)
      (hs : Reachable s) (h : handleReveal rng s r c = some s') : Reachable s'
  | flag {s s' : GameState} (r c : Int)
      (hs : Reachable s) (h : handleFlag s r c = some s') : Reachable s'
  | reset {s : GameState} (hs : Reachable s) (rows cols mines : Nat)
      (h : mines < rows * cols) : Reachable (freshSession rows cols mines)

/-- The board has `rows` rows of `cols` cells each. -/
def Dims (b : Board) (rows cols : Nat) : Prop :=
  b.length = rows ∧ ∀ i, i < rows → (b.getD i []).length = cols

/-- The board `next2` of the accepted non-mine branch of `handleReveal`: flood
from the target when its count is 0, otherwise reveal the target alone. -/
def hrNext2 (next : Board) (r c : Int) : Board :=
  if (getC next r c).count = 0 then floodReveal next r c
  else modifyCell next r c (fun cel => { cel with isRevealed := true })

/-- `totalSafe = rows * cols - mines` as the JavaScript (integer) value. -/
def totalSafeI (s : GameState) : Int :=
  (s.rows : Int) * (s.cols : Int) - (s.mines : Int)

/-- The state returned by the accepted non-mine branch of `handleReveal`:
recompute `revealedCount` and either win (flag all mines) or keep playing. -/
def hrNormalResult (s : GameState) (next : Board) (r c : Int) : GameState :=
  let next2 := hrNext2 next r c
  if (revealedSafe next2 : Int) = (s.rows : Int) * (s.cols : Int) - (s.mines : Int) then
    { s with board := flagMines next2, minesPlanted := true, status := Status.won,
             revealedCount := revealedSafe next2 }
  else
    { s with board := next2, minesPlanted := true,
             status := if s.minesPlanted then s.status else Status.playing,
             revealedCount := revealedSafe next2 }

/-- The state invariant maintained by every reachable session: difficulty
validity, board shape, the phase/flag/reveal relationships that the transition
functions rely on, and the flag budget. -/
def Inv (s : GameState) : Prop :=
  (s.mines : Int) < (s.rows : Int) * (s.cols : Int) ∧
  Dims s.board s.rows s.cols ∧
  (s.status = Status.ready → s.minesPlanted = false) ∧
  (s.minesPlanted = false → s.status = Status.ready ∧ countMines s.board = 0 ∧
    (flatB s.board).countP (fun cell => cell.isRevealed) = 0) ∧
  (s.status = Status.playing → s.minesPlanted = true ∧
    (revealedSafe s.board : Int) ≠ totalSafeI s) ∧
  (s.status = Status.won → (revealedSafe s.board : Int) = totalSafeI s ∧
    ∀ r c : Int, (getC s.board r c).isMine = true → (getC s.board r c).isFlagged = true) ∧
  (s.status = Status.lost → (revealedSafe s.board : Int) ≠ totalSafeI s) ∧
  (∀ r c : Int,
    ((getC s.board r c).isRevealed = true → (getC s.board r c).isFlagged = true →
      (getC s.board r c).isMine = true ∧ s.status = Status.lost) ∧
    ((getC s.board r c).isMine = true → (getC s.board r c).isRevealed = true →
      s.status = Status.lost)) ∧
  (countMines s.board = 0 ∨ countMines s.board = s.mines) ∧
  countFlagged s.board ≤ s.mines

/-- A concrete in-progress session: 1×6 board, two mines at (0,2) and (0,5),
cells (0,0)–(0,1) revealed.  Reached from a fresh session by revealing (0,0)
with a sample stream that plants the two mines (see the replay theorems). -/
def c5S1 : GameState := { rows := 1, cols := 6, mines := 2, board := [[⟨false, true, false, 0⟩, ⟨false, true, false, 1⟩, ⟨true, false, false, 0⟩, ⟨false, false, false, 1⟩, ⟨false, false, false, 1⟩, ⟨true, false, false, 0⟩]], minesPlanted := true, status := Status.playing, revealedCount := 2 }

/-- `c5S1` after flagging the mine at (0,2). -/
def c5S2 : GameState := { c5S1 with board := [[⟨false, true, false, 0⟩, ⟨false, true, false, 1⟩, ⟨true, false, true, 0⟩, ⟨false, false, false, 1⟩, ⟨false, false, false, 1⟩, ⟨true, false, false, 0⟩]] }

/-- `c5S2` after revealing the unflagged mine at (0,5): the loss path reveals
all mines, leaving (0,2) both revealed and flagged. -/
def c5Lost : GameState := { c5S1 with board := [[⟨false, true, false, 0⟩, ⟨false, true, false, 1⟩, ⟨true, true, true, 0⟩, ⟨false, false, false, 1⟩, ⟨false, false, false, 1⟩, ⟨true, true, false, 0⟩]], status := Status.lost }

/-- A concrete fresh session (1×4, one mine) in which the cell (0,3) has been
flagged before the first reveal. -/
def c6State : GameState := { rows := 1, cols := 4, mines := 1, board := [[defaultCell, defaultCell, defaultCell, ⟨false, false, true, 0⟩]], minesPlanted := false, status := Status.ready, revealedCount := 0 }

/-- A concrete won session: 1×3 board, one mine at (0,2), reached by a first
reveal at (0,0) that floods the two safe cells and auto-flags the mine. -/
def c3Won : GameState := { rows := 1, cols := 3, mines := 1, board := [[⟨false, true, false, 0⟩, ⟨false, true, false, 1⟩, ⟨true, false, true, 0⟩]], minesPlanted := true, status := Status.won, revealedCount := 2 }

/-- The concrete 1×4 board produced by planting one mine with safe cell (0,0)
and the sample stream `[(0,2)]`: a mine at (0,2) and counts 0,1,0,1. -/
def c1Board : Board := [[⟨false, false, false, 0⟩, ⟨false, false, false, 1⟩, ⟨true, false, false, 0⟩, ⟨false, false, false, 1⟩]]

/-- Eligibility of a scanned neighbor, read off the pre-flood board: in bounds,
unrevealed, unflagged and not a mine — the guard of the neighbor scan of
`floodReveal` with the seen-set bookkeeping removed. -/
def okTgt (rows cols : Nat) (b : Board) (v : Int × Int) : Prop :=
  inBoundsB rows cols v.1 v.2 = true ∧ (getC b v.1 v.2).isRevealed = false ∧
  (getC b v.1 v.2).isFlagged = false ∧ (getC b v.1 v.2).isMine = false

/-- The set of coordinates `floodReveal` reaches, as the code computes it: the
start itself, and from any reached cell whose count is 0 on the pre-flood board
every eligible neighbor (in bounds, unrevealed, unflagged, not a mine).  Unlike
the region in the specification's cascade sentence, propagation stops at
already-revealed cells. -/
inductive FloodReach (rows cols : Nat) (b : Board) (s : Int × Int) : Int × Int → Prop where
  | refl : FloodReach rows cols b s s
  | tail (p v : Int × Int) : FloodReach rows cols b s p →
      (getC b p.1 p.2).count = 0 → v ∈ nbrs p.1 p.2 →
      okTgt rows cols b v → FloodReach rows cols b s v

/-- The region described by the SPECIFICATION's cascade sentence (this
definition follows the spec's words, not the code): the connected region of
zero-count cells containing the start under 8-neighbor adjacency, not crossing
flagged cells.  Used only to exhibit the divergence from `floodReveal`. -/
inductive SpecZeroRegion (rows cols : Nat) (b : Board) (s : Int × Int) : Int × Int → Prop where
  | refl : SpecZeroRegion rows cols b s s
  | step (p v : Int × Int) : SpecZeroRegion rows cols b s p →
      v ∈ nbrs p.1 p.2 → inBoundsB rows cols v.1 v.2 = true →
      (getC b v.1 v.2).isFlagged = false → (getC b v.1 v.2).count = 0 →
      SpecZeroRegion rows cols b s v

/-- 1×3 board with no mines, no flags and all counts 0 whose middle cell is
already revealed: the spec's zero region from (0,0) is the whole row, but the
cascade stops at the revealed middle cell. -/
def c2Board : Board :=
  [[⟨false, false, false, 0⟩, ⟨false, true, false, 0⟩, ⟨false, false, false, 0⟩]]

/-- Row-major cell index of a coordinate pair, used to bound the seen set of
`floodReveal` by the number of cells. -/
def encP (cols : Nat) (p : Int × Int) : Nat := p.1.toNat * cols + p.2.toNat

/-- The loop invariant of `floodAux` relative to the pre-flood board `b₀` and
the start `s`: board shape, non-revealed fields frozen, revelation growing and
confined to the seen set, queue and seen-set bookkeeping, and soundness of the
seen set for `FloodReach`.  The neighbor-closure property is tracked separately
(`FloodClosed`) because a scan restores it only once it completes. -/
structure FloodBase (rows cols : Nat) (b₀ : Board) (s : Int × Int)
    (q seen : List (Int × Int)) (b : Board) : Prop where
  dims : Dims b rows cols
  fieldsEq : ∀ r c : Int, (getC b r c).isMine = (getC b₀ r c).isMine ∧
      (getC b r c).isFlagged = (getC b₀ r c).isFlagged ∧
      (getC b r c).count = (getC b₀ r c).count
  revMono : ∀ r c : Int, (getC b₀ r c).isRevealed = true → (getC b r c).isRevealed = true
  revSrc : ∀ r c : Int, (getC b r c).isRevealed = true →
      (getC b₀ r c).isRevealed = true ∨ (r, c) ∈ seen
  qSub : ∀ p ∈ q, p ∈ seen
  qNodup : q.Nodup
  seenNodup : seen.Nodup
  seenBounds : ∀ p ∈ seen, inBoundsB rows cols p.1 p.2 = true
  seenReach : ∀ p ∈ seen, FloodReach rows cols b₀ s p
  seenRevQ : ∀ p ∈ seen, (getC b p.1 p.2).isRevealed = true ∨ p ∈ q
  startMem : s ∈ seen

/-- The neighbor-closure part of the `floodAux` loop invariant: every seen,
already-dequeued, zero-count cell — other than the cells listed in `exc` —
already has all its eligible neighbors in the seen set. -/
def FloodClosed (rows cols : Nat) (b₀ : Board)
    (q seen exc : List (Int × Int)) : Prop :=
  ∀ u ∈ seen, u ∉ q → u ∉ exc → (getC b₀ u.1 u.2).count = 0 →
    ∀ v ∈ nbrs u.1 u.2, okTgt rows cols b₀ v → v ∈ seen

/- ======================================================================
   Object-level model for the copy-on-write discipline (C9): boards as grids
   of references into a heap of cell objects, every JavaScript object literal
   an allocation, every field assignment a heap write.
   ====================================================================== -/

/-- The JavaScript object heap restricted to cell objects: the value behind
every reference, plus the next fresh reference. -/
structure Heap where
  cells : Nat → Cell
  fresh : Nat

/-- A board as the session actually holds it: a grid of references to cell
objects. -/
abbrev HBoard := List (List Nat)

/-- `board.flat()` on references. -/
def hbFlat (hb : HBoard) : List Nat := hb.foldr (fun row acc => row ++ acc) []

/-- Allocate a new cell object (a `{...}` literal): the fresh reference now
holds `cell`. -/
def hAlloc (h : Heap) (cell : Cell) : Heap × Nat :=
  ({ cells := fun n => if n = h.fresh then cell else h.cells n, fresh := h.fresh + 1 }, h.fresh)

/-- In-place field assignment on the object behind `ref`. -/
def hWrite (h : Heap) (ref : Nat) (f : Cell → Cell) : Heap :=
  { h with cells := fun n => if n = ref then f (h.cells n) else h.cells n }

/-- The reference `board[r][c]`; `none` models the `TypeError` on an
out-of-bounds access (mirrors `getCq`). -/
def hRefAt (hb : HBoard) (r c : Int) : Option Nat :=
  if r < 0 ∨ c < 0 then none
  else (hb.get? r.toNat).bind (fun row => row.get? c.toNat)

/-- Total read of the cell object at `board[r][c]` (used where the source
guarantees the index is in bounds, mirroring `getC`). -/
def hGetC (h : Heap) (hb : HBoard) (r c : Int) : Cell :=
  match hRefAt hb r c with
  | some ref => h.cells ref
  | none => defaultCell

/-- `board[r][c].field = v` as a heap write (mirrors `modifyCell`). -/
def hModifyCell (h : Heap) (hb : HBoard) (r c : Int) (f : Cell → Cell) : Heap :=
  match hRefAt hb r c with
  | some ref => hWrite h ref f
  | none => h

/-- `row.map(cell => ({...cell}))`: a fresh copy of every cell object of a
row. -/
def cloneRow_h (h : Heap) : List Nat → Heap × List Nat
  | [] => (h, [])
  | ref :: refs =>
    let a := hAlloc h (h.cells ref)
    let rest := cloneRow_h a.1 refs
    (rest.1, a.2 :: rest.2)

/-- `cloneBoard(board)` on the heap: a fresh cell object per cell. -/
def cloneBoard_h (h : Heap) : HBoard → Heap × HBoard
  | [] => (h, [])
  | row :: rest =>
    let r1 := cloneRow_h h row
    let r2 := cloneBoard_h r1.1 rest
    (r2.1, r1.2 :: r2.2)

/-- The `cnt` the counts pass computes for a cell, read off the heap. -/
def hMineNbrCount (h : Heap) (hb : HBoard) (rows cols : Nat) (r c : Int) : Nat :=
  ((nbrs r c).filter
    (fun p => inBoundsB rows cols p.1 p.2 && (hGetC h hb p.1 p.2).isMine)).length

/-- The counts pass of `plantMines` on the heap: `board[r][c].count = cnt` for
every non-mine cell, over the row-major index list of the nested `for` loops. -/
def countsPass_h (rows cols : Nat) (hb : HBoard) : List (Nat × Nat) → Heap → Heap
  | [], h => h
  | (r, c) :: rest, h =>
    if (hGetC h hb (r : Int) (c : Int)).isMine then countsPass_h rows cols hb rest h
    else
      countsPass_h rows cols hb rest
        (hModifyCell h hb (r : Int) (c : Int)
          (fun cel => { cel with count := hMineNbrCount h hb rows cols (r : Int) (c : Int) }))

/-- The row-major index list of the counts pass's nested `for` loops. -/
def idxGrid (rows cols : Nat) : List (Nat × Nat) :=
  (List.range rows).foldr (fun r acc => ((List.range cols).map (fun c => (r, c))) ++ acc) []

def computeCounts_h (rows cols : Nat) (hb : HBoard) (h : Heap) : Heap :=
  countsPass_h rows cols hb (idxGrid rows cols) h

/-- The rejection-sampling loop of `plantMines` on the heap (mirrors
`plantLoop`). -/
def plantLoop_h (rows cols : Nat) (hb : HBoard) (forbidden : List (Int × Int)) :
    List (Nat × Nat) → Heap → Nat → Option Heap
  | _, h, 0 => some h
  | [], _, _ + 1 => none
  | (x, y) :: rest, h, need + 1 =>
    let r : Int := (x % rows : Nat)
    let c : Int := (y % cols : Nat)
    if (r, c) ∉ forbidden ∧ (hGetC h hb r c).isMine = false then
      plantLoop_h rows cols hb forbidden rest
        (hModifyCell h hb r c (fun cel => { cel with isMine := true })) need
    else
      plantLoop_h rows cols hb forbidden rest h (need + 1)

/-- `plantMines(board, ...)` on the heap: it mutates the cells of the board it
is handed (the clone) in place. -/
def plantMines_h (h : Heap) (hb : HBoard) (rows cols mines : Nat) (safeR safeC : Int)
    (rng : List (Nat × Nat)) : Option Heap :=
  (plantLoop_h rows cols hb (forbiddenList rows cols safeR safeC) rng h mines).map
    (computeCounts_h rows cols hb)

/-- The neighbor scan of one `floodReveal` iteration on the heap (mirrors
`scanNbrs`). -/
def scanNbrs_h (rows cols : Nat) (hb : HBoard) :
    List (Int × Int) → List (Int × Int) → List (Int × Int) → Heap →
      List (Int × Int) × List (Int × Int) × Heap
  | [], q, seen, h => (q, seen, h)
  | p :: ps, q, seen, h =>
    if inBoundsB rows cols p.1 p.2 = true ∧ p ∉ seen ∧
        (hGetC h hb p.1 p.2).isRevealed = false ∧ (hGetC h hb p.1 p.2).isFlagged = false ∧
        (hGetC h hb p.1 p.2).isMine = false then
      scanNbrs_h rows cols hb ps
        (if (hGetC h hb p.1 p.2).count = 0 then q ++ [p] else q)
        (p :: seen)
        (hModifyCell h hb p.1 p.2 (fun cel => { cel with isRevealed := true }))
    else
      scanNbrs_h rows cols hb ps q seen h

/-- The `while (q.length)` loop of `floodReveal` on the heap (mirrors
`floodAux`). -/
def floodAux_h (rows cols : Nat) (hb : HBoard) :
    Nat → List (Int × Int) → List (Int × Int) → Heap → Heap
  | 0, _, _, h => h
  | _ + 1, [], _, h => h
  | fuel + 1, p :: q, seen, h =>
    let h1 := hModifyCell h hb p.1 p.2 (fun cel => { cel with isRevealed := true })
    if (hGetC h1 hb p.1 p.2).count = 0 then
      let res := scanNbrs_h rows cols hb (nbrs p.1 p.2) q seen h1
      floodAux_h rows cols hb fuel res.1 res.2.1 res.2.2
    else
      floodAux_h rows cols hb fuel q seen h1

/-- `floodReveal(board, startR, startC)` on the heap: it mutates the cells of
the board it is handed in place. -/
def floodReveal_h (h : Heap) (hb : HBoard) (startR startC : Int) : Heap :=
  let rows := hb.length
  let cols := (hb.getD 0 []).length
  floodAux_h rows cols hb (2 * (rows * cols) + 1) [(startR, startC)] [(startR, startC)] h

/-- `row.map(cel => cel.isMine ? {...cel, field: v} : cel)` on the heap: a
fresh modified copy per mine cell, the very same object for the others. -/
def mapMineRow_h (f : Cell → Cell) : Heap → List Nat → Heap × List Nat
  | h, [] => (h, [])
  | h, ref :: refs =>
    if (h.cells ref).isMine then
      let a := hAlloc h (f (h.cells ref))
      let rest := mapMineRow_h f a.1 refs
      (rest.1, a.2 :: rest.2)
    else
      let rest := mapMineRow_h f h refs
      (rest.1, ref :: rest.2)

/-- The loss map (`isRevealed: true`) and win map (`isFlagged: true`) of
`handleReveal` on the heap. -/
def mapMineBoard_h (f : Cell → Cell) : Heap → HBoard → Heap × HBoard
  | h, [] => (h, [])
  | h, row :: rest =>
    let r1 := mapMineRow_h f h row
    let r2 := mapMineBoard_h f r1.1 rest
    (r2.1, r1.2 :: r2.2)

/-- One game session with the board held by reference. -/
structure HGameState where
  rows : Nat
  cols : Nat
  mines : Nat
  board : HBoard
  minesPlanted : Bool
  status : Status
  revealedCount : Nat

/-- `next.flat().filter(cel => cel.isRevealed && !cel.isMine).length` on the
heap. -/
def hRevealedSafe (h : Heap) (hb : HBoard) : Nat :=
  ((hbFlat hb).map h.cells).countP (fun cell => cell.isRevealed && !cell.isMine)

/-- `prev.flat().filter(cell => cell.isFlagged).length` on the heap. -/
def hCountFlagged (h : Heap) (hb : HBoard) : Nat :=
  ((hbFlat hb).map h.cells).countP (fun cell => cell.isFlagged)

/-- The part of `handleReveal(r, c)` from the `next[r][c]` access on, on the
heap (mirrors `handleRevealCore`). -/
def handleRevealCore_h (h : Heap) (s : HGameState) (next : HBoard) (r c : Int) :
    Option (Heap × HGameState) :=
  match hRefAt next r c with
  | none => none
  | some ref =>
    if (h.cells ref).isRevealed = true ∨ (h.cells ref).isFlagged = true then
      some (h, { s with minesPlanted := true,
                        status := (if s.minesPlanted then s.status else Status.playing) })
    else if (h.cells ref).isMine then
      let lm := mapMineBoard_h (fun cel => { cel with isRevealed := true }) h next
      some (lm.1, { s with board := lm.2, minesPlanted := true, status := Status.lost })
    else
      let h2 := if (h.cells ref).count = 0 then floodReveal_h h next r c
                else hWrite h ref (fun cel => { cel with isRevealed := true })
      let newlyRevealed := hRevealedSafe h2 next
      if (newlyRevealed : Int) = (s.rows : Int) * (s.cols : Int) - (s.mines : Int) then
        let wm := mapMineBoard_h (fun cel => { cel with isFlagged := true }) h2 next
        some (wm.1, { s with board := wm.2, minesPlanted := true, status := Status.won, revealedCount := newlyRevealed })
      else
        some (h2, { s with board := next, minesPlanted := true, status := (if s.minesPlanted then s.status else Status.playing), revealedCount := newlyRevealed })

/-- `handleReveal(r, c)` on the heap: clone the previous board, plant on a
first click, then run the core. -/
def handleReveal_h (rng : List (Nat × Nat)) (h : Heap) (s : HGameState) (r c : Int) :
    Option (Heap × HGameState) :=
  if s.status = Status.lost ∨ s.status = Status.won then some (h, s)
  else
    let cl := cloneBoard_h h s.board
    match (if s.minesPlanted then some cl.1
           else plantMines_h cl.1 cl.2 s.rows s.cols s.mines r c rng) with
    | none => none
    | some h1 => handleRevealCore_h h1 s cl.2 r c

/-- `handleFlag(r, c)` on the heap. -/
def handleFlag_h (h : Heap) (s : HGameState) (r c : Int) : Option (Heap × HGameState) :=
  if s.status = Status.lost ∨ s.status = Status.won then some (h, s)
  else
    let flagsLeftNow : Int := (s.mines : Int) - (hCountFlagged h s.board : Int)
    let cl := cloneBoard_h h s.board
    match hRefAt cl.2 r c with
    | none => none
    | some ref =>
      if (cl.1.cells ref).isRevealed then some (cl.1, s)
      else
        let willFlag := !(cl.1.cells ref).isFlagged
        if willFlag = true ∧ flagsLeftNow = 0 then some (cl.1, s)
        else some (hWrite cl.1 ref (fun cel => { cel with isFlagged := willFlag }),
                   { s with board := cl.2 })

/-- A concrete heap for the C9 witness: references 0 and 1 hold default cells,
2 is the next fresh reference. -/
def c9Heap : Heap := { cells := fun _ => defaultCell, fresh := 2 }

/-- A concrete heap session for the C9 witness: a fresh 1×2 one-mine session
whose board holds references 0 and 1. -/
def c9S : HGameState := { rows := 1, cols := 2, mines := 1, board := [[0, 1]], minesPlanted := false, status := Status.ready, revealedCount := 0 }

/- ======================================================================
   Theorems.  First a toolkit of lemmas about the list-level helpers, then
   the claim theorems.
   ====================================================================== -/

theorem updAt_length {α : Type} (l : List α) (n : Nat) (f : α → α) :
    (updAt l n f).length = l.length := by
  induction l generalizing n with
  | nil => rfl
  | cons x xs ih =>
    cases n with
    | zero => rfl
    | succ m => simp [updAt, ih]

theorem updAt_oob {α : Type} (l : List α) (n : Nat) (f : α → α)
    (h : l.length ≤ n) : updAt l n f = l := by
  induction l generalizing n with
  | nil => rfl
  | cons x xs ih =>
    cases n with
    | zero => simp at h
    | succ m =>
      simp only [List.length_cons, Nat.succ_le_succ_iff] at h
      simp [updAt, ih _ h]

theorem getD_updAt_self {α : Type} (l : List α) (n : Nat) (f : α → α) (d : α)
    (h : n < l.length) : (updAt l n f).getD n d = f (l.getD n d) := by
  induction l generalizing n with
  | nil => simp at h
  | cons x xs ih =>
    cases n with
    | zero => rfl
    | succ m =>
      simp only [List.length_cons, Nat.succ_lt_succ_iff] at h
      simp only [updAt, List.getD_cons_succ]
      exact ih _ h

theorem getD_updAt_ne {α : Type} (l : List α) (m n : Nat) (f : α → α) (d : α)
    (h : m ≠ n) : (updAt l n f).getD m d = l.getD m d := by
  induction l generalizing m n with
  | nil => rfl
  | cons x xs ih =>
    cases n with
    | zero =>
      cases m with
      | zero => exact absurd rfl h
      | succ k => rfl
    | succ j =>
      cases m with
      | zero => rfl
      | succ k =>
        simp only [updAt, List.getD_cons_succ]
        exact ih _ _ (by omega)

theorem countP_updAt_same {α : Type} (l : List α) (n : Nat) (f : α → α)
    (p : α → Bool) (d : α) (h : p (f (l.getD n d)) = p (l.getD n d)) :
    (updAt l n f).countP p = l.countP p := by
  induction l generalizing n with
  | nil => rfl
  | cons x xs ih =>
    cases n with
    | zero => simp only [List.getD_cons_zero] at h; simp [updAt, List.countP_cons, h]
    | succ m => simp only [List.getD_cons_succ] at h; simp [updAt, List.countP_cons, ih _ h]

theorem countP_updAt_add {α : Type} (l : List α) (n : Nat) (f : α → α)
    (p : α → Bool) (d : α) (h : n < l.length)
    (h1 : p (l.getD n d) = false) (h2 : p (f (l.getD n d)) = true) :
    (updAt l n f).countP p = l.countP p + 1 := by
  induction l generalizing n with
  | nil => simp at h
  | cons x xs ih =>
    cases n with
    | zero =>
      simp only [List.getD_cons_zero] at h1 h2
      simp [updAt, List.countP_cons, h1, h2]
    | succ m =>
      simp only [List.length_cons, Nat.succ_lt_succ_iff] at h
      simp only [List.getD_cons_succ] at h1 h2
      simp [updAt, List.countP_cons, ih _ h h1 h2, Nat.add_right_comm]

theorem flatB_countP_append (row : List Cell) (rest : Board) (p : Cell → Bool) :
    (flatB (row :: rest)).countP p = row.countP p + (flatB rest).countP p := by
  simp [flatB, List.countP_append]

theorem countP_flatB_updAt_same (b : Board) (n : Nat) (g : List Cell → List Cell)
    (p : Cell → Bool) (h : (g (b.getD n [])).countP p = (b.getD n []).countP p) :
    (flatB (updAt b n g)).countP p = (flatB b).countP p := by
  induction b generalizing n with
  | nil => rfl
  | cons row rest ih =>
    cases n with
    | zero =>
      simp only [List.getD_cons_zero] at h
      simp [updAt, flatB_countP_append, h]
    | succ m =>
      simp only [List.getD_cons_succ] at h
      simp [updAt, flatB_countP_append, ih _ h]

theorem countP_flatB_updAt_add (b : Board) (n : Nat) (g : List Cell → List Cell)
    (p : Cell → Bool) (h : n < b.length)
    (hg : (g (b.getD n [])).countP p = (b.getD n []).countP p + 1) :
    (flatB (updAt b n g)).countP p = (flatB b).countP p + 1 := by
  induction b generalizing n with
  | nil => simp at h
  | cons row rest ih =>
    cases n with
    | zero =>
      simp only [List.getD_cons_zero] at hg
      simp [updAt, flatB_countP_append, hg, Nat.add_right_comm]
    | succ m =>
      simp only [List.length_cons, Nat.succ_lt_succ_iff] at h
      simp only [List.getD_cons_succ] at hg
      simp [updAt, flatB_countP_append, ih _ h hg, Nat.add_assoc]

theorem get?_eq_some_getD {α : Type} (l : List α) (n : Nat) (d : α)
    (h : n < l.length) : l.get? n = some (l.getD n d) := by
  induction l generalizing n with
  | nil => simp at h
  | cons x xs ih =>
    cases n with
    | zero => rfl
    | succ m =>
      simp only [List.length_cons, Nat.succ_lt_succ_iff] at h
      simpa using ih _ h

theorem get?_some_elim {α : Type} (l : List α) (n : Nat) (d : α) (x : α)
    (h : l.get? n = some x) : n < l.length ∧ l.getD n d = x := by
  induction l generalizing n with
  | nil => simp at h
  | cons y ys ih =>
    cases n with
    | zero =>
      simp only [List.get?] at h
      cases h
      exact ⟨by simp, rfl⟩
    | succ m =>
      simp only [List.get?] at h
      have := ih _ h
      exact ⟨by simpa using Nat.succ_lt_succ this.1, this.2⟩

theorem getD_map_of_default {α : Type} (l : List α) (f : α → α) (n : Nat)
    (d : α) (h : f d = d) : (l.map f).getD n d = f (l.getD n d) := by
  induction l generalizing n with
  | nil => exact h.symm
  | cons x xs ih =>
    cases n with
    | zero => rfl
    | succ m => simpa using ih m

theorem modifyCell_neg (b : Board) (r c : Int) (f : Cell → Cell)
    (h : r < 0 ∨ c < 0) : modifyCell b r c f = b := by
  simp [modifyCell, h]

theorem getC_neg (b : Board) (r c : Int) (h : r < 0 ∨ c < 0) :
    getC b r c = defaultCell := by
  simp [getC, h]

theorem modifyCell_length (b : Board) (r c : Int) (f : Cell → Cell) :
    (modifyCell b r c f).length = b.length := by
  unfold modifyCell
  split
  · rfl
  · exact updAt_length _ _ _

theorem getD_modifyCell_length (b : Board) (r c : Int) (f : Cell → Cell) (i : Nat) :
    ((modifyCell b r c f).getD i []).length = (b.getD i []).length := by
  unfold modifyCell
  split
  · rfl
  · rcases eq_or_ne i r.toNat with h | h
    · rw [h]
      rcases Nat.lt_or_ge r.toNat b.length with hl | hl
      · rw [getD_updAt_self _ _ _ _ hl, updAt_length]
      · rw [updAt_oob _ _ _ hl]
    · rw [getD_updAt_ne _ _ _ _ _ h]

theorem getC_modifyCell_self (b : Board) (r c : Int) (f : Cell → Cell)
    (h0 : 0 ≤ r) (h1 : 0 ≤ c) (hr : r.toNat < b.length)
    (hc : c.toNat < (b.getD r.toNat []).length) :
    getC (modifyCell b r c f) r c = f (getC b r c) := by
  have hneg : ¬(r < 0 ∨ c < 0) := by omega
  simp only [getC, modifyCell, if_neg hneg]
  rw [getD_updAt_self _ _ _ _ hr, getD_updAt_self _ _ _ _ hc]

theorem getC_modifyCell_ne (b : Board) (r c r' c' : Int) (f : Cell → Cell)
    (h : ¬(r' = r ∧ c' = c)) :
    getC (modifyCell b r c f) r' c' = getC b r' c' := by
  unfold modifyCell
  split
  · rfl
  · rename_i hneg
    unfold getC
    split
    · rfl
    · rename_i hneg'
      push_neg at hneg hneg'
      rcases eq_or_ne r'.toNat r.toNat with hrr | hrr
      · have hr : r' = r := by omega
        subst hr
        have hcc : c'.toNat ≠ c.toNat := by
          have : c' ≠ c := fun hc => h ⟨rfl, hc⟩
          omega
        rcases Nat.lt_or_ge r'.toNat b.length with hl | hl
        · rw [getD_updAt_self _ _ _ _ hl]
          exact getD_updAt_ne _ _ _ _ _ hcc
        · rw [updAt_oob _ _ _ hl]
      · rw [getD_updAt_ne _ _ _ _ _ hrr]

theorem getCq_some (b : Board) (r c : Int) (h0 : 0 ≤ r) (h1 : 0 ≤ c)
    (hr : r.toNat < b.length) (hc : c.toNat < (b.getD r.toNat []).length) :
    getCq b r c = some (getC b r c) := by
  have hneg : ¬(r < 0 ∨ c < 0) := by omega
  simp only [getCq, getC, if_neg hneg]
  rw [get?_eq_some_getD _ _ [] hr]
  simpa using get?_eq_some_getD _ _ defaultCell hc

theorem getCq_some_elim (b : Board) (r c : Int) (cell : Cell)
    (h : getCq b r c = some cell) :
    0 ≤ r ∧ 0 ≤ c ∧ r.toNat < b.length ∧
      c.toNat < (b.getD r.toNat []).length ∧ getC b r c = cell := by
  unfold getCq at h
  split at h
  · simp at h
  · rename_i hneg
    push_neg at hneg
    rcases hrow : b.get? r.toNat with _ | row
    · rw [hrow] at h; simp at h
    · rw [hrow] at h
      simp only [Option.some_bind] at h
      have h1 := get?_some_elim b r.toNat [] row hrow
      have h2 := get?_some_elim row c.toNat defaultCell cell h
      refine ⟨hneg.1, hneg.2, h1.1, ?_, ?_⟩
      · rw [h1.2]; exact h2.1
      · simp only [getC, if_neg (by omega : ¬(r < 0 ∨ c < 0))]
        rw [h1.2]; exact h2.2

theorem getC_mapBoard (b : Board) (g : Cell → Cell)
    (hg : g defaultCell = defaultCell) (r c : Int) :
    getC (b.map (fun row => row.map g)) r c = g (getC b r c) := by
  unfold getC
  split
  · exact hg.symm
  · have hrows : (b.map (fun row => row.map g)).getD r.toNat [] =
        (b.getD r.toNat []).map g := by
      simpa using getD_map_of_default b (fun row => row.map g) r.toNat [] rfl
    rw [hrows]
    exact getD_map_of_default _ g c.toNat defaultCell hg

theorem flatB_cons (row : List Cell) (rest : Board) :
    flatB (row :: rest) = row ++ flatB rest := rfl

theorem flatB_map (b : Board) (g : Cell → Cell) :
    flatB (b.map (fun row => row.map g)) = (flatB b).map g := by
  induction b with
  | nil => rfl
  | cons row rest ih => simp only [List.map_cons, flatB_cons, ih, List.map_append]

theorem cloneBoard_eq (b : Board) : cloneBoard b = b := by
  simp [cloneBoard]

theorem dims_makeEmptyBoard (rows cols : Nat) :
    Dims (makeEmptyBoard rows cols) rows cols := by
  constructor
  · simp [makeEmptyBoard]
  · intro i hi
    rw [makeEmptyBoard, List.getD_eq_getElem?_getD, List.getElem?_replicate]
    simp [hi]

theorem dims_modifyCell (b : Board) (rows cols : Nat) (r c : Int) (f : Cell → Cell)
    (h : Dims b rows cols) : Dims (modifyCell b r c f) rows cols := by
  refine ⟨by rw [modifyCell_length]; exact h.1, fun i hi => ?_⟩
  rw [getD_modifyCell_length]; exact h.2 i hi

theorem dims_mapBoard (b : Board) (rows cols : Nat) (g : Cell → Cell)
    (h : Dims b rows cols) : Dims (b.map (fun row => row.map g)) rows cols := by
  refine ⟨by simpa using h.1, fun i hi => ?_⟩
  have : (b.map (fun row => row.map g)).getD i [] = (b.getD i []).map g := by
    simpa using getD_map_of_default b (fun row => row.map g) i [] rfl
  rw [this, List.length_map]; exact h.2 i hi

theorem inBoundsB_iff (rows cols : Nat) (r c : Int) :
    inBoundsB rows cols r c = true ↔
      0 ≤ r ∧ r < (rows : Int) ∧ 0 ≤ c ∧ c < (cols : Int) := by
  simp [inBoundsB, Bool.and_eq_true, decide_eq_true_iff, and_assoc]

theorem inDims_of_inBounds (b : Board) (rows cols : Nat) (r c : Int)
    (hD : Dims b rows cols) (h : inBoundsB rows cols r c = true) :
    0 ≤ r ∧ 0 ≤ c ∧ r.toNat < b.length ∧
      c.toNat < (b.getD r.toNat []).length := by
  rw [inBoundsB_iff] at h
  obtain ⟨h0, h1, h2, h3⟩ := h
  have hlen := hD.1
  have hr : r.toNat < rows := by omega
  refine ⟨h0, h2, by omega, ?_⟩
  rw [hD.2 r.toNat hr]
  omega

theorem getD_replicate_or {α : Type} (n : Nat) (a : α) (m : Nat) (d : α) :
    (List.replicate n a).getD m d = a ∨ (List.replicate n a).getD m d = d := by
  rw [List.getD_eq_getElem?_getD, List.getElem?_replicate]
  split
  · exact Or.inl rfl
  · exact Or.inr rfl

theorem getC_makeEmptyBoard (rows cols : Nat) (r c : Int) :
    getC (makeEmptyBoard rows cols) r c = defaultCell := by
  unfold getC
  split
  · rfl
  · rw [makeEmptyBoard]
    rcases getD_replicate_or rows (List.replicate cols defaultCell) r.toNat [] with h | h <;>
      rw [h]
    · rcases getD_replicate_or cols defaultCell c.toNat defaultCell with h2 | h2 <;> rw [h2]
    · rfl

theorem getC_modifyCell_or (b : Board) (r c r' c' : Int) (f : Cell → Cell) :
    getC (modifyCell b r c f) r' c' = getC b r' c' ∨
      getC (modifyCell b r c f) r' c' = f (getC b r' c') := by
  by_cases hp : r' = r ∧ c' = c
  · obtain ⟨h1, h2⟩ := hp
    subst h1; subst h2
    by_cases hneg : r' < 0 ∨ c' < 0
    · left; rw [modifyCell_neg _ _ _ _ hneg]
    · push_neg at hneg
      by_cases hr : r'.toNat < b.length
      · by_cases hc : c'.toNat < (b.getD r'.toNat []).length
        · right; exact getC_modifyCell_self b r' c' f hneg.1 hneg.2 hr hc
        · left
          push_neg at hc
          have hnn : ¬(r' < 0 ∨ c' < 0) := by omega
          simp only [getC, modifyCell, if_neg hnn]
          rw [getD_updAt_self _ _ _ _ hr,
            updAt_oob _ _ _ hc]
      · left
        push_neg at hr
        simp only [modifyCell, if_neg (by omega : ¬(r' < 0 ∨ c' < 0))]
        rw [updAt_oob _ _ _ hr]
  · left; exact getC_modifyCell_ne _ _ _ _ _ _ hp

theorem dims_plantLoop (rows cols : Nat) (forb : List (Int × Int)) :
    ∀ (samples : List (Nat × Nat)) (b : Board) (need : Nat) (b' : Board),
    Dims b rows cols → plantLoop rows cols forb samples b need = some b' →
    Dims b' rows cols := by
  intro samples
  induction samples with
  | nil =>
    intro b need b' hD h
    cases need with
    | zero => cases h; exact hD
    | succ k => simp [plantLoop] at h
  | cons s rest ih =>
    intro b need b' hD h
    cases need with
    | zero => cases h; exact hD
    | succ k =>
      obtain ⟨x, y⟩ := s
      simp only [plantLoop] at h
      split at h
      · exact ih _ _ _ (dims_modifyCell _ _ _ _ _ _ hD) h
      · exact ih _ _ _ hD h

theorem plantLoop_mine_src (rows cols : Nat) (forb : List (Int × Int)) :
    ∀ (samples : List (Nat × Nat)) (b : Board) (need : Nat) (b' : Board),
    plantLoop rows cols forb samples b need = some b' →
    ∀ r c : Int, (getC b' r c).isMine = true →
      (getC b r c).isMine = true ∨ (r, c) ∉ forb := by
  intro samples
  induction samples with
  | nil =>
    intro b need b' h r c hm
    cases need with
    | zero => cases h; exact Or.inl hm
    | succ k => simp [plantLoop] at h
  | cons s rest ih =>
    intro b need b' h r c hm
    cases need with
    | zero => cases h; exact Or.inl hm
    | succ k =>
      obtain ⟨x, y⟩ := s
      simp only [plantLoop] at h
      split at h
      · rename_i hcond
        rcases ih _ _ _ h r c hm with hball | hforb
        · by_cases hp : r = ((x % rows : Nat) : Int) ∧ c = ((y % cols : Nat) : Int)
          · right
            rw [hp.1, hp.2]
            exact hcond.1
          · left
            rw [getC_modifyCell_ne _ _ _ _ _ _ hp] at hball
            exact hball
        · exact Or.inr hforb
      · exact ih _ _ _ h r c hm

theorem plantLoop_countMines (rows cols : Nat) (forb : List (Int × Int))
    (hrows : 0 < rows) (hcols : 0 < cols) :
    ∀ (samples : List (Nat × Nat)) (b : Board) (need : Nat) (b' : Board),
    Dims b rows cols → plantLoop rows cols forb samples b need = some b' →
    countMines b' = countMines b + need := by
  intro samples
  induction samples with
  | nil =>
    intro b need b' hD h
    cases need with
    | zero => cases h; rfl
    | succ k => simp [plantLoop] at h
  | cons s rest ih =>
    intro b need b' hD h
    cases need with
    | zero => cases h; rfl
    | succ k =>
      obtain ⟨x, y⟩ := s
      simp only [plantLoop] at h
      split at h
      · rename_i hcond
        have hxr : x % rows < rows := Nat.mod_lt _ hrows
        have hyc : y % cols < cols := Nat.mod_lt _ hcols
        have hlen := hD.1
        have hrl : ((x % rows : Nat) : Int).toNat < b.length := by
          simp only [Int.toNat_natCast]; omega
        have hcl : ((y % cols : Nat) : Int).toNat <
            (b.getD ((x % rows : Nat) : Int).toNat []).length := by
          simp only [Int.toNat_natCast]
          rw [hD.2 (x % rows) (by omega)]
          omega
        have hmain := ih _ _ _ (dims_modifyCell _ _ _ _ _ _ hD) h
        rw [hmain]
        have hmine :
            countMines (modifyCell b ((x % rows : Nat) : Int) ((y % cols : Nat) : Int)
              (fun cel => { cel with isMine := true })) = countMines b + 1 := by
          unfold countMines
          unfold modifyCell
          rw [if_neg (by omega : ¬(((x % rows : Nat) : Int) < 0 ∨ ((y % cols : Nat) : Int) < 0))]
          apply countP_flatB_updAt_add _ _ _ _ (by simpa using hrl)
          apply countP_updAt_add _ _ _ _ defaultCell (by simpa using hcl)
          · have := hcond.2
            unfold getC at this
            rw [if_neg (by omega : ¬(((x % rows : Nat) : Int) < 0 ∨ ((y % cols : Nat) : Int) < 0))] at this
            simpa using this
          · rfl
        rw [hmine]
        omega
      · exact ih _ _ _ hD h

theorem plantLoop_frame (rows cols : Nat) (forb : List (Int × Int)) :
    ∀ (samples : List (Nat × Nat)) (b : Board) (need : Nat) (b' : Board),
    plantLoop rows cols forb samples b need = some b' →
    ∀ r c : Int,
      (getC b' r c).isRevealed = (getC b r c).isRevealed ∧
      (getC b' r c).isFlagged = (getC b r c).isFlagged ∧
      (getC b' r c).count = (getC b r c).count := by
  intro samples
  induction samples with
  | nil =>
    intro b need b' h r c
    cases need with
    | zero => cases h; exact ⟨rfl, rfl, rfl⟩
    | succ k => simp [plantLoop] at h
  | cons s rest ih =>
    intro b need b' h r c
    cases need with
    | zero => cases h; exact ⟨rfl, rfl, rfl⟩
    | succ k =>
      obtain ⟨x, y⟩ := s
      simp only [plantLoop] at h
      split at h
      · have hstep := ih _ _ _ h r c
        rcases getC_modifyCell_or b ((x % rows : Nat) : Int) ((y % cols : Nat) : Int) r c
            (fun cel => { cel with isMine := true }) with heq | heq <;>
          rw [heq] at hstep <;> exact hstep
      · exact ih _ _ _ h r c

theorem length_mapRowFrom (g : Nat → Cell → Cell) (j0 : Nat) (row : List Cell) :
    (mapRowFrom g j0 row).length = row.length := by
  induction row generalizing j0 with
  | nil => rfl
  | cons x xs ih => simp [mapRowFrom, ih]

theorem length_mapGridFrom (f : Nat → Nat → Cell → Cell) (i0 : Nat) (b : Board) :
    (mapGridFrom f i0 b).length = b.length := by
  induction b generalizing i0 with
  | nil => rfl
  | cons row rest ih => simp [mapGridFrom, ih]

theorem getD_mapRowFrom (g : Nat → Cell → Cell) (j0 j : Nat) (row : List Cell)
    (h : j < row.length) :
    (mapRowFrom g j0 row).getD j defaultCell = g (j0 + j) (row.getD j defaultCell) := by
  induction row generalizing j0 j with
  | nil => simp at h
  | cons x xs ih =>
    cases j with
    | zero => simp [mapRowFrom]
    | succ m =>
      simp only [List.length_cons, Nat.succ_lt_succ_iff] at h
      have := ih (j0 + 1) m h
      simp only [mapRowFrom, List.getD_cons_succ]
      rw [this]
      ring_nf

theorem getD_mapGridFrom (f : Nat → Nat → Cell → Cell) (i0 i : Nat) (b : Board)
    (h : i < b.length) :
    (mapGridFrom f i0 b).getD i [] = mapRowFrom (f (i0 + i)) 0 (b.getD i []) := by
  induction b generalizing i0 i with
  | nil => simp at h
  | cons row rest ih =>
    cases i with
    | zero => simp [mapGridFrom]
    | succ m =>
      simp only [List.length_cons, Nat.succ_lt_succ_iff] at h
      have := ih (i0 + 1) m h
      simp only [mapGridFrom, List.getD_cons_succ]
      rw [this]
      ring_nf

theorem getC_computeCounts (rows cols : Nat) (b : Board) (r c : Int)
    (_hD : Dims b rows cols) (h0 : 0 ≤ r) (h1 : 0 ≤ c)
    (hr : r.toNat < b.length) (hc : c.toNat < (b.getD r.toNat []).length) :
    getC (computeCounts rows cols b) r c =
      (if (getC b r c).isMine then getC b r c
       else { getC b r c with count := mineNbrCount rows cols b r c }) := by
  have hneg : ¬(r < 0 ∨ c < 0) := by omega
  simp only [getC, if_neg hneg, computeCounts]
  rw [getD_mapGridFrom _ _ _ _ hr, getD_mapRowFrom _ _ _ _ hc]
  simp only [Nat.zero_add]
  have hrr : ((r.toNat : Nat) : Int) = r := Int.toNat_of_nonneg h0
  have hcc : ((c.toNat : Nat) : Int) = c := Int.toNat_of_nonneg h1
  rw [hrr, hcc]

theorem countP_mapRowFrom (g : Nat → Cell → Cell) (p : Cell → Bool)
    (hp : ∀ j cell, p (g j cell) = p cell) (j0 : Nat) (row : List Cell) :
    (mapRowFrom g j0 row).countP p = row.countP p := by
  induction row generalizing j0 with
  | nil => rfl
  | cons x xs ih => simp [mapRowFrom, List.countP_cons, ih, hp]

theorem countP_mapGridFrom (f : Nat → Nat → Cell → Cell) (p : Cell → Bool)
    (hp : ∀ i j cell, p (f i j cell) = p cell) (i0 : Nat) (b : Board) :
    (flatB (mapGridFrom f i0 b)).countP p = (flatB b).countP p := by
  induction b generalizing i0 with
  | nil => rfl
  | cons row rest ih =>
    simp only [mapGridFrom, flatB_countP_append, List.countP_append]
    rw [countP_mapRowFrom _ _ (hp i0) 0 row, ih]

theorem isMine_computeCounts (rows cols : Nat) (b : Board) (r c : Int)
    (hD : Dims b rows cols) :
    (getC (computeCounts rows cols b) r c).isMine = (getC b r c).isMine := by
  by_cases hneg : r < 0 ∨ c < 0
  · rw [getC_neg _ _ _ hneg, getC_neg _ _ _ hneg]
  · push_neg at hneg
    by_cases hr : r.toNat < b.length
    · by_cases hc : c.toNat < (b.getD r.toNat []).length
      · rw [getC_computeCounts rows cols b r c hD hneg.1 hneg.2 hr hc]
        split <;> rfl
      · push_neg at hc
        have e1 : getC (computeCounts rows cols b) r c = defaultCell := by
          simp only [getC, if_neg (by omega : ¬(r < 0 ∨ c < 0)), computeCounts]
          rw [getD_mapGridFrom _ _ _ _ hr]
          apply List.getD_eq_default
          rw [length_mapRowFrom]
          exact hc
        have e2 : getC b r c = defaultCell := by
          simp only [getC, if_neg (by omega : ¬(r < 0 ∨ c < 0))]
          exact List.getD_eq_default _ _ hc
        rw [e1, e2]
    · push_neg at hr
      have e1 : getC (computeCounts rows cols b) r c = defaultCell := by
        simp only [getC, if_neg (by omega : ¬(r < 0 ∨ c < 0)), computeCounts]
        rw [List.getD_eq_default (mapGridFrom _ 0 b) []
          (by rw [length_mapGridFrom]; exact hr)]
        rfl
      have e2 : getC b r c = defaultCell := by
        simp only [getC, if_neg (by omega : ¬(r < 0 ∨ c < 0))]
        rw [List.getD_eq_default b [] hr]
        rfl
      rw [e1, e2]

theorem mineNbrCount_congr (rows cols : Nat) (b b' : Board)
    (h : ∀ r c : Int, (getC b' r c).isMine = (getC b r c).isMine) (r c : Int) :
    mineNbrCount rows cols b' r c = mineNbrCount rows cols b r c := by
  unfold mineNbrCount
  congr 1
  apply List.filter_congr
  intro p _
  rw [h p.1 p.2]

theorem countMines_makeEmptyBoard (rows cols : Nat) :
    countMines (makeEmptyBoard rows cols) = 0 := by
  unfold countMines makeEmptyBoard
  induction rows with
  | zero => rfl
  | succ n ih =>
    rw [List.replicate_succ, flatB_countP_append, ih, List.countP_eq_zero.2]
    intro a ha
    rw [List.eq_of_mem_replicate ha]
    decide

theorem dims_computeCounts (rows cols : Nat) (b : Board) (hD : Dims b rows cols) :
    Dims (computeCounts rows cols b) rows cols := by
  refine ⟨by rw [computeCounts, length_mapGridFrom]; exact hD.1, fun i hi => ?_⟩
  have hib : i < b.length := by rw [hD.1]; exact hi
  rw [computeCounts, getD_mapGridFrom _ _ _ _ hib, length_mapRowFrom]
  exact hD.2 i hi

/-- C1: for every difficulty and first-click coordinate, after a successful
`plantMines(board, rows, cols, mines, r, c)` on an all-empty board, (1) the
clicked cell and all of its in-bounds 8-neighbors are not mines, (2) exactly
`mines` cells of the grid are mines, and (3) every non-mine cell's `count`
equals the number of its in-bounds mine-bearing neighbors while mine cells
keep `count = 0`. -/
theorem C1_plantMines_postcondition (rows cols mines : Nat) (safeR safeC : Int)
    (rng : List (Nat × Nat)) (b' : Board)
    (hrows : 0 < rows) (hcols : 0 < cols)
    (hplant : plantMines (makeEmptyBoard rows cols) rows cols mines safeR safeC rng
      = some b') :
    ((getC b' safeR safeC).isMine = false ∧
      ∀ p ∈ nbrs safeR safeC, inBoundsB rows cols p.1 p.2 = true →
        (getC b' p.1 p.2).isMine = false) ∧
    countMines b' = mines ∧
    (∀ r c : Int, inBoundsB rows cols r c = true →
      ((getC b' r c).isMine = false →
        (getC b' r c).count = mineNbrCount rows cols b' r c) ∧
      ((getC b' r c).isMine = true → (getC b' r c).count = 0)) := by
  unfold plantMines at hplant
  rcases hpl : plantLoop rows cols (forbiddenList rows cols safeR safeC) rng
      (makeEmptyBoard rows cols) mines with _ | b1
  · rw [hpl] at hplant; exact Option.noConfusion hplant
  · rw [hpl] at hplant
    have hplant' : some (computeCounts rows cols b1) = some b' := hplant
    have hb' : b' = computeCounts rows cols b1 := (Option.some.inj hplant').symm
    subst hb'
    have hD1 : Dims b1 rows cols :=
      dims_plantLoop rows cols _ rng _ mines b1 (dims_makeEmptyBoard rows cols) hpl
    have hmine_same : ∀ r c : Int,
        (getC (computeCounts rows cols b1) r c).isMine = (getC b1 r c).isMine :=
      fun r c => isMine_computeCounts rows cols b1 r c hD1
    have key : ∀ r c : Int, (r, c) ∈ forbiddenList rows cols safeR safeC →
        (getC (computeCounts rows cols b1) r c).isMine = false := by
      intro r c hmem
      rcases Bool.eq_false_or_eq_true ((getC (computeCounts rows cols b1) r c).isMine)
        with h | h
      · exfalso
        rw [hmine_same] at h
        rcases plantLoop_mine_src rows cols _ rng _ mines b1 hpl r c h with hh | hh
        · rw [getC_makeEmptyBoard] at hh
          simp [defaultCell] at hh
        · exact hh hmem
      · exact h
    refine ⟨⟨key safeR safeC (List.mem_cons_self _ _), ?_⟩, ?_, ?_⟩
    · intro p hp hbp
      have hmem : (p.1, p.2) ∈ forbiddenList rows cols safeR safeC := by
        apply List.mem_cons_of_mem
        apply List.mem_filter.2
        exact ⟨by simpa using hp, hbp⟩
      exact key p.1 p.2 hmem
    · have h1 : countMines (computeCounts rows cols b1) = countMines b1 := by
        unfold countMines computeCounts
        apply countP_mapGridFrom
        intro i j cell
        split <;> rfl
      rw [h1,
        plantLoop_countMines rows cols _ hrows hcols rng _ mines b1
          (dims_makeEmptyBoard rows cols) hpl,
        countMines_makeEmptyBoard]
      omega
    · intro r c hb
      obtain ⟨h0, h1, hr, hc⟩ := inDims_of_inBounds b1 rows cols r c hD1 hb
      have hcc := getC_computeCounts rows cols b1 r c hD1 h0 h1 hr hc
      constructor
      · intro hnm
        have hnm1 : (getC b1 r c).isMine = false := by rw [← hmine_same]; exact hnm
        rw [hcc, if_neg (by rw [hnm1]; exact Bool.false_ne_true)]
        have := mineNbrCount_congr rows cols b1 (computeCounts rows cols b1)
          hmine_same r c
        rw [this]
      · intro hm
        have hm1 : (getC b1 r c).isMine = true := by rw [← hmine_same]; exact hm
        rw [hcc, if_pos hm1]
        have hfr := plantLoop_frame rows cols _ rng _ mines b1 hpl r c
        rw [hfr.2.2, getC_makeEmptyBoard]
        rfl

theorem some_ite {α : Type} (P : Prop) [Decidable P] (a b : α) :
    (if P then some a else some b) = some (if P then a else b) := by
  split <;> rfl

theorem handleReveal_terminal (rng : List (Nat × Nat)) (s : GameState) (r c : Int)
    (h : s.status = Status.lost ∨ s.status = Status.won) :
    handleReveal rng s r c = some s := by
  unfold handleReveal
  rw [if_pos h]

theorem handleFlag_terminal (s : GameState) (r c : Int)
    (h : s.status = Status.lost ∨ s.status = Status.won) :
    handleFlag s r c = some s := by
  unfold handleFlag
  rw [if_pos h]

theorem gameState_eta (s : GameState) (hp : s.minesPlanted = true) :
    ({ s with minesPlanted := true, status := s.status } : GameState) = s := by
  obtain ⟨a, b, m, bd, mp, st, rc⟩ := s
  simp only at hp
  simp only [hp]

theorem handleReveal_planted (rng : List (Nat × Nat)) (s : GameState) (r c : Int)
    (hterm : ¬(s.status = Status.lost ∨ s.status = Status.won))
    (hp : s.minesPlanted = true) :
    handleReveal rng s r c = handleRevealCore s s.board r c := by
  unfold handleReveal
  rw [if_neg hterm, hp]
  simp only [if_true]
  rw [cloneBoard_eq]

theorem handleReveal_unplanted (rng : List (Nat × Nat)) (s : GameState) (r c : Int)
    (hterm : ¬(s.status = Status.lost ∨ s.status = Status.won))
    (hp : s.minesPlanted = false) :
    handleReveal rng s r c =
      match plantMines (cloneBoard s.board) s.rows s.cols s.mines r c rng with
      | none => none
      | some next => handleRevealCore s next r c := by
  unfold handleReveal
  rw [if_neg hterm, hp]
  simp only [Bool.false_eq_true, if_false]

theorem handleRevealCore_none (s : GameState) (next : Board) (r c : Int)
    (hq : getCq next r c = none) : handleRevealCore s next r c = none := by
  unfold handleRevealCore
  rw [hq]

theorem handleRevealCore_reject (s : GameState) (next : Board) (r c : Int)
    (hq : getCq next r c = some (getC next r c))
    (h1 : (getC next r c).isRevealed = true ∨ (getC next r c).isFlagged = true) :
    handleRevealCore s next r c =
      some { s with minesPlanted := true,
                    status := if s.minesPlanted then s.status else Status.playing } := by
  unfold handleRevealCore
  split
  · rename_i heq
    rw [heq] at hq
    exact Option.noConfusion hq
  · rename_i cell heq
    rw [heq] at hq
    have hc := Option.some.inj hq
    subst hc
    rw [if_pos h1]

theorem handleRevealCore_loss (s : GameState) (next : Board) (r c : Int)
    (hq : getCq next r c = some (getC next r c))
    (h1 : (getC next r c).isRevealed = false) (h2 : (getC next r c).isFlagged = false)
    (h3 : (getC next r c).isMine = true) :
    handleRevealCore s next r c =
      some { s with board := revealMines next, minesPlanted := true,
                    status := Status.lost } := by
  unfold handleRevealCore
  split
  · rename_i heq
    rw [heq] at hq
    exact Option.noConfusion hq
  · rename_i cell heq
    rw [heq] at hq
    have hc := Option.some.inj hq
    subst hc
    rw [if_neg (by simp [h1, h2]), if_pos h3]

theorem handleRevealCore_normal (s : GameState) (next : Board) (r c : Int)
    (hq : getCq next r c = some (getC next r c))
    (h1 : (getC next r c).isRevealed = false) (h2 : (getC next r c).isFlagged = false)
    (h3 : (getC next r c).isMine = false) :
    handleRevealCore s next r c = some (hrNormalResult s next r c) := by
  unfold handleRevealCore
  split
  · rename_i heq
    rw [heq] at hq
    exact Option.noConfusion hq
  · rename_i cell heq
    rw [heq] at hq
    have hc := Option.some.inj hq
    subst hc
    rw [if_neg (by simp [h1, h2]), if_neg (by simp [h3])]
    simp only [hrNormalResult, hrNext2]
    exact some_ite _ _ _

theorem handleFlag_eq (s : GameState) (r c : Int)
    (hterm : ¬(s.status = Status.lost ∨ s.status = Status.won)) :
    handleFlag s r c =
      match getCq s.board r c with
      | none => none
      | some cell =>
        if cell.isRevealed then some s
        else if (!cell.isFlagged) = true ∧
            (s.mines : Int) - (countFlagged s.board : Int) = 0 then some s
        else some { s with board := modifyCell s.board r c (fun cel => { cel with isFlagged := !cell.isFlagged }) } := by
  unfold handleFlag
  rw [if_neg hterm]
  simp only [cloneBoard_eq]

theorem getC_revealMines (b : Board) (r c : Int) :
    getC (revealMines b) r c =
      if (getC b r c).isMine then { getC b r c with isRevealed := true }
      else getC b r c := by
  unfold revealMines
  rw [getC_mapBoard _ _ rfl]

theorem getC_flagMines (b : Board) (r c : Int) :
    getC (flagMines b) r c =
      if (getC b r c).isMine then { getC b r c with isFlagged := true }
      else getC b r c := by
  unfold flagMines
  rw [getC_mapBoard _ _ rfl]

theorem countP_modifyCell_inv (b : Board) (r c : Int) (f : Cell → Cell)
    (p : Cell → Bool) (hp : ∀ cell, p (f cell) = p cell) :
    (flatB (modifyCell b r c f)).countP p = (flatB b).countP p := by
  unfold modifyCell
  split
  · rfl
  · exact countP_flatB_updAt_same _ _ _ _
      (countP_updAt_same _ _ _ _ defaultCell (hp _))

theorem countP_mapBoard (b : Board) (g : Cell → Cell) (p : Cell → Bool) :
    (flatB (b.map (fun row => row.map g))).countP p =
      (flatB b).countP (fun cell => p (g cell)) := by
  rw [flatB_map, List.countP_map]
  rfl

theorem revealedSafe_revealMines (b : Board) :
    revealedSafe (revealMines b) = revealedSafe b := by
  unfold revealedSafe revealMines
  rw [countP_mapBoard]
  congr 1
  funext cell
  by_cases hm : cell.isMine = true <;> simp [hm]

theorem countMines_revealMines (b : Board) :
    countMines (revealMines b) = countMines b := by
  unfold countMines revealMines
  rw [countP_mapBoard]
  congr 1
  funext cell
  by_cases hm : cell.isMine = true <;> simp [hm]

theorem countFlagged_revealMines (b : Board) :
    countFlagged (revealMines b) = countFlagged b := by
  unfold countFlagged revealMines
  rw [countP_mapBoard]
  congr 1
  funext cell
  by_cases hm : cell.isMine = true <;> simp [hm]

theorem revealedSafe_flagMines (b : Board) :
    revealedSafe (flagMines b) = revealedSafe b := by
  unfold revealedSafe flagMines
  rw [countP_mapBoard]
  congr 1
  funext cell
  by_cases hm : cell.isMine = true <;> simp [hm]

theorem countMines_flagMines (b : Board) :
    countMines (flagMines b) = countMines b := by
  unfold countMines flagMines
  rw [countP_mapBoard]
  congr 1
  funext cell
  by_cases hm : cell.isMine = true <;> simp [hm]

theorem countFlagged_flagMines_of (b : Board)
    (h : ∀ cell ∈ flatB b, cell.isFlagged = true → cell.isMine = true) :
    countFlagged (flagMines b) = countMines b := by
  unfold countFlagged countMines flagMines
  rw [countP_mapBoard]
  apply List.countP_congr
  intro cell hcell
  by_cases hm : cell.isMine = true
  · simp [hm]
  · simp only [if_neg hm]
    constructor
    · intro hf; exact absurd (h cell hcell hf) hm
    · intro hf; exact absurd hf hm

theorem countP_scanNbrs (rows cols : Nat) (p : Cell → Bool)
    (hp : ∀ cell, p { cell with isRevealed := true } = p cell) :
    ∀ (ns q seen : List (Int × Int)) (b : Board),
    (flatB (scanNbrs rows cols ns q seen b).2.2).countP p = (flatB b).countP p := by
  intro ns
  induction ns with
  | nil => intro q seen b; rfl
  | cons n ns ih =>
    intro q seen b
    unfold scanNbrs
    split
    · rw [ih]
      exact countP_modifyCell_inv _ _ _ _ _ hp
    · exact ih _ _ _

theorem countP_floodAux (rows cols : Nat) (p : Cell → Bool)
    (hp : ∀ cell, p { cell with isRevealed := true } = p cell) :
    ∀ (fuel : Nat) (q seen : List (Int × Int)) (b : Board),
    (flatB (floodAux rows cols fuel q seen b)).countP p = (flatB b).countP p := by
  intro fuel
  induction fuel with
  | zero => intro q seen b; rfl
  | succ n ih =>
    intro q seen b
    cases q with
    | nil => rfl
    | cons pc rest =>
      simp only [floodAux]
      split
      · rw [ih, countP_scanNbrs rows cols p hp]
        exact countP_modifyCell_inv _ _ _ _ _ hp
      · rw [ih]
        exact countP_modifyCell_inv _ _ _ _ _ hp

theorem countMines_floodReveal (b : Board) (r c : Int) :
    countMines (floodReveal b r c) = countMines b := by
  unfold floodReveal countMines
  apply countP_floodAux
  intro cell
  rfl

theorem countFlagged_floodReveal (b : Board) (r c : Int) :
    countFlagged (floodReveal b r c) = countFlagged b := by
  unfold floodReveal countFlagged
  apply countP_floodAux
  intro cell
  rfl

theorem countMines_modifyReveal (b : Board) (r c : Int) :
    countMines (modifyCell b r c (fun cel => { cel with isRevealed := true }))
      = countMines b := by
  apply countP_modifyCell_inv
  intro cell
  rfl

theorem countFlagged_modifyReveal (b : Board) (r c : Int) :
    countFlagged (modifyCell b r c (fun cel => { cel with isRevealed := true }))
      = countFlagged b := by
  apply countP_modifyCell_inv
  intro cell
  rfl

theorem getC_setRevealed_fields (b : Board) (r c r' c' : Int) :
    (getC (modifyCell b r c (fun cel => { cel with isRevealed := true })) r' c').isMine
        = (getC b r' c').isMine ∧
    (getC (modifyCell b r c (fun cel => { cel with isRevealed := true })) r' c').isFlagged
        = (getC b r' c').isFlagged ∧
    (getC (modifyCell b r c (fun cel => { cel with isRevealed := true })) r' c').count
        = (getC b r' c').count := by
  rcases getC_modifyCell_or b r c r' c' (fun cel => { cel with isRevealed := true })
    with h | h <;> rw [h] <;> exact ⟨rfl, rfl, rfl⟩

theorem getC_setRevealed_mono (b : Board) (r c r' c' : Int)
    (h : (getC b r' c').isRevealed = true) :
    (getC (modifyCell b r c (fun cel => { cel with isRevealed := true })) r' c').isRevealed
      = true := by
  rcases getC_modifyCell_or b r c r' c' (fun cel => { cel with isRevealed := true })
    with he | he
  · rw [he]; exact h
  · rw [he]

theorem getC_setRevealed_src (b : Board) (r c r' c' : Int)
    (h : (getC (modifyCell b r c (fun cel => { cel with isRevealed := true })) r' c').isRevealed = true) :
    (getC b r' c').isRevealed = true ∨ (r' = r ∧ c' = c) := by
  by_cases hp : r' = r ∧ c' = c
  · exact Or.inr hp
  · rw [getC_modifyCell_ne _ _ _ _ _ _ hp] at h
    exact Or.inl h

theorem scanNbrs_fields (rows cols : Nat) :
    ∀ (ns q seen : List (Int × Int)) (b : Board) (r' c' : Int),
    (getC (scanNbrs rows cols ns q seen b).2.2 r' c').isMine = (getC b r' c').isMine ∧
    (getC (scanNbrs rows cols ns q seen b).2.2 r' c').isFlagged = (getC b r' c').isFlagged ∧
    (getC (scanNbrs rows cols ns q seen b).2.2 r' c').count = (getC b r' c').count := by
  intro ns
  induction ns with
  | nil => intro q seen b r' c'; exact ⟨rfl, rfl, rfl⟩
  | cons n ns ih =>
    intro q seen b r' c'
    unfold scanNbrs
    split
    · obtain ⟨h1, h2, h3⟩ := ih (if (getC b n.1 n.2).count = 0 then q ++ [n] else q)
        (n :: seen) (modifyCell b n.1 n.2 (fun cel => { cel with isRevealed := true })) r' c'
      obtain ⟨g1, g2, g3⟩ := getC_setRevealed_fields b n.1 n.2 r' c'
      exact ⟨h1.trans g1, h2.trans g2, h3.trans g3⟩
    · exact ih _ _ _ _ _

theorem scanNbrs_rev_mono (rows cols : Nat) :
    ∀ (ns q seen : List (Int × Int)) (b : Board) (r' c' : Int),
    (getC b r' c').isRevealed = true →
    (getC (scanNbrs rows cols ns q seen b).2.2 r' c').isRevealed = true := by
  intro ns
  induction ns with
  | nil => intro q seen b r' c' h; exact h
  | cons n ns ih =>
    intro q seen b r' c' h
    unfold scanNbrs
    split
    · exact ih _ _ _ _ _ (getC_setRevealed_mono b n.1 n.2 r' c' h)
    · exact ih _ _ _ _ _ h

theorem scanNbrs_rev_src (rows cols : Nat) :
    ∀ (ns q seen : List (Int × Int)) (b : Board) (r' c' : Int),
    (getC (scanNbrs rows cols ns q seen b).2.2 r' c').isRevealed = true →
    (getC b r' c').isRevealed = true ∨
      ((getC b r' c').isFlagged = false ∧ (getC b r' c').isMine = false) := by
  intro ns
  induction ns with
  | nil => intro q seen b r' c' h; exact Or.inl h
  | cons n ns ih =>
    intro q seen b r' c' h
    rw [scanNbrs] at h
    split at h
    · rename_i hcond
      rcases ih _ _ _ _ _ h with hrev | hok
      · rcases getC_setRevealed_src b n.1 n.2 r' c' hrev with hrev2 | hp
        · exact Or.inl hrev2
        · right
          rw [hp.1, hp.2]
          exact ⟨hcond.2.2.2.1, hcond.2.2.2.2⟩
      · right
        obtain ⟨g1, g2, _⟩ := getC_setRevealed_fields b n.1 n.2 r' c'
        rw [← g2, ← g1]
        exact hok
    · exact ih _ _ _ _ _ h

theorem scanNbrs_queue_src (rows cols : Nat) :
    ∀ (ns q seen : List (Int × Int)) (b : Board) (t : Int × Int),
    t ∈ (scanNbrs rows cols ns q seen b).1 →
    t ∈ q ∨ ((getC b t.1 t.2).isFlagged = false ∧ (getC b t.1 t.2).isMine = false) := by
  intro ns
  induction ns with
  | nil => intro q seen b t h; exact Or.inl h
  | cons n ns ih =>
    intro q seen b t h
    rw [scanNbrs] at h
    split at h
    · rename_i hcond
      rcases ih _ _ _ _ h with hq | hok
      · rcases eq_or_ne ((getC b n.1 n.2).count) 0 with hz | hz
        · rw [if_pos hz] at hq
          rcases List.mem_append.1 hq with hq2 | hq2
          · exact Or.inl hq2
          · right
            have ht : t = n := by simpa using hq2
            rw [ht]
            exact ⟨hcond.2.2.2.1, hcond.2.2.2.2⟩
        · rw [if_neg hz] at hq
          exact Or.inl hq
      · right
        obtain ⟨g1, g2, _⟩ := getC_setRevealed_fields b n.1 n.2 t.1 t.2
        rw [← g2, ← g1]
        exact hok
    · exact ih _ _ _ _ h

theorem floodAux_fields (rows cols : Nat) :
    ∀ (fuel : Nat) (q seen : List (Int × Int)) (b : Board) (r' c' : Int),
    (getC (floodAux rows cols fuel q seen b) r' c').isMine = (getC b r' c').isMine ∧
    (getC (floodAux rows cols fuel q seen b) r' c').isFlagged = (getC b r' c').isFlagged ∧
    (getC (floodAux rows cols fuel q seen b) r' c').count = (getC b r' c').count := by
  intro fuel
  induction fuel with
  | zero => intro q seen b r' c'; exact ⟨rfl, rfl, rfl⟩
  | succ m ih =>
    intro q seen b r' c'
    cases q with
    | nil => exact ⟨rfl, rfl, rfl⟩
    | cons pc rest =>
      simp only [floodAux]
      split
      · obtain ⟨h1, h2, h3⟩ := ih _ _ _ r' c'
        obtain ⟨s1, s2, s3⟩ := scanNbrs_fields rows cols (nbrs pc.1 pc.2) rest seen
          (modifyCell b pc.1 pc.2 (fun cel => { cel with isRevealed := true })) r' c'
        obtain ⟨g1, g2, g3⟩ := getC_setRevealed_fields b pc.1 pc.2 r' c'
        exact ⟨(h1.trans s1).trans g1, (h2.trans s2).trans g2, (h3.trans s3).trans g3⟩
      · obtain ⟨h1, h2, h3⟩ := ih _ _ _ r' c'
        obtain ⟨g1, g2, g3⟩ := getC_setRevealed_fields b pc.1 pc.2 r' c'
        exact ⟨h1.trans g1, h2.trans g2, h3.trans g3⟩

theorem floodAux_rev_mono (rows cols : Nat) :
    ∀ (fuel : Nat) (q seen : List (Int × Int)) (b : Board) (r' c' : Int),
    (getC b r' c').isRevealed = true →
    (getC (floodAux rows cols fuel q seen b) r' c').isRevealed = true := by
  intro fuel
  induction fuel with
  | zero => intro q seen b r' c' h; exact h
  | succ m ih =>
    intro q seen b r' c' h
    cases q with
    | nil => exact h
    | cons pc rest =>
      simp only [floodAux]
      split
      · exact ih _ _ _ _ _ (scanNbrs_rev_mono rows cols _ _ _ _ _ _
          (getC_setRevealed_mono b pc.1 pc.2 r' c' h))
      · exact ih _ _ _ _ _ (getC_setRevealed_mono b pc.1 pc.2 r' c' h)

theorem floodAux_rev_src (rows cols : Nat) :
    ∀ (fuel : Nat) (q seen : List (Int × Int)) (b : Board) (r' c' : Int),
    (getC (floodAux rows cols fuel q seen b) r' c').isRevealed = true →
    (getC b r' c').isRevealed = true ∨ (r', c') ∈ q ∨
      ((getC b r' c').isFlagged = false ∧ (getC b r' c').isMine = false) := by
  intro fuel
  induction fuel with
  | zero => intro q seen b r' c' h; exact Or.inl h
  | succ m ih =>
    intro q seen b r' c' h
    cases q with
    | nil => exact Or.inl h
    | cons pc rest =>
      rw [floodAux] at h
      simp only [] at h
      split at h
      · rcases ih _ _ _ r' c' h with h2 | h2 | h2
        · rcases scanNbrs_rev_src rows cols _ _ _ _ r' c' h2 with h3 | h3
          · rcases getC_setRevealed_src b pc.1 pc.2 r' c' h3 with h4 | h4
            · exact Or.inl h4
            · refine Or.inr (Or.inl ?_)
              have : (r', c') = pc := Prod.ext h4.1 h4.2
              rw [this]
              exact List.mem_cons_self _ _
          · obtain ⟨g1, g2, _⟩ := getC_setRevealed_fields b pc.1 pc.2 r' c'
            exact Or.inr (Or.inr ⟨g2 ▸ h3.1, g1 ▸ h3.2⟩)
        · rcases scanNbrs_queue_src rows cols _ _ _ _ _ h2 with h3 | h3
          · exact Or.inr (Or.inl (List.mem_cons_of_mem _ h3))
          · obtain ⟨g1, g2, _⟩ := getC_setRevealed_fields b pc.1 pc.2 r' c'
            exact Or.inr (Or.inr ⟨g2 ▸ h3.1, g1 ▸ h3.2⟩)
        · obtain ⟨s1, s2, _⟩ := scanNbrs_fields rows cols (nbrs pc.1 pc.2) rest seen
            (modifyCell b pc.1 pc.2 (fun cel => { cel with isRevealed := true })) r' c'
          obtain ⟨g1, g2, _⟩ := getC_setRevealed_fields b pc.1 pc.2 r' c'
          have h21 := h2.1
          have h22 := h2.2
          rw [s2, g2] at h21
          rw [s1, g1] at h22
          exact Or.inr (Or.inr ⟨h21, h22⟩)
      · rcases ih _ _ _ r' c' h with h2 | h2 | h2
        · rcases getC_setRevealed_src b pc.1 pc.2 r' c' h2 with h3 | h3
          · exact Or.inl h3
          · refine Or.inr (Or.inl ?_)
            have : (r', c') = pc := Prod.ext h3.1 h3.2
            rw [this]
            exact List.mem_cons_self _ _
        · exact Or.inr (Or.inl (List.mem_cons_of_mem _ h2))
        · obtain ⟨g1, g2, _⟩ := getC_setRevealed_fields b pc.1 pc.2 r' c'
          exact Or.inr (Or.inr ⟨g2 ▸ h2.1, g1 ▸ h2.2⟩)

theorem floodReveal_fields (b : Board) (r c r' c' : Int) :
    (getC (floodReveal b r c) r' c').isMine = (getC b r' c').isMine ∧
    (getC (floodReveal b r c) r' c').isFlagged = (getC b r' c').isFlagged ∧
    (getC (floodReveal b r c) r' c').count = (getC b r' c').count :=
  floodAux_fields _ _ _ _ _ _ _ _

theorem floodReveal_rev_mono (b : Board) (r c r' c' : Int)
    (h : (getC b r' c').isRevealed = true) :
    (getC (floodReveal b r c) r' c').isRevealed = true :=
  floodAux_rev_mono _ _ _ _ _ _ _ _ h

theorem floodReveal_rev_src (b : Board) (r c r' c' : Int)
    (h : (getC (floodReveal b r c) r' c').isRevealed = true) :
    (getC b r' c').isRevealed = true ∨ (r' = r ∧ c' = c) ∨
      ((getC b r' c').isFlagged = false ∧ (getC b r' c').isMine = false) := by
  rcases floodAux_rev_src _ _ _ _ _ _ _ _ h with h2 | h2 | h2
  · exact Or.inl h2
  · refine Or.inr (Or.inl ?_)
    have : (r', c') = (r, c) := by simpa using h2
    exact ⟨congrArg Prod.fst this, congrArg Prod.snd this⟩
  · exact Or.inr (Or.inr h2)

theorem getD_mem {α : Type} (l : List α) (n : Nat) (d : α) (h : n < l.length) :
    l.getD n d ∈ l := by
  induction l generalizing n with
  | nil => simp at h
  | cons x xs ih =>
    cases n with
    | zero => exact List.mem_cons_self _ _
    | succ m =>
      simp only [List.length_cons, Nat.succ_lt_succ_iff] at h
      exact List.mem_cons_of_mem _ (ih _ h)

theorem mem_getD {α : Type} (l : List α) (a : α) (d : α) (h : a ∈ l) :
    ∃ n, n < l.length ∧ l.getD n d = a := by
  induction l with
  | nil => simp at h
  | cons x xs ih =>
    rcases List.mem_cons.1 h with h1 | h1
    · exact ⟨0, by simp, h1.symm⟩
    · obtain ⟨n, hn, he⟩ := ih h1
      exact ⟨n + 1, by simpa using hn, he⟩

theorem mem_flatB (b : Board) (cell : Cell) :
    cell ∈ flatB b ↔ ∃ row ∈ b, cell ∈ row := by
  induction b with
  | nil => simp [flatB]
  | cons row rest ih =>
    rw [flatB_cons]
    simp only [List.mem_append, List.mem_cons, ih]
    constructor
    · rintro (h | ⟨row2, h1, h2⟩)
      · exact ⟨row, Or.inl rfl, h⟩
      · exact ⟨row2, Or.inr h1, h2⟩
    · rintro ⟨row2, h1 | h1, h2⟩
      · exact Or.inl (h1 ▸ h2)
      · exact Or.inr ⟨row2, h1, h2⟩

theorem flatB_forall_getC (b : Board) (rows cols : Nat) (hD : Dims b rows cols)
    (p : Cell → Prop) :
    (∀ cell ∈ flatB b, p cell) ↔
      (∀ r c : Int, inBoundsB rows cols r c = true → p (getC b r c)) := by
  constructor
  · intro h r c hb
    obtain ⟨h0, h1, hr, hc⟩ := inDims_of_inBounds b rows cols r c hD hb
    apply h
    rw [mem_flatB]
    refine ⟨b.getD r.toNat [], getD_mem _ _ _ hr, ?_⟩
    have : getC b r c = (b.getD r.toNat []).getD c.toNat defaultCell := by
      unfold getC
      rw [if_neg (by omega : ¬(r < 0 ∨ c < 0))]
    rw [this]
    exact getD_mem _ _ _ hc
  · intro h cell hcell
    rw [mem_flatB] at hcell
    obtain ⟨row, hrow, hc⟩ := hcell
    obtain ⟨i, hi, hie⟩ := mem_getD b row [] hrow
    obtain ⟨j, hj, hje⟩ := mem_getD row cell defaultCell hc
    have hcell_eq : getC b (i : Int) (j : Int) = cell := by
      simp only [getC]
      rw [if_neg (by omega : ¬((i : Int) < 0 ∨ (j : Int) < 0))]
      simp only [Int.toNat_natCast]
      rw [hie, hje]
    have hbound : inBoundsB rows cols (i : Int) (j : Int) = true := by
      rw [inBoundsB_iff]
      have hir : i < rows := by rw [← hD.1]; exact hi
      have hjc : j < cols := by
        have := hD.2 i hir
        rw [hie] at this
        omega
      constructor
      · omega
      constructor
      · exact_mod_cast hir
      constructor
      · omega
      · exact_mod_cast hjc
    rw [← hcell_eq]
    exact h (i : Int) (j : Int) hbound

theorem flatB_length (b : Board) (rows cols : Nat) (hD : Dims b rows cols) :
    (flatB b).length = rows * cols := by
  obtain ⟨h1, h2⟩ := hD
  subst h1
  induction b with
  | nil => simp [flatB]
  | cons row rest ih =>
    rw [flatB_cons, List.length_append]
    have hrow : row.length = cols := by
      have := h2 0 (by simp)
      simpa using this
    have hih : (flatB rest).length = rest.length * cols := by
      apply ih
      intro i hi
      have := h2 (i + 1) (by simpa using Nat.succ_lt_succ hi)
      simpa using this
    rw [hrow, hih]
    simp [List.length_cons]
    ring

theorem countP_pointwise_of_le {α : Type} (l : List α) (p q : α → Bool)
    (himp : ∀ a ∈ l, p a = true → q a = true)
    (hc : l.countP q ≤ l.countP p) :
    ∀ a ∈ l, q a = true → p a = true := by
  intro a ha hq
  by_contra hp
  have key : l.countP p < l.countP q := by
    clear hc
    induction l with
    | nil => simp at ha
    | cons x xs ih =>
      rcases List.mem_cons.1 ha with h1 | h1
      · subst h1
        have hmono : xs.countP p ≤ xs.countP q :=
          List.countP_mono_left (fun y hy => himp y (List.mem_cons_of_mem _ hy))
        rw [List.countP_cons, List.countP_cons, if_neg hp, if_pos hq]
        omega
      · have := ih (fun y hy h => himp y (List.mem_cons.2 (Or.inr hy)) h) h1
        rw [List.countP_cons, List.countP_cons]
        have hx : (if p x = true then 1 else 0) ≤ (if q x = true then 1 else 0) := by
          by_cases hpx : p x = true
          · rw [if_pos hpx, if_pos (himp x (List.mem_cons_self _ _) hpx)]
          · rw [if_neg hpx]
            omega
        omega
  omega

theorem countP_updAt_le {α : Type} (l : List α) (n : Nat) (f : α → α)
    (p : α → Bool) (hf : ∀ x, p (f x) = true → p x = true) :
    (updAt l n f).countP p ≤ l.countP p := by
  induction l generalizing n with
  | nil => exact Nat.le_refl _
  | cons x xs ih =>
    cases n with
    | zero =>
      simp only [updAt, List.countP_cons]
      have : (if p (f x) = true then 1 else 0) ≤ (if p x = true then 1 else 0) := by
        by_cases hx : p (f x) = true
        · rw [if_pos hx, if_pos (hf x hx)]
        · rw [if_neg hx]; omega
      omega
    | succ m =>
      simp only [updAt, List.countP_cons]
      have := ih m
      omega

theorem countP_updAt_le_add {α : Type} (l : List α) (n : Nat) (f : α → α)
    (p : α → Bool) :
    (updAt l n f).countP p ≤ l.countP p + 1 := by
  induction l generalizing n with
  | nil => exact Nat.le_succ _
  | cons x xs ih =>
    cases n with
    | zero =>
      simp only [updAt, List.countP_cons]
      have : (if p (f x) = true then 1 else 0) ≤ 1 := by
        split
        · exact Nat.le_refl _
        · omega
      omega
    | succ m =>
      simp only [updAt, List.countP_cons]
      have := ih m
      omega

theorem countP_flatB_updAt_le (b : Board) (n : Nat) (g : List Cell → List Cell)
    (p : Cell → Bool) (hg : ∀ row, (g row).countP p ≤ row.countP p) :
    (flatB (updAt b n g)).countP p ≤ (flatB b).countP p := by
  induction b generalizing n with
  | nil => exact Nat.le_refl _
  | cons row rest ih =>
    cases n with
    | zero =>
      rw [updAt, flatB_countP_append, flatB_countP_append]
      have := hg row
      omega
    | succ m =>
      rw [updAt, flatB_countP_append, flatB_countP_append]
      have := ih m
      omega

theorem countP_flatB_updAt_le_add (b : Board) (n : Nat) (g : List Cell → List Cell)
    (p : Cell → Bool) (hg : ∀ row, (g row).countP p ≤ row.countP p + 1) :
    (flatB (updAt b n g)).countP p ≤ (flatB b).countP p + 1 := by
  induction b generalizing n with
  | nil => exact Nat.le_succ _
  | cons row rest ih =>
    cases n with
    | zero =>
      rw [updAt, flatB_countP_append, flatB_countP_append]
      have := hg row
      omega
    | succ m =>
      rw [updAt, flatB_countP_append, flatB_countP_append]
      have := ih m
      omega

theorem countP_modifyCell_le (b : Board) (r c : Int) (f : Cell → Cell)
    (p : Cell → Bool) (hf : ∀ x, p (f x) = true → p x = true) :
    (flatB (modifyCell b r c f)).countP p ≤ (flatB b).countP p := by
  unfold modifyCell
  split
  · exact Nat.le_refl _
  · exact countP_flatB_updAt_le _ _ _ _ (fun row => countP_updAt_le _ _ _ _ hf)

theorem countP_modifyCell_le_add (b : Board) (r c : Int) (f : Cell → Cell)
    (p : Cell → Bool) :
    (flatB (modifyCell b r c f)).countP p ≤ (flatB b).countP p + 1 := by
  unfold modifyCell
  split
  · exact Nat.le_succ _
  · exact countP_flatB_updAt_le_add _ _ _ _ (fun row => countP_updAt_le_add _ _ _ _)

theorem dims_scanNbrs (rows cols rows' cols' : Nat) :
    ∀ (ns q seen : List (Int × Int)) (b : Board), Dims b rows' cols' →
    Dims (scanNbrs rows cols ns q seen b).2.2 rows' cols' := by
  intro ns
  induction ns with
  | nil => intro q seen b hD; exact hD
  | cons n ns ih =>
    intro q seen b hD
    unfold scanNbrs
    split
    · exact ih _ _ _ (dims_modifyCell _ _ _ _ _ _ hD)
    · exact ih _ _ _ hD

theorem dims_floodAux (rows cols rows' cols' : Nat) :
    ∀ (fuel : Nat) (q seen : List (Int × Int)) (b : Board), Dims b rows' cols' →
    Dims (floodAux rows cols fuel q seen b) rows' cols' := by
  intro fuel
  induction fuel with
  | zero => intro q seen b hD; exact hD
  | succ m ih =>
    intro q seen b hD
    cases q with
    | nil => exact hD
    | cons pc rest =>
      simp only [floodAux]
      split
      · exact ih _ _ _ (dims_scanNbrs _ _ _ _ _ _ _ _ (dims_modifyCell _ _ _ _ _ _ hD))
      · exact ih _ _ _ (dims_modifyCell _ _ _ _ _ _ hD)

theorem dims_floodReveal (b : Board) (r c : Int) (rows' cols' : Nat)
    (hD : Dims b rows' cols') : Dims (floodReveal b r c) rows' cols' := by
  unfold floodReveal
  exact dims_floodAux _ _ _ _ _ _ _ _ hD

theorem computeCounts_keep (rows cols : Nat) (b : Board) (r c : Int)
    (hD : Dims b rows cols) :
    (getC (computeCounts rows cols b) r c).isMine = (getC b r c).isMine ∧
    (getC (computeCounts rows cols b) r c).isRevealed = (getC b r c).isRevealed ∧
    (getC (computeCounts rows cols b) r c).isFlagged = (getC b r c).isFlagged := by
  by_cases hneg : r < 0 ∨ c < 0
  · rw [getC_neg _ _ _ hneg, getC_neg _ _ _ hneg]
    exact ⟨rfl, rfl, rfl⟩
  · push_neg at hneg
    by_cases hr : r.toNat < b.length
    · by_cases hc : c.toNat < (b.getD r.toNat []).length
      · rw [getC_computeCounts rows cols b r c hD hneg.1 hneg.2 hr hc]
        split <;> exact ⟨rfl, rfl, rfl⟩
      · push_neg at hc
        have e1 : getC (computeCounts rows cols b) r c = defaultCell := by
          simp only [getC, if_neg (by omega : ¬(r < 0 ∨ c < 0)), computeCounts]
          rw [getD_mapGridFrom _ _ _ _ hr]
          apply List.getD_eq_default
          rw [length_mapRowFrom]
          exact hc
        have e2 : getC b r c = defaultCell := by
          simp only [getC, if_neg (by omega : ¬(r < 0 ∨ c < 0))]
          exact List.getD_eq_default _ _ hc
        rw [e1, e2]
        exact ⟨rfl, rfl, rfl⟩
    · push_neg at hr
      have e1 : getC (computeCounts rows cols b) r c = defaultCell := by
        simp only [getC, if_neg (by omega : ¬(r < 0 ∨ c < 0)), computeCounts]
        rw [List.getD_eq_default (mapGridFrom _ 0 b) []
          (by rw [length_mapGridFrom]; exact hr)]
        rfl
      have e2 : getC b r c = defaultCell := by
        simp only [getC, if_neg (by omega : ¬(r < 0 ∨ c < 0))]
        rw [List.getD_eq_default b [] hr]
        rfl
      rw [e1, e2]
      exact ⟨rfl, rfl, rfl⟩

theorem countP_plantLoop_inv (rows cols : Nat) (forb : List (Int × Int))
    (p : Cell → Bool) (hp : ∀ cell, p { cell with isMine := true } = p cell) :
    ∀ (samples : List (Nat × Nat)) (b : Board) (need : Nat) (b' : Board),
    plantLoop rows cols forb samples b need = some b' →
    (flatB b').countP p = (flatB b).countP p := by
  intro samples
  induction samples with
  | nil =>
    intro b need b' h
    cases need with
    | zero => cases h; rfl
    | succ k => simp [plantLoop] at h
  | cons s rest ih =>
    intro b need b' h
    cases need with
    | zero => cases h; rfl
    | succ k =>
      obtain ⟨x, y⟩ := s
      simp only [plantLoop] at h
      split at h
      · rw [ih _ _ _ h]
        exact countP_modifyCell_inv _ _ _ _ _ hp
      · exact ih _ _ _ h

theorem countP_computeCounts_inv (rows cols : Nat) (b : Board)
    (p : Cell → Bool) (hp : ∀ cell k, p { cell with count := k } = p cell) :
    (flatB (computeCounts rows cols b)).countP p = (flatB b).countP p := by
  unfold computeCounts
  apply countP_mapGridFrom
  intro i j cell
  split
  · rfl
  · exact hp cell _

theorem plantMines_props (b : Board) (rows cols mines : Nat) (sr sc : Int)
    (rng : List (Nat × Nat)) (b' : Board)
    (hD : Dims b rows cols) (hrows : 0 < rows) (hcols : 0 < cols)
    (h : plantMines b rows cols mines sr sc rng = some b') :
    Dims b' rows cols ∧
    countMines b' = countMines b + mines ∧
    (flatB b').countP (fun cell => cell.isRevealed) =
      (flatB b).countP (fun cell => cell.isRevealed) ∧
    countFlagged b' = countFlagged b ∧
    (∀ r c : Int, (getC b' r c).isRevealed = (getC b r c).isRevealed ∧
      (getC b' r c).isFlagged = (getC b r c).isFlagged) := by
  unfold plantMines at h
  rcases hpl : plantLoop rows cols (forbiddenList rows cols sr sc) rng b mines
    with _ | b1
  · rw [hpl] at h; exact Option.noConfusion h
  · rw [hpl] at h
    have h' : some (computeCounts rows cols b1) = some b' := h
    have hb' : b' = computeCounts rows cols b1 := (Option.some.inj h').symm
    subst hb'
    have hD1 : Dims b1 rows cols := dims_plantLoop rows cols _ rng _ mines b1 hD hpl
    refine ⟨dims_computeCounts rows cols b1 hD1, ?_, ?_, ?_, ?_⟩
    · have h1 : countMines (computeCounts rows cols b1) = countMines b1 := by
        unfold countMines computeCounts
        apply countP_mapGridFrom
        intro i j cell
        split <;> rfl
      rw [h1]
      exact plantLoop_countMines rows cols _ hrows hcols rng _ mines b1 hD hpl
    · rw [countP_computeCounts_inv rows cols b1 (fun cell => cell.isRevealed)
        (fun cell k => rfl)]
      exact countP_plantLoop_inv rows cols _ (fun cell => cell.isRevealed)
        (fun cell => rfl) rng _ mines b1 hpl
    · unfold countFlagged
      rw [countP_computeCounts_inv rows cols b1 (fun cell => cell.isFlagged)
        (fun cell k => rfl)]
      exact countP_plantLoop_inv rows cols _ (fun cell => cell.isFlagged)
        (fun cell => rfl) rng _ mines b1 hpl
    · intro r c
      have hk := computeCounts_keep rows cols b1 r c hD1
      have hf := plantLoop_frame rows cols _ rng _ mines b1 hpl r c
      exact ⟨hk.2.1.trans hf.1, hk.2.2.trans hf.2.1⟩

theorem countP_flatB_makeEmptyBoard (rows cols : Nat) (p : Cell → Bool)
    (hp : p defaultCell = false) :
    (flatB (makeEmptyBoard rows cols)).countP p = 0 := by
  unfold makeEmptyBoard
  induction rows with
  | zero => rfl
  | succ n ih =>
    rw [List.replicate_succ, flatB_countP_append, ih, List.countP_eq_zero.2]
    intro a ha
    rw [List.eq_of_mem_replicate ha, hp]
    exact Bool.false_ne_true

theorem inv_freshSession (rows cols mines : Nat) (h : mines < rows * cols) :
    Inv (freshSession rows cols mines) := by
  unfold Inv freshSession
  refine ⟨by exact_mod_cast h, dims_makeEmptyBoard rows cols, fun _ => rfl, ?_, ?_, ?_, ?_, ?_, ?_, ?_⟩
  · intro _
    exact ⟨rfl, countMines_makeEmptyBoard rows cols,
      countP_flatB_makeEmptyBoard rows cols (fun cell => cell.isRevealed) rfl⟩
  · intro hst; exact Status.noConfusion hst
  · intro hst; exact Status.noConfusion hst
  · intro hst; exact Status.noConfusion hst
  · intro r c
    rw [getC_makeEmptyBoard]
    exact ⟨fun hrev => Bool.noConfusion hrev, fun _ hrev => Bool.noConfusion hrev⟩
  · exact Or.inl (countMines_makeEmptyBoard rows cols)
  · unfold countFlagged
    rw [countP_flatB_makeEmptyBoard rows cols (fun cell => cell.isFlagged) rfl]
    exact Nat.zero_le _

theorem countFlagged_flagMines_zero (b : Board) (h : countMines b = 0) :
    countFlagged (flagMines b) = countFlagged b := by
  unfold countFlagged flagMines
  rw [countP_mapBoard]
  apply List.countP_congr
  intro cell hcell
  have hm : ¬cell.isMine = true := List.countP_eq_zero.1 h cell hcell
  rw [if_neg hm]

theorem allSafeRevealed_of_win (b : Board) (rows cols mines : Nat)
    (hD : Dims b rows cols) (hcm : countMines b = mines) (hmlt : mines ≤ rows * cols)
    (hrs : revealedSafe b = rows * cols - mines) :
    ∀ cell ∈ flatB b, cell.isMine = false → cell.isRevealed = true := by
  have hlen := flatB_length b rows cols hD
  have hsplit := List.length_eq_countP_add_countP (fun cell => cell.isMine) (flatB b)
  have hcompl : (flatB b).countP (fun a => decide ¬((fun cell => cell.isMine) a = true))
      = (flatB b).countP (fun cell => !cell.isMine) := by
    apply List.countP_congr
    intro a _
    cases ha : a.isMine <;> simp [ha]
  rw [hcompl] at hsplit
  have hq : (flatB b).countP (fun cell => !cell.isMine) = rows * cols - mines := by
    have : countMines b = (flatB b).countP (fun cell => cell.isMine) := rfl
    omega
  have hp : (flatB b).countP (fun cell => cell.isRevealed && !cell.isMine)
      = rows * cols - mines := hrs
  have hpt := countP_pointwise_of_le (flatB b)
    (fun cell => cell.isRevealed && !cell.isMine) (fun cell => !cell.isMine)
    (by intro a _ hpa; simp only [Bool.and_eq_true] at hpa; exact hpa.2)
    (by omega)
  intro cell hcell hm
  have hthis := hpt cell hcell (by simp [hm])
  simp only [Bool.and_eq_true] at hthis
  exact hthis.1

theorem inv_core (s : GameState) (next : Board) (r c : Int) (s' : GameState)
    (h1 : (s.mines : Int) < (s.rows : Int) * (s.cols : Int))
    (hD0 : Dims s.board s.rows s.cols)
    (hD : Dims next s.rows s.cols)
    (hcm0 : countMines s.board = 0 ∨ countMines s.board = s.mines)
    (hcm : countMines next = 0 ∨ countMines next = s.mines)
    (hcf0 : countFlagged s.board ≤ s.mines)
    (hcf : countFlagged next ≤ s.mines)
    (hrs0 : (revealedSafe s.board : Int) ≠ totalSafeI s)
    (hrs : (revealedSafe next : Int) ≠ totalSafeI s)
    (hg0 : ∀ r' c' : Int,
      ¬((getC s.board r' c').isRevealed = true ∧ (getC s.board r' c').isFlagged = true) ∧
      ¬((getC s.board r' c').isMine = true ∧ (getC s.board r' c').isRevealed = true))
    (hg : ∀ r' c' : Int,
      ¬((getC next r' c').isRevealed = true ∧ (getC next r' c').isFlagged = true) ∧
      ¬((getC next r' c').isMine = true ∧ (getC next r' c').isRevealed = true))
    (hst1 : (if s.minesPlanted then s.status else Status.playing) = Status.playing)
    (h : handleRevealCore s next r c = some s') :
    Inv s' := by
  cases hq : getCq next r c with
  | none =>
    rw [handleRevealCore_none _ _ _ _ hq] at h
    exact Option.noConfusion h
  | some cell =>
    have hcell : getC next r c = cell := (getCq_some_elim _ _ _ _ hq).2.2.2.2
    have hq' : getCq next r c = some (getC next r c) := by rw [hq, hcell]
    by_cases hrej : (getC next r c).isRevealed = true ∨ (getC next r c).isFlagged = true
    · rw [handleRevealCore_reject s next r c hq' hrej] at h
      have hs' : s' = { s with minesPlanted := true, status := (if s.minesPlanted then s.status else Status.playing) } :=
        (Option.some.inj h).symm
      have hs'2 : s' = { s with minesPlanted := true, status := Status.playing } := by
        rw [hs', hst1]
      subst hs'2
      refine ⟨h1, hD0, ?_, ?_, ?_, ?_, ?_, ?_, hcm0, hcf0⟩
      · intro hst; exact Status.noConfusion hst
      · intro hpf; exact Bool.noConfusion hpf
      · intro _; exact ⟨rfl, hrs0⟩
      · intro hst; exact Status.noConfusion hst
      · intro hst; exact Status.noConfusion hst
      · intro r' c'
        constructor
        · intro hr hf
          exact absurd ⟨hr, hf⟩ (hg0 r' c').1
        · intro hm hr
          exact absurd ⟨hm, hr⟩ (hg0 r' c').2
    · simp only [not_or, Bool.not_eq_true] at hrej
      by_cases hmine : (getC next r c).isMine = true
      · rw [handleRevealCore_loss s next r c hq' hrej.1 hrej.2 hmine] at h
        have hs' : s' = { s with board := revealMines next, minesPlanted := true, status := Status.lost } :=
          (Option.some.inj h).symm
        subst hs'
        refine ⟨h1, ?_, ?_, ?_, ?_, ?_, ?_, ?_, ?_, ?_⟩
        · show Dims (revealMines next) s.rows s.cols
          unfold revealMines
          exact dims_mapBoard _ _ _ _ hD
        · intro hst; exact Status.noConfusion hst
        · intro hpf; exact Bool.noConfusion hpf
        · intro hst; exact Status.noConfusion hst
        · intro hst; exact Status.noConfusion hst
        · intro _
          show (revealedSafe (revealMines next) : Int) ≠ totalSafeI _
          rw [revealedSafe_revealMines]
          exact hrs
        · intro r' c'
          show _ ∧ _
          rw [getC_revealMines]
          by_cases hm : (getC next r' c').isMine = true
          · rw [if_pos hm]
            exact ⟨fun _ _ => ⟨hm, rfl⟩, fun _ _ => rfl⟩
          · rw [if_neg hm]
            constructor
            · intro hr hf
              exact absurd ⟨hr, hf⟩ (hg r' c').1
            · intro hmm _
              exact absurd hmm hm
        · show countMines (revealMines next) = 0 ∨ countMines (revealMines next) = s.mines
          rw [countMines_revealMines]
          exact hcm
        · show countFlagged (revealMines next) ≤ s.mines
          rw [countFlagged_revealMines]
          exact hcf
      · have hmineF : (getC next r c).isMine = false := by
          cases hv : (getC next r c).isMine
          · rfl
          · exact absurd hv hmine
        rw [handleRevealCore_normal s next r c hq' hrej.1 hrej.2 hmineF] at h
        have hs' : s' = hrNormalResult s next r c := (Option.some.inj h).symm
        subst hs'
        have hD2 : Dims (hrNext2 next r c) s.rows s.cols := by
          unfold hrNext2
          split
          · exact dims_floodReveal _ _ _ _ _ hD
          · exact dims_modifyCell _ _ _ _ _ _ hD
        have hfields : ∀ r' c' : Int,
            (getC (hrNext2 next r c) r' c').isMine = (getC next r' c').isMine ∧
            (getC (hrNext2 next r c) r' c').isFlagged = (getC next r' c').isFlagged ∧
            (getC (hrNext2 next r c) r' c').count = (getC next r' c').count := by
          intro r' c'
          unfold hrNext2
          split
          · exact floodReveal_fields _ _ _ _ _
          · exact getC_setRevealed_fields _ _ _ _ _
        have hrevsrc : ∀ r' c' : Int,
            (getC (hrNext2 next r c) r' c').isRevealed = true →
            (getC next r' c').isRevealed = true ∨ (r' = r ∧ c' = c) ∨
              ((getC next r' c').isFlagged = false ∧ (getC next r' c').isMine = false) := by
          intro r' c' hrev
          unfold hrNext2 at hrev
          split at hrev
          · exact floodReveal_rev_src _ _ _ _ _ hrev
          · rcases getC_setRevealed_src _ _ _ _ _ hrev with h2 | h2
            · exact Or.inl h2
            · exact Or.inr (Or.inl h2)
        have hcm2 : countMines (hrNext2 next r c) = countMines next := by
          unfold hrNext2
          split
          · exact countMines_floodReveal _ _ _
          · exact countMines_modifyReveal _ _ _
        have hcf2 : countFlagged (hrNext2 next r c) = countFlagged next := by
          unfold hrNext2
          split
          · exact countFlagged_floodReveal _ _ _
          · exact countFlagged_modifyReveal _ _ _
        have hnoRF : ∀ r' c' : Int,
            ¬((getC (hrNext2 next r c) r' c').isRevealed = true ∧
              (getC (hrNext2 next r c) r' c').isFlagged = true) := by
          rintro r' c' ⟨hr, hf⟩
          rw [(hfields r' c').2.1] at hf
          rcases hrevsrc r' c' hr with h2 | h2 | h2
          · exact (hg r' c').1 ⟨h2, hf⟩
          · rw [h2.1, h2.2] at hf
            rw [hrej.2] at hf
            exact Bool.noConfusion hf
          · rw [h2.1] at hf
            exact Bool.noConfusion hf
        have hnoMR : ∀ r' c' : Int,
            ¬((getC (hrNext2 next r c) r' c').isMine = true ∧
              (getC (hrNext2 next r c) r' c').isRevealed = true) := by
          rintro r' c' ⟨hm, hr⟩
          rw [(hfields r' c').1] at hm
          rcases hrevsrc r' c' hr with h2 | h2 | h2
          · exact (hg r' c').2 ⟨hm, h2⟩
          · rw [h2.1, h2.2] at hm
            rw [hmineF] at hm
            exact Bool.noConfusion hm
          · rw [h2.2] at hm
            exact Bool.noConfusion hm
        unfold hrNormalResult
        by_cases hwin : (revealedSafe (hrNext2 next r c) : Int) =
            (s.rows : Int) * (s.cols : Int) - (s.mines : Int)
        · rw [if_pos hwin]
          refine ⟨h1, ?_, ?_, ?_, ?_, ?_, ?_, ?_, ?_, ?_⟩
          · show Dims (flagMines (hrNext2 next r c)) s.rows s.cols
            unfold flagMines
            exact dims_mapBoard _ _ _ _ hD2
          · intro hst; exact Status.noConfusion hst
          · intro hpf; exact Bool.noConfusion hpf
          · intro hst; exact Status.noConfusion hst
          · intro _
            constructor
            · show (revealedSafe (flagMines (hrNext2 next r c)) : Int) = totalSafeI _
              rw [revealedSafe_flagMines]
              exact hwin
            · intro r' c'
              show (getC (flagMines (hrNext2 next r c)) r' c').isMine = true →
                (getC (flagMines (hrNext2 next r c)) r' c').isFlagged = true
              rw [getC_flagMines]
              by_cases hm : (getC (hrNext2 next r c) r' c').isMine = true
              · rw [if_pos hm]
                intro _
                rfl
              · rw [if_neg hm]
                intro hmm
                exact absurd hmm hm
          · intro hst; exact Status.noConfusion hst
          · intro r' c'
            show _ ∧ _
            rw [getC_flagMines]
            by_cases hm : (getC (hrNext2 next r c) r' c').isMine = true
            · rw [if_pos hm]
              constructor
              · intro hr _
                exact absurd ⟨hm, hr⟩ (hnoMR r' c')
              · intro _ hr
                exact absurd ⟨hm, hr⟩ (hnoMR r' c')
            · rw [if_neg hm]
              constructor
              · intro hr hf
                exact absurd ⟨hr, hf⟩ (hnoRF r' c')
              · intro hmm _
                exact absurd hmm hm
          · show countMines (flagMines (hrNext2 next r c)) = 0 ∨
              countMines (flagMines (hrNext2 next r c)) = s.mines
            rw [countMines_flagMines, hcm2]
            exact hcm
          · show countFlagged (flagMines (hrNext2 next r c)) ≤ s.mines
            rcases hcm with hz | hm
            · rw [countFlagged_flagMines_zero _ (by rw [hcm2]; exact hz), hcf2]
              exact hcf
            · have hflag_mine : ∀ cell ∈ flatB (hrNext2 next r c),
                  cell.isFlagged = true → cell.isMine = true := by
                have hrsNat : revealedSafe (hrNext2 next r c) =
                    s.rows * s.cols - s.mines := by
                  have hge : s.mines ≤ s.rows * s.cols := by
                    by_contra hlt
                    push_neg at hlt
                    have : (s.rows : Int) * (s.cols : Int) < (s.mines : Int) := by
                      exact_mod_cast hlt
                    omega
                  have : (revealedSafe (hrNext2 next r c) : Int) =
                      ((s.rows * s.cols - s.mines : Nat) : Int) := by
                    rw [hwin]
                    omega
                  exact_mod_cast this
                have hall := allSafeRevealed_of_win (hrNext2 next r c) s.rows s.cols
                  s.mines hD2 (by rw [hcm2]; exact hm)
                  (by
                    by_contra hlt
                    push_neg at hlt
                    have : (s.rows : Int) * (s.cols : Int) < (s.mines : Int) := by
                      exact_mod_cast hlt
                    omega) hrsNat
                have hnoRFmem : ∀ cell ∈ flatB (hrNext2 next r c),
                    ¬(cell.isRevealed = true ∧ cell.isFlagged = true) := by
                  rw [flatB_forall_getC _ _ _ hD2]
                  intro r' c' _
                  exact hnoRF r' c'
                intro cell hcell hf
                cases hmv : cell.isMine
                · have hrev := hall cell hcell hmv
                  exact absurd ⟨hrev, hf⟩ (hnoRFmem cell hcell)
                · rfl
              rw [countFlagged_flagMines_of _ hflag_mine, hcm2, hm]
        · rw [if_neg hwin]
          have hrec : ({ s with board := hrNext2 next r c, minesPlanted := true, status := (if s.minesPlanted then s.status else Status.playing), revealedCount := revealedSafe (hrNext2 next r c) } : GameState) = { s with board := hrNext2 next r c, minesPlanted := true, status := Status.playing, revealedCount := revealedSafe (hrNext2 next r c) } := by
            rw [hst1]
          rw [hrec]
          refine ⟨h1, hD2, ?_, ?_, ?_, ?_, ?_, ?_, ?_, ?_⟩
          · intro hst; exact Status.noConfusion hst
          · intro hpf; exact Bool.noConfusion hpf
          · intro _
            exact ⟨rfl, hwin⟩
          · intro hst; exact Status.noConfusion hst
          · intro hst; exact Status.noConfusion hst
          · intro r' c'
            constructor
            · intro hr hf
              exact absurd ⟨hr, hf⟩ (hnoRF r' c')
            · intro hm hr
              exact absurd ⟨hm, hr⟩ (hnoMR r' c')
          · rw [hcm2]; exact hcm
          · rw [hcf2]; exact hcf

theorem getC_oob_default (b : Board) (rows cols : Nat) (r c : Int)
    (hD : Dims b rows cols) (h : ¬inBoundsB rows cols r c = true) :
    getC b r c = defaultCell := by
  rw [inBoundsB_iff] at h
  push_neg at h
  have hlen := hD.1
  unfold getC
  split
  · rfl
  · rename_i hneg
    push_neg at hneg
    by_cases hr : r < (rows : Int)
    · have hc : (cols : Int) ≤ c := h hneg.1 hr hneg.2
      apply List.getD_eq_default
      rw [hD.2 r.toNat (by omega)]
      omega
    · push_neg at hr
      rw [List.getD_eq_default b [] (by omega)]
      rfl

theorem handleFlag_none (s : GameState) (r c : Int)
    (hterm : ¬(s.status = Status.lost ∨ s.status = Status.won))
    (hq : getCq s.board r c = none) : handleFlag s r c = none := by
  rw [handleFlag_eq s r c hterm, hq]

theorem handleFlag_revealed (s : GameState) (r c : Int)
    (hterm : ¬(s.status = Status.lost ∨ s.status = Status.won))
    (hq : getCq s.board r c = some (getC s.board r c))
    (hrev : (getC s.board r c).isRevealed = true) : handleFlag s r c = some s := by
  rw [handleFlag_eq s r c hterm]
  split
  · rename_i heq
    rw [heq] at hq
    exact Option.noConfusion hq
  · rename_i cell heq
    rw [heq] at hq
    have hc := Option.some.inj hq
    subst hc
    rw [if_pos hrev]

theorem handleFlag_budget (s : GameState) (r c : Int)
    (hterm : ¬(s.status = Status.lost ∨ s.status = Status.won))
    (hq : getCq s.board r c = some (getC s.board r c))
    (hrev : (getC s.board r c).isRevealed = false)
    (hflag : (getC s.board r c).isFlagged = false)
    (hbud : (s.mines : Int) - (countFlagged s.board : Int) = 0) :
    handleFlag s r c = some s := by
  rw [handleFlag_eq s r c hterm]
  split
  · rename_i heq
    rw [heq] at hq
    exact Option.noConfusion hq
  · rename_i cell heq
    rw [heq] at hq
    have hc := Option.some.inj hq
    subst hc
    rw [if_neg (by rw [hrev]; exact Bool.noConfusion), if_pos ⟨by rw [hflag]; rfl, hbud⟩]

theorem handleFlag_accept (s : GameState) (r c : Int)
    (hterm : ¬(s.status = Status.lost ∨ s.status = Status.won))
    (hq : getCq s.board r c = some (getC s.board r c))
    (hrev : (getC s.board r c).isRevealed = false)
    (hok : ¬((!(getC s.board r c).isFlagged) = true ∧
      (s.mines : Int) - (countFlagged s.board : Int) = 0)) :
    handleFlag s r c = some { s with board := modifyCell s.board r c (fun cel => { cel with isFlagged := !(getC s.board r c).isFlagged }) } := by
  rw [handleFlag_eq s r c hterm]
  split
  · rename_i heq
    rw [heq] at hq
    exact Option.noConfusion hq
  · rename_i cell heq
    rw [heq] at hq
    have hc := Option.some.inj hq
    subst hc
    rw [if_neg (by rw [hrev]; exact Bool.noConfusion), if_neg hok]

theorem inv_handleReveal (rng : List (Nat × Nat)) (s : GameState) (r c : Int)
    (s' : GameState) (hI : Inv s) (h : handleReveal rng s r c = some s') : Inv s' := by
  obtain ⟨h1, hD0, hI3, hI4, hI5, hI6, hI7, hI8, hI9, hI10⟩ := hI
  by_cases hterm : s.status = Status.lost ∨ s.status = Status.won
  · rw [handleReveal_terminal _ _ _ _ hterm] at h
    have he := Option.some.inj h
    subst he
    exact ⟨h1, hD0, hI3, hI4, hI5, hI6, hI7, hI8, hI9, hI10⟩
  · by_cases hp : s.minesPlanted = true
    · have hstat : s.status = Status.playing := by
        cases hst : s.status with
        | ready =>
          have := hI3 hst
          rw [hp] at this
          exact Bool.noConfusion this
        | playing => rfl
        | won => exact absurd (Or.inr hst) hterm
        | lost => exact absurd (Or.inl hst) hterm
      have hplay := hI5 hstat
      have hg0 : ∀ r' c' : Int,
          ¬((getC s.board r' c').isRevealed = true ∧ (getC s.board r' c').isFlagged = true) ∧
          ¬((getC s.board r' c').isMine = true ∧ (getC s.board r' c').isRevealed = true) := by
        intro r' c'
        constructor
        · rintro ⟨ha, hb⟩
          have hcon := (hI8 r' c').1 ha hb
          exact Status.noConfusion (hstat.symm.trans hcon.2)
        · rintro ⟨ha, hb⟩
          have hcon := (hI8 r' c').2 ha hb
          exact Status.noConfusion (hstat.symm.trans hcon)
      rw [handleReveal_planted _ _ _ _ hterm hp] at h
      exact inv_core s s.board r c s' h1 hD0 hD0 hI9 hI9 hI10 hI10 hplay.2 hplay.2
        hg0 hg0 (by rw [hp, if_pos rfl]; exact hstat) h
    · have hp' : s.minesPlanted = false := by
        cases hv : s.minesPlanted
        · rfl
        · exact absurd hv hp
      have hready := hI4 hp'
      rw [handleReveal_unplanted _ _ _ _ hterm hp'] at h
      cases hpm : plantMines (cloneBoard s.board) s.rows s.cols s.mines r c rng with
      | none =>
        rw [hpm] at h
        exact Option.noConfusion h
      | some next =>
        rw [hpm] at h
        have h' : handleRevealCore s next r c = some s' := h
        have hn : s.mines < s.rows * s.cols := by exact_mod_cast h1
        have hrowsPos : 0 < s.rows := by
          rcases Nat.eq_zero_or_pos s.rows with hz | hpos
          · rw [hz, Nat.zero_mul] at hn; omega
          · exact hpos
        have hcolsPos : 0 < s.cols := by
          rcases Nat.eq_zero_or_pos s.cols with hz | hpos
          · rw [hz, Nat.mul_zero] at hn; omega
          · exact hpos
        have hprops := plantMines_props (cloneBoard s.board) s.rows s.cols s.mines
          r c rng next (by rw [cloneBoard_eq]; exact hD0) hrowsPos hcolsPos hpm
        rw [cloneBoard_eq] at hprops
        obtain ⟨hDn, hcmn, hrevn, hcfn, hfieldsn⟩ := hprops
        have hcmN : countMines next = s.mines := by
          rw [hcmn, hready.2.1, Nat.zero_add]
        have hrev0 : (flatB next).countP (fun cell => cell.isRevealed) = 0 := by
          rw [hrevn]; exact hready.2.2
        have hrsn : revealedSafe next = 0 := by
          unfold revealedSafe
          have hle : (flatB next).countP (fun cell => cell.isRevealed && !cell.isMine)
              ≤ (flatB next).countP (fun cell => cell.isRevealed) :=
            List.countP_mono_left
              (by intro a _ hpa; simp only [Bool.and_eq_true] at hpa; exact hpa.1)
          omega
        have hrs0' : revealedSafe s.board = 0 := by
          unfold revealedSafe
          have hle : (flatB s.board).countP (fun cell => cell.isRevealed && !cell.isMine)
              ≤ (flatB s.board).countP (fun cell => cell.isRevealed) :=
            List.countP_mono_left
              (by intro a _ hpa; simp only [Bool.and_eq_true] at hpa; exact hpa.1)
          have := hready.2.2
          omega
        have htsPos : (0 : Int) < totalSafeI s := by
          unfold totalSafeI
          omega
        have hrsne : (revealedSafe next : Int) ≠ totalSafeI s := by
          rw [hrsn]
          push_cast
          omega
        have hrsne0 : (revealedSafe s.board : Int) ≠ totalSafeI s := by
          rw [hrs0']
          push_cast
          omega
        have hrevAll0 : ∀ r' c' : Int, (getC s.board r' c').isRevealed = false := by
          intro r' c'
          by_cases hb : inBoundsB s.rows s.cols r' c' = true
          · have hmem := (flatB_forall_getC s.board s.rows s.cols hD0
              (fun cell => cell.isRevealed = false)).1
              (fun cell hcell => by
                have := List.countP_eq_zero.1 hready.2.2 cell hcell
                cases hv : cell.isRevealed
                · rfl
                · exact absurd hv this)
            exact hmem r' c' hb
          · rw [getC_oob_default s.board s.rows s.cols r' c' hD0 hb]
            rfl
        have hrevAllN : ∀ r' c' : Int, (getC next r' c').isRevealed = false := by
          intro r' c'
          rw [(hfieldsn r' c').1]
          exact hrevAll0 r' c'
        have hg0 : ∀ r' c' : Int,
            ¬((getC s.board r' c').isRevealed = true ∧ (getC s.board r' c').isFlagged = true) ∧
            ¬((getC s.board r' c').isMine = true ∧ (getC s.board r' c').isRevealed = true) := by
          intro r' c'
          constructor
          · rintro ⟨ha, _⟩
            rw [hrevAll0 r' c'] at ha
            exact Bool.noConfusion ha
          · rintro ⟨_, hb⟩
            rw [hrevAll0 r' c'] at hb
            exact Bool.noConfusion hb
        have hgN : ∀ r' c' : Int,
            ¬((getC next r' c').isRevealed = true ∧ (getC next r' c').isFlagged = true) ∧
            ¬((getC next r' c').isMine = true ∧ (getC next r' c').isRevealed = true) := by
          intro r' c'
          constructor
          · rintro ⟨ha, _⟩
            rw [hrevAllN r' c'] at ha
            exact Bool.noConfusion ha
          · rintro ⟨_, hb⟩
            rw [hrevAllN r' c'] at hb
            exact Bool.noConfusion hb
        exact inv_core s next r c s' h1 hD0 hDn hI9 (Or.inr hcmN) hI10
          (by rw [hcfn]; exact hI10) hrsne0 hrsne hg0 hgN
          (by rw [hp']; rfl) h'

theorem inv_handleFlag (s : GameState) (r c : Int) (s' : GameState)
    (hI : Inv s) (h : handleFlag s r c = some s') : Inv s' := by
  obtain ⟨h1, hD0, hI3, hI4, hI5, hI6, hI7, hI8, hI9, hI10⟩ := hI
  by_cases hterm : s.status = Status.lost ∨ s.status = Status.won
  · rw [handleFlag_terminal _ _ _ hterm] at h
    have he := Option.some.inj h
    subst he
    exact ⟨h1, hD0, hI3, hI4, hI5, hI6, hI7, hI8, hI9, hI10⟩
  · cases hq : getCq s.board r c with
    | none =>
      rw [handleFlag_none s r c hterm hq] at h
      exact Option.noConfusion h
    | some cell =>
      have hcell : getC s.board r c = cell := (getCq_some_elim _ _ _ _ hq).2.2.2.2
      have hq' : getCq s.board r c = some (getC s.board r c) := by rw [hq, hcell]
      by_cases hrev : (getC s.board r c).isRevealed = true
      · rw [handleFlag_revealed s r c hterm hq' hrev] at h
        have he := Option.some.inj h
        subst he
        exact ⟨h1, hD0, hI3, hI4, hI5, hI6, hI7, hI8, hI9, hI10⟩
      · have hrevF : (getC s.board r c).isRevealed = false := by
          cases hv : (getC s.board r c).isRevealed
          · rfl
          · exact absurd hv hrev
        by_cases hbud : (!(getC s.board r c).isFlagged) = true ∧
            (s.mines : Int) - (countFlagged s.board : Int) = 0
        · have hflagF : (getC s.board r c).isFlagged = false := by
            cases hv : (getC s.board r c).isFlagged
            · rfl
            · have := hbud.1
              rw [hv] at this
              exact Bool.noConfusion this
          rw [handleFlag_budget s r c hterm hq' hrevF hflagF hbud.2] at h
          have he := Option.some.inj h
          subst he
          exact ⟨h1, hD0, hI3, hI4, hI5, hI6, hI7, hI8, hI9, hI10⟩
        · rw [handleFlag_accept s r c hterm hq' hrevF hbud] at h
          have he := Option.some.inj h
          subst he
          have hbv : ∀ p : Cell → Bool,
              (∀ cell, p { cell with isFlagged := !(getC s.board r c).isFlagged } = p cell) →
              (flatB (modifyCell s.board r c (fun cel => { cel with isFlagged := !(getC s.board r c).isFlagged }))).countP p = (flatB s.board).countP p :=
            fun p hp => countP_modifyCell_inv _ _ _ _ _ hp
          refine ⟨h1, dims_modifyCell _ _ _ _ _ _ hD0, hI3, ?_, ?_, ?_, ?_, ?_, ?_, ?_⟩
          · intro hpf
            obtain ⟨ha, hb, hc⟩ := hI4 hpf
            exact ⟨ha, by rw [show countMines (modifyCell s.board r c (fun cel => { cel with isFlagged := !(getC s.board r c).isFlagged })) = countMines s.board from hbv _ (fun cell => rfl)]; exact hb,
              by rw [hbv (fun cell => cell.isRevealed) (fun cell => rfl)]; exact hc⟩
          · intro hst
            obtain ⟨ha, hb⟩ := hI5 hst
            refine ⟨ha, ?_⟩
            show (revealedSafe (modifyCell s.board r c (fun cel => { cel with isFlagged := !(getC s.board r c).isFlagged })) : Int) ≠ totalSafeI _
            unfold revealedSafe
            rw [hbv (fun cell => cell.isRevealed && !cell.isMine) (fun cell => rfl)]
            exact hb
          · intro hst
            exact absurd (Or.inr hst) hterm
          · intro hst
            exact absurd (Or.inl hst) hterm
          · intro r' c'
            constructor
            · intro ha hb
              by_cases hsame : r' = r ∧ c' = c
              · obtain ⟨e1, e2⟩ := hsame
                subst e1
                subst e2
                rcases getC_modifyCell_or s.board r' c' r' c'
                  (fun cel => { cel with isFlagged := !(getC s.board r' c').isFlagged })
                  with heq | heq
                · rw [heq] at ha hb
                  obtain ⟨hm, hl⟩ := (hI8 r' c').1 ha hb
                  exact ⟨heq.symm ▸ hm, hl⟩
                · rw [heq] at ha
                  have ha' : (getC s.board r' c').isRevealed = true := ha
                  rw [hrevF] at ha'
                  exact Bool.noConfusion ha'
              · have hne := getC_modifyCell_ne s.board r c r' c'
                  (fun cel => { cel with isFlagged := !(getC s.board r c).isFlagged }) hsame
                rw [hne] at ha hb
                obtain ⟨hm, hl⟩ := (hI8 r' c').1 ha hb
                exact ⟨hne.symm ▸ hm, hl⟩
            · intro ha hb
              rcases getC_modifyCell_or s.board r c r' c'
                (fun cel => { cel with isFlagged := !(getC s.board r c).isFlagged })
                with heq | heq
              · rw [heq] at ha hb
                exact (hI8 r' c').2 ha hb
              · rw [heq] at ha hb
                exact (hI8 r' c').2 ha hb
          · rw [show countMines (modifyCell s.board r c (fun cel => { cel with isFlagged := !(getC s.board r c).isFlagged })) = countMines s.board from hbv _ (fun cell => rfl)]
            exact hI9
          · show countFlagged (modifyCell s.board r c (fun cel => { cel with isFlagged := !(getC s.board r c).isFlagged })) ≤ s.mines
            by_cases hwf : (!(getC s.board r c).isFlagged) = true
            · have hne : (s.mines : Int) - (countFlagged s.board : Int) ≠ 0 := by
                intro hz
                exact hbud ⟨hwf, hz⟩
              have hlt : countFlagged s.board < s.mines := by omega
              have := countP_modifyCell_le_add s.board r c
                (fun cel => { cel with isFlagged := !(getC s.board r c).isFlagged })
                (fun cell => cell.isFlagged)
              have hd : countFlagged s.board =
                  (flatB s.board).countP (fun cell => cell.isFlagged) := rfl
              unfold countFlagged
              omega
            · have hoff : (!(getC s.board r c).isFlagged) = false := by
                cases hv : (!(getC s.board r c).isFlagged)
                · rfl
                · exact absurd hv hwf
              have := countP_modifyCell_le s.board r c
                (fun cel => { cel with isFlagged := !(getC s.board r c).isFlagged })
                (fun cell => cell.isFlagged)
                (by
                  intro x hx
                  have : (!(getC s.board r c).isFlagged) = true := hx
                  rw [hoff] at this
                  exact Bool.noConfusion this)
              have hd : countFlagged s.board =
                  (flatB s.board).countP (fun cell => cell.isFlagged) := rfl
              unfold countFlagged
              omega

theorem updAt_updAt {α : Type} (l : List α) (n : Nat) (f g : α → α) :
    updAt (updAt l n f) n g = updAt l n (fun x => g (f x)) := by
  induction l generalizing n with
  | nil => rfl
  | cons x xs ih =>
    cases n with
    | zero => rfl
    | succ m => simp [updAt, ih]

theorem updAt_id_of {α : Type} (l : List α) (n : Nat) (g : α → α) (d : α)
    (h : g (l.getD n d) = l.getD n d) : updAt l n g = l := by
  induction l generalizing n with
  | nil => rfl
  | cons x xs ih =>
    cases n with
    | zero =>
      simp only [List.getD_cons_zero] at h
      simp [updAt, h]
    | succ m =>
      simp only [List.getD_cons_succ] at h
      simp [updAt, ih _ h]

theorem modifyCell_modifyCell (b : Board) (r c : Int) (f g : Cell → Cell) :
    modifyCell (modifyCell b r c f) r c g = modifyCell b r c (fun x => g (f x)) := by
  unfold modifyCell
  split
  · rfl
  · rw [updAt_updAt]
    congr 1
    funext row
    exact updAt_updAt row c.toNat f g

theorem modifyCell_id_of (b : Board) (r c : Int) (f : Cell → Cell)
    (h : f (getC b r c) = getC b r c) : modifyCell b r c f = b := by
  unfold modifyCell
  split
  · rfl
  · rename_i hneg
    unfold getC at h
    rw [if_neg hneg] at h
    apply updAt_id_of _ _ _ []
    exact updAt_id_of _ _ _ defaultCell h

theorem cell_eta_flag (cell : Cell) :
    ({ cell with isFlagged := cell.isFlagged } : Cell) = cell := by
  obtain ⟨a, b, c, d⟩ := cell
  rfl

theorem gameState_board_eta (s : GameState) :
    ({ s with board := s.board } : GameState) = s := by
  obtain ⟨a, b, m, bd, mp, st, rc⟩ := s
  rfl

theorem gs_eq_of_board (s : GameState) (B : Board) (h : B = s.board) :
    ({ s with board := B } : GameState) = s := by
  rw [h]

theorem countP_updAt_sub {α : Type} (l : List α) (n : Nat) (f : α → α)
    (p : α → Bool) (d : α) (h : n < l.length)
    (h1 : p (l.getD n d) = true) (h2 : p (f (l.getD n d)) = false) :
    (updAt l n f).countP p + 1 = l.countP p := by
  induction l generalizing n with
  | nil => simp at h
  | cons x xs ih =>
    cases n with
    | zero =>
      simp only [List.getD_cons_zero] at h1 h2
      simp [updAt, List.countP_cons, h1, h2]
    | succ m =>
      simp only [List.length_cons, Nat.succ_lt_succ_iff] at h
      simp only [List.getD_cons_succ] at h1 h2
      have := ih _ h h1 h2
      simp only [updAt, List.countP_cons]
      omega

theorem countP_flatB_updAt_sub (b : Board) (n : Nat) (g : List Cell → List Cell)
    (p : Cell → Bool) (h : n < b.length)
    (hg : (g (b.getD n [])).countP p + 1 = (b.getD n []).countP p) :
    (flatB (updAt b n g)).countP p + 1 = (flatB b).countP p := by
  induction b generalizing n with
  | nil => simp at h
  | cons row rest ih =>
    cases n with
    | zero =>
      simp only [List.getD_cons_zero] at hg
      rw [updAt, flatB_countP_append, flatB_countP_append]
      omega
    | succ m =>
      simp only [List.length_cons, Nat.succ_lt_succ_iff] at h
      simp only [List.getD_cons_succ] at hg
      have := ih _ h hg
      rw [updAt, flatB_countP_append, flatB_countP_append]
      omega

theorem countFlagged_modifyCell_unflag (b : Board) (r c : Int)
    (h0 : 0 ≤ r) (h1 : 0 ≤ c) (hr : r.toNat < b.length)
    (hc : c.toNat < (b.getD r.toNat []).length)
    (hflag : (getC b r c).isFlagged = true) :
    countFlagged (modifyCell b r c
      (fun cel => { cel with isFlagged := !(getC b r c).isFlagged })) + 1 =
    countFlagged b := by
  have hgd : getC b r c = (b.getD r.toNat []).getD c.toNat defaultCell := by
    unfold getC
    rw [if_neg (by omega : ¬(r < 0 ∨ c < 0))]
  unfold countFlagged modifyCell
  rw [if_neg (by omega : ¬(r < 0 ∨ c < 0))]
  apply countP_flatB_updAt_sub _ _ _ _ hr
  apply countP_updAt_sub _ _ _ _ defaultCell hc
  · rw [← hgd]; exact hflag
  · rw [← hgd]
    show (!(getC b r c).isFlagged) = false
    rw [hflag]
    rfl

theorem countFlagged_modifyCell_flag (b : Board) (r c : Int)
    (h0 : 0 ≤ r) (h1 : 0 ≤ c) (hr : r.toNat < b.length)
    (hc : c.toNat < (b.getD r.toNat []).length)
    (hflag : (getC b r c).isFlagged = false) :
    countFlagged (modifyCell b r c
      (fun cel => { cel with isFlagged := !(getC b r c).isFlagged })) =
    countFlagged b + 1 := by
  have hgd : getC b r c = (b.getD r.toNat []).getD c.toNat defaultCell := by
    unfold getC
    rw [if_neg (by omega : ¬(r < 0 ∨ c < 0))]
  unfold countFlagged modifyCell
  rw [if_neg (by omega : ¬(r < 0 ∨ c < 0))]
  apply countP_flatB_updAt_add _ _ _ _ hr
  apply countP_updAt_add _ _ _ _ defaultCell hc
  · rw [← hgd]; exact hflag
  · rw [← hgd]
    show (!(getC b r c).isFlagged) = true
    rw [hflag]
    rfl

theorem inv_reachable (s : GameState) (h : Reachable s) : Inv s := by
  induction h with
  | fresh rows cols mines hm => exact inv_freshSession rows cols mines hm
  | reveal rng r c hs hstep ih => exact inv_handleReveal rng _ r c _ ih hstep
  | flag r c hs hstep ih => exact inv_handleFlag _ r c _ ih hstep
  | reset hs rows cols mines hm => exact inv_freshSession rows cols mines hm

/-- Witness for C1 at a concrete 1×4 board, one mine, safe cell (0,0). -/
theorem C1_plantMines_postcondition_witness :
    ((getC c1Board 0 0).isMine = false ∧
      ∀ p ∈ nbrs 0 0, inBoundsB 1 4 p.1 p.2 = true →
        (getC c1Board p.1 p.2).isMine = false) ∧
    countMines c1Board = 1 ∧
    (∀ r c : Int, inBoundsB 1 4 r c = true →
      ((getC c1Board r c).isMine = false →
        (getC c1Board r c).count = mineNbrCount 1 4 c1Board r c) ∧
      ((getC c1Board r c).isMine = true → (getC c1Board r c).count = 0)) :=
  C1_plantMines_postcondition 1 4 1 0 0 [(0, 2)] c1Board (by decide) (by decide)
    (by decide)

/-- C3: after any reveal call on a reachable session, the phase is `won` if
and only if the number of revealed non-mine cells equals `rows*cols - mines`,
and in that case every mine cell is flagged. -/
theorem C3_win_condition (rng : List (Nat × Nat)) (s : GameState) (r c : Int)
    (s' : GameState) (hreach : Reachable s) (h : handleReveal rng s r c = some s') :
    (s'.status = Status.won ↔
      (revealedSafe s'.board : Int) =
        (s'.rows : Int) * (s'.cols : Int) - (s'.mines : Int)) ∧
    (s'.status = Status.won → ∀ r' c' : Int,
      (getC s'.board r' c').isMine = true → (getC s'.board r' c').isFlagged = true) := by
  have hI := inv_reachable s' (Reachable.reveal rng r c hreach h)
  obtain ⟨h1, hD0, hI3, hI4, hI5, hI6, hI7, hI8, hI9, hI10⟩ := hI
  constructor
  · constructor
    · intro hw
      exact (hI6 hw).1
    · intro heq
      cases hst : s'.status with
      | won => rfl
      | ready =>
        exfalso
        have hpf := hI3 hst
        obtain ⟨_, _, hrev0⟩ := hI4 hpf
        have hrs : revealedSafe s'.board = 0 := by
          unfold revealedSafe
          have hle : (flatB s'.board).countP (fun cell => cell.isRevealed && !cell.isMine)
              ≤ (flatB s'.board).countP (fun cell => cell.isRevealed) :=
            List.countP_mono_left
              (by intro a _ hpa; simp only [Bool.and_eq_true] at hpa; exact hpa.1)
          omega
        rw [hrs] at heq
        simp only [Nat.cast_zero] at heq
        omega
      | playing =>
        exact absurd heq (hI5 hst).2
      | lost =>
        exact absurd heq (hI7 hst)
  · intro hw
    exact (hI6 hw).2

/-- Witness for C3 at a concrete game: on a fresh 1×3 one-mine session, the
first reveal floods both safe cells and the session is won with the mine
flagged. -/
theorem C3_win_condition_witness :
    (c3Won.status = Status.won ↔
      (revealedSafe c3Won.board : Int) =
        (c3Won.rows : Int) * (c3Won.cols : Int) - (c3Won.mines : Int)) ∧
    (c3Won.status = Status.won → ∀ r' c' : Int,
      (getC c3Won.board r' c').isMine = true → (getC c3Won.board r' c').isFlagged = true) :=
  C3_win_condition [(0, 2)] (freshSession 1 3 1) 0 0 c3Won
    (Reachable.fresh 1 3 1 (by decide)) (by decide)

/-- C4: an accepted reveal of a mine cell in a playing session with mines
planted sets the phase to `lost`, reveals every mine cell, and leaves every
non-mine cell's revealed state unchanged (no cascade runs). -/
theorem C4_loss_condition (rng : List (Nat × Nat)) (s : GameState) (r c : Int)
    (hstat : s.status = Status.playing) (hp : s.minesPlanted = true)
    (hq : getCq s.board r c = some (getC s.board r c))
    (hrev : (getC s.board r c).isRevealed = false)
    (hflag : (getC s.board r c).isFlagged = false)
    (hmine : (getC s.board r c).isMine = true) :
    handleReveal rng s r c =
      some { s with board := revealMines s.board, minesPlanted := true,
                    status := Status.lost } ∧
    (∀ r' c' : Int, (getC (revealMines s.board) r' c').isMine = true →
      (getC (revealMines s.board) r' c').isRevealed = true) ∧
    (∀ r' c' : Int, (getC (revealMines s.board) r' c').isMine = false →
      (getC (revealMines s.board) r' c').isRevealed = (getC s.board r' c').isRevealed) := by
  have hterm : ¬(s.status = Status.lost ∨ s.status = Status.won) := by
    rw [hstat]
    rintro (hx | hx) <;> exact Status.noConfusion hx
  refine ⟨?_, ?_, ?_⟩
  · rw [handleReveal_planted _ _ _ _ hterm hp]
    exact handleRevealCore_loss s s.board r c hq hrev hflag hmine
  · intro r' c' hm
    rw [getC_revealMines] at hm ⊢
    by_cases hb : (getC s.board r' c').isMine = true
    · rw [if_pos hb]
    · rw [if_neg hb] at hm
      exact absurd hm hb
  · intro r' c' hm
    rw [getC_revealMines] at hm ⊢
    by_cases hb : (getC s.board r' c').isMine = true
    · rw [if_pos hb] at hm
      have hmf : (getC s.board r' c').isMine = false := hm
      rw [hmf] at hb
      exact Bool.noConfusion hb
    · rw [if_neg hb]

/-- Witness for C4: revealing the mine at (0,2) of the concrete playing
session `c5S1` loses the game and reveals both mines. -/
theorem C4_loss_condition_witness :
    handleReveal [] c5S1 0 2 =
      some { c5S1 with board := revealMines c5S1.board, minesPlanted := true,
                       status := Status.lost } ∧
    (∀ r' c' : Int, (getC (revealMines c5S1.board) r' c').isMine = true →
      (getC (revealMines c5S1.board) r' c').isRevealed = true) ∧
    (∀ r' c' : Int, (getC (revealMines c5S1.board) r' c').isMine = false →
      (getC (revealMines c5S1.board) r' c').isRevealed = (getC c5S1.board r' c').isRevealed) :=
  C4_loss_condition [] c5S1 0 2 (by decide) (by decide) (by decide) (by decide)
    (by decide) (by decide)

/-- C5 (counterexample): the claim that no reachable session ever has a cell
that is both revealed and flagged is false: flagging the mine at (0,2) and
then revealing the other mine reaches a lost session in which cell (0,2) is
both revealed and flagged (the loss path reveals all mines without clearing
flags). -/
theorem C5_cell_state_counterexample :
    Reachable c5Lost ∧ (getC c5Lost.board 0 2).isRevealed = true ∧
      (getC c5Lost.board 0 2).isFlagged = true := by
  refine ⟨?_, by decide, by decide⟩
  have h1 : handleReveal [(2, 2), (5, 5)] (freshSession 1 6 2) 0 0 = some c5S1 := by
    decide
  have h2 : handleFlag c5S1 0 2 = some c5S2 := by decide
  have h3 : handleReveal [] c5S2 0 5 = some c5Lost := by decide
  exact Reachable.reveal [] 0 5
    (Reachable.flag 0 2
      (Reachable.reveal [(2, 2), (5, 5)] 0 0 (Reachable.fresh 1 6 2 (by decide)) h1)
      h2)
    h3

/-- C5 (amended): in every reachable session, a cell that is both revealed and
flagged is a mine cell and the session is lost — outside the show-all-mines
loss state no cell is ever both revealed and flagged. -/
theorem C5_cell_state_amended (s : GameState) (hreach : Reachable s) (r c : Int)
    (h1 : (getC s.board r c).isRevealed = true)
    (h2 : (getC s.board r c).isFlagged = true) :
    (getC s.board r c).isMine = true ∧ s.status = Status.lost :=
  (((inv_reachable s hreach).2.2.2.2.2.2.2.1) r c).1 h1 h2

/-- Witness for the amended C5 at the concrete lost session. -/
theorem C5_cell_state_amended_witness :
    (getC c5Lost.board 0 2).isMine = true ∧ c5Lost.status = Status.lost :=
  C5_cell_state_amended c5Lost
    (by
      have h1 : handleReveal [(2, 2), (5, 5)] (freshSession 1 6 2) 0 0 = some c5S1 := by
        decide
      have h2 : handleFlag c5S1 0 2 = some c5S2 := by decide
      have h3 : handleReveal [] c5S2 0 5 = some c5Lost := by decide
      exact Reachable.reveal [] 0 5
        (Reachable.flag 0 2
          (Reachable.reveal [(2, 2), (5, 5)] 0 0 (Reachable.fresh 1 6 2 (by decide)) h1)
          h2)
        h3)
    0 2 (by decide) (by decide)

/-- C6 (counterexample): a rejected reveal does not always leave the session
unchanged.  On a fresh session with a pre-flagged cell, the first reveal aimed
at that flagged cell is rejected (the grid is returned unchanged), yet the
call still plants mines, sets `minesPlanted := true` and `status := playing`. -/
theorem C6_atomicity_counterexample :
    Reachable c6State ∧
    handleReveal [(0, 0)] c6State 0 3 =
      some { c6State with minesPlanted := true, status := Status.playing } ∧
    (getC c6State.board 0 3).isFlagged = true ∧
    c6State.minesPlanted = false ∧ c6State.status = Status.ready := by
  refine ⟨?_, by decide, by decide, by decide, by decide⟩
  exact Reachable.flag 0 3 (Reachable.fresh 1 4 1 (by decide)) (by decide)

/-- C6 (amended): every rejected `reveal` or `toggleFlag` leaves the session
state entirely unchanged, provided the session is in a terminal phase or its
mines are already planted; a rejected first-click reveal still sets
`minesPlanted` and `phase := playing` (only the grid is unchanged). -/
theorem C6_atomicity_of_rejection_amended (rng : List (Nat × Nat)) (s : GameState)
    (r c : Int) :
    ((s.status = Status.lost ∨ s.status = Status.won) →
      handleReveal rng s r c = some s) ∧
    (¬(s.status = Status.lost ∨ s.status = Status.won) → s.minesPlanted = true →
      getCq s.board r c = some (getC s.board r c) →
      ((getC s.board r c).isRevealed = true ∨ (getC s.board r c).isFlagged = true) →
      handleReveal rng s r c = some s) ∧
    ((s.status = Status.lost ∨ s.status = Status.won) → handleFlag s r c = some s) ∧
    (¬(s.status = Status.lost ∨ s.status = Status.won) →
      getCq s.board r c = some (getC s.board r c) →
      (getC s.board r c).isRevealed = true → handleFlag s r c = some s) ∧
    (¬(s.status = Status.lost ∨ s.status = Status.won) →
      getCq s.board r c = some (getC s.board r c) →
      (getC s.board r c).isRevealed = false →
      (getC s.board r c).isFlagged = false →
      (s.mines : Int) - (countFlagged s.board : Int) = 0 →
      handleFlag s r c = some s) := by
  refine ⟨?_, ?_, ?_, ?_, ?_⟩
  · intro hterm
    exact handleReveal_terminal rng s r c hterm
  · intro hterm hp hq hrej
    rw [handleReveal_planted rng s r c hterm hp,
      handleRevealCore_reject s s.board r c hq hrej, hp, if_pos rfl]
    exact congrArg some (gameState_eta s hp)
  · intro hterm
    exact handleFlag_terminal s r c hterm
  · intro hterm hq hrev
    exact handleFlag_revealed s r c hterm hq hrev
  · intro hterm hq hrev hflag hbud
    exact handleFlag_budget s r c hterm hq hrev hflag hbud

/-- Witness for the amended C6: the terminal and already-revealed rejections
at concrete sessions. -/
theorem C6_atomicity_of_rejection_amended_witness :
    handleReveal [] c5Lost 0 3 = some c5Lost ∧
    handleReveal [] c5S1 0 0 = some c5S1 ∧
    handleFlag c5S1 0 0 = some c5S1 :=
  have h := C6_atomicity_of_rejection_amended [] c5Lost 0 3
  have h2 := C6_atomicity_of_rejection_amended [] c5S1 0 0
  ⟨h.1 (by decide), h2.2.1 (by decide) (by decide) (by decide) (by decide),
    h2.2.2.2.1 (by decide) (by decide) (by decide)⟩

/-- C7: `flagsLeft` is never negative; a flag toggle on an unflagged cell with
the budget exhausted is rejected as a no-op; at most `mines` cells are ever
flagged in a reachable session; and otherwise the toggle flips the cell's
`isFlagged`. -/
theorem C7_flag_budget (s : GameState) (r c : Int) :
    0 ≤ flagsLeft s.mines s.board ∧
    (Reachable s → countFlagged s.board ≤ s.mines) ∧
    (¬(s.status = Status.lost ∨ s.status = Status.won) →
      getCq s.board r c = some (getC s.board r c) →
      (getC s.board r c).isRevealed = false →
      (getC s.board r c).isFlagged = false →
      (s.mines : Int) - (countFlagged s.board : Int) = 0 →
      handleFlag s r c = some s) ∧
    (¬(s.status = Status.lost ∨ s.status = Status.won) →
      getCq s.board r c = some (getC s.board r c) →
      (getC s.board r c).isRevealed = false →
      ¬((!(getC s.board r c).isFlagged) = true ∧
        (s.mines : Int) - (countFlagged s.board : Int) = 0) →
      handleFlag s r c = some { s with board := modifyCell s.board r c (fun cel => { cel with isFlagged := !(getC s.board r c).isFlagged }) }) := by
  refine ⟨le_max_left 0 _, ?_, ?_, ?_⟩
  · intro hreach
    exact (inv_reachable s hreach).2.2.2.2.2.2.2.2.2
  · intro hterm hq hrev hflag hbud
    exact handleFlag_budget s r c hterm hq hrev hflag hbud
  · intro hterm hq hrev hok
    exact handleFlag_accept s r c hterm hq hrev hok

/-- Witness for C7 at a concrete fresh session: the budget is nonnegative, the
flag count is within budget, and a first toggle flips the flag. -/
theorem C7_flag_budget_witness :
    0 ≤ flagsLeft (freshSession 1 2 1).mines (freshSession 1 2 1).board ∧
    countFlagged (freshSession 1 2 1).board ≤ (freshSession 1 2 1).mines ∧
    handleFlag (freshSession 1 2 1) 0 0 = some { freshSession 1 2 1 with board := modifyCell (freshSession 1 2 1).board 0 0 (fun cel => { cel with isFlagged := !(getC (freshSession 1 2 1).board 0 0).isFlagged }) } :=
  have h := C7_flag_budget (freshSession 1 2 1) 0 0
  ⟨h.1, h.2.1 (Reachable.fresh 1 2 1 (by decide)),
    h.2.2.2 (by decide) (by decide) (by decide) (by decide)⟩

/-- C8: the engine has no bounds check: a reveal or flag aimed outside the
grid of a non-terminal session dereferences `board[r][c]` on an undefined row
or cell and throws (modelled by `none`), instead of being rejected as a
no-op. -/
theorem C8_out_of_bounds_crash :
    handleReveal [] c5S1 0 6 = none ∧
    handleReveal [] c5S1 (-1) 0 = none ∧
    handleReveal [] c5S1 1 0 = none ∧
    handleFlag c5S1 0 6 = none ∧
    handleFlag c5S1 (-1) 0 = none := by
  decide

/-- C10: on a reachable non-terminal session, an accepted flag toggle on an
in-bounds unrevealed cell followed by a second toggle of the same cell is also
accepted and restores the session exactly (unflagging is never blocked by the
budget, and re-flagging after an unflag always fits the budget). -/
theorem C10_flag_toggle_roundtrip (s s1 : GameState) (r c : Int)
    (hreach : Reachable s)
    (hterm : ¬(s.status = Status.lost ∨ s.status = Status.won))
    (hq : getCq s.board r c = some (getC s.board r c))
    (hrev : (getC s.board r c).isRevealed = false)
    (hacc : handleFlag s r c = some s1) (hne : s1 ≠ s) :
    handleFlag s1 r c = some s := by
  have hI := inv_reachable s hreach
  have hcf : countFlagged s.board ≤ s.mines := hI.2.2.2.2.2.2.2.2.2
  obtain ⟨h0, h1, hrb, hcb, _⟩ := getCq_some_elim _ _ _ _ hq
  by_cases hbud : (!(getC s.board r c).isFlagged) = true ∧
      (s.mines : Int) - (countFlagged s.board : Int) = 0
  · have hflagF : (getC s.board r c).isFlagged = false := by
      cases hv : (getC s.board r c).isFlagged
      · rfl
      · have := hbud.1
        rw [hv] at this
        exact Bool.noConfusion this
    rw [handleFlag_budget s r c hterm hq hrev hflagF hbud.2] at hacc
    exact absurd (Option.some.inj hacc).symm hne
  · rw [handleFlag_accept s r c hterm hq hrev hbud] at hacc
    have hs1 : s1 = { s with board := modifyCell s.board r c (fun cel => { cel with isFlagged := !(getC s.board r c).isFlagged }) } :=
      (Option.some.inj hacc).symm
    subst hs1
    have hrb1 : r.toNat < (modifyCell s.board r c (fun cel => { cel with isFlagged := !(getC s.board r c).isFlagged })).length := by
      rw [modifyCell_length]
      exact hrb
    have hcb1 : c.toNat < ((modifyCell s.board r c (fun cel => { cel with isFlagged := !(getC s.board r c).isFlagged })).getD r.toNat []).length := by
      rw [getD_modifyCell_length]
      exact hcb
    have hself := getC_modifyCell_self s.board r c
      (fun cel => { cel with isFlagged := !(getC s.board r c).isFlagged }) h0 h1 hrb hcb
    have hq1 : getCq (modifyCell s.board r c (fun cel => { cel with isFlagged := !(getC s.board r c).isFlagged })) r c = some (getC (modifyCell s.board r c (fun cel => { cel with isFlagged := !(getC s.board r c).isFlagged })) r c) :=
      getCq_some _ _ _ h0 h1 hrb1 hcb1
    have hrev1 : (getC (modifyCell s.board r c (fun cel => { cel with isFlagged := !(getC s.board r c).isFlagged })) r c).isRevealed = false := by
      rw [hself]
      exact hrev
    have hv : (getC (modifyCell s.board r c (fun cel => { cel with isFlagged := !(getC s.board r c).isFlagged })) r c).isFlagged = !(getC s.board r c).isFlagged := by
      rw [hself]
    have hcomp : modifyCell (modifyCell s.board r c (fun cel => { cel with isFlagged := !(getC s.board r c).isFlagged })) r c (fun cel => { cel with isFlagged := !(getC (modifyCell s.board r c (fun cel => { cel with isFlagged := !(getC s.board r c).isFlagged })) r c).isFlagged }) = s.board := by
      rw [modifyCell_modifyCell]
      apply modifyCell_id_of
      show ({ { getC s.board r c with isFlagged := !(getC s.board r c).isFlagged } with isFlagged := !(getC (modifyCell s.board r c (fun cel => { cel with isFlagged := !(getC s.board r c).isFlagged })) r c).isFlagged } : Cell) = getC s.board r c
      rw [hv, Bool.not_not]
    by_cases hflag : (getC s.board r c).isFlagged = true
    · have hsub := countFlagged_modifyCell_unflag s.board r c h0 h1 hrb hcb hflag
      have hbud1 : ¬((!(getC (modifyCell s.board r c (fun cel => { cel with isFlagged := !(getC s.board r c).isFlagged })) r c).isFlagged) = true ∧
          (s.mines : Int) - (countFlagged (modifyCell s.board r c (fun cel => { cel with isFlagged := !(getC s.board r c).isFlagged })) : Int) = 0) := by
        rintro ⟨_, hz⟩
        omega
      exact (handleFlag_accept { s with board := modifyCell s.board r c (fun cel => { cel with isFlagged := !(getC s.board r c).isFlagged }) } r c hterm hq1 hrev1 hbud1).trans
        (congrArg some (gs_eq_of_board s _ hcomp))
    · have hbud1 : ¬((!(getC (modifyCell s.board r c (fun cel => { cel with isFlagged := !(getC s.board r c).isFlagged })) r c).isFlagged) = true ∧
          (s.mines : Int) - (countFlagged (modifyCell s.board r c (fun cel => { cel with isFlagged := !(getC s.board r c).isFlagged })) : Int) = 0) := by
        rintro ⟨hw, _⟩
        rw [hv] at hw
        have hflagF : (getC s.board r c).isFlagged = false := by
          cases hx : (getC s.board r c).isFlagged
          · rfl
          · exact absurd hx hflag
        rw [hflagF] at hw
        exact Bool.noConfusion hw
      exact (handleFlag_accept { s with board := modifyCell s.board r c (fun cel => { cel with isFlagged := !(getC s.board r c).isFlagged }) } r c hterm hq1 hrev1 hbud1).trans
        (congrArg some (gs_eq_of_board s _ hcomp))

/-- Witness for C10: flag then unflag the cell (0,0) of a fresh 1×2 session. -/
theorem C10_flag_toggle_roundtrip_witness :
    handleFlag { freshSession 1 2 1 with board := [[⟨false, false, true, 0⟩, ⟨false, false, false, 0⟩]] } 0 0 = some (freshSession 1 2 1) :=
  C10_flag_toggle_roundtrip (freshSession 1 2 1)
    { freshSession 1 2 1 with board := [[⟨false, false, true, 0⟩, ⟨false, false, false, 0⟩]] }
    0 0 (Reachable.fresh 1 2 1 (by decide)) (by decide) (by decide) (by decide)
    (by decide) (by decide)

theorem mem_append_singleton {α : Type} (l : List α) (a x : α) :
    x ∈ l ++ [a] ↔ x ∈ l ∨ x = a := by
  simp

theorem nodup_append_singleton {α : Type} (l : List α) (a : α)
    (hnd : l.Nodup) (ha : a ∉ l) : (l ++ [a]).Nodup := by
  induction l with
  | nil => exact List.nodup_singleton a
  | cons x xs ih =>
    rw [List.cons_append, List.nodup_cons]
    rw [List.nodup_cons] at hnd
    have hax : a ∉ xs := fun h => ha (List.mem_cons_of_mem x h)
    have hxa : x ≠ a := fun h => ha (h ▸ List.mem_cons_self x xs)
    refine ⟨?_, ih hnd.2 hax⟩
    intro hx
    rcases List.mem_append.mp hx with h | h
    · exact hnd.1 h
    · exact hxa (List.mem_singleton.mp h)

theorem encP_lt (rows cols : Nat) (p : Int × Int)
    (h : inBoundsB rows cols p.1 p.2 = true) : encP cols p < rows * cols := by
  rw [inBoundsB_iff] at h
  have ha : p.1.toNat < rows := by omega
  have hb : p.2.toNat < cols := by omega
  show p.1.toNat * cols + p.2.toNat < rows * cols
  calc p.1.toNat * cols + p.2.toNat < p.1.toNat * cols + cols := by omega
    _ = (p.1.toNat + 1) * cols := by ring
    _ ≤ rows * cols := Nat.mul_le_mul_right cols ha

theorem encP_inj (rows cols : Nat) (p q : Int × Int)
    (hp : inBoundsB rows cols p.1 p.2 = true) (hq : inBoundsB rows cols q.1 q.2 = true)
    (h : encP cols p = encP cols q) : p = q := by
  rw [inBoundsB_iff] at hp hq
  have hb : p.2.toNat < cols := by omega
  have hb' : q.2.toNat < cols := by omega
  unfold encP at h
  have hm : (cols * p.1.toNat + p.2.toNat) % cols = (cols * q.1.toNat + q.2.toNat) % cols := by
    rw [Nat.mul_comm cols p.1.toNat, Nat.mul_comm cols q.1.toNat, h]
  rw [Nat.mul_add_mod, Nat.mul_add_mod, Nat.mod_eq_of_lt hb, Nat.mod_eq_of_lt hb'] at hm
  have h1 : p.1.toNat * cols = q.1.toNat * cols := by omega
  have h1' : p.1.toNat = q.1.toNat := Nat.eq_of_mul_eq_mul_right (by omega) h1
  have hp1 : p.1 = q.1 := by omega
  have hp2 : p.2 = q.2 := by omega
  exact Prod.ext hp1 hp2

theorem nodup_inBounds_length (rows cols : Nat) (l : List (Int × Int))
    (hnd : l.Nodup) (hb : ∀ p ∈ l, inBoundsB rows cols p.1 p.2 = true) :
    l.length ≤ rows * cols := by
  have hmapnd : (l.map (encP cols)).Nodup :=
    hnd.map_on (fun x hx y hy hxy => encP_inj rows cols x y (hb x hx) (hb y hy) hxy)
  have hsub : (l.map (encP cols)).toFinset ⊆ Finset.range (rows * cols) := by
    intro x hx
    rw [List.mem_toFinset] at hx
    rw [Finset.mem_range]
    obtain ⟨p, hpmem, rfl⟩ := List.mem_map.mp hx
    exact encP_lt rows cols p (hb p hpmem)
  have hcard := Finset.card_le_card hsub
  rw [Finset.card_range, List.toFinset_card_of_nodup hmapnd] at hcard
  simpa using hcard

theorem scanNbrs_inv (rows cols : Nat) (b₀ : Board) (s p : Int × Int)
    (hpR : FloodReach rows cols b₀ s p) (hp0 : (getC b₀ p.1 p.2).count = 0) :
    ∀ (ns q seen : List (Int × Int)) (b : Board),
      (∀ w ∈ ns, w ∈ nbrs p.1 p.2) →
      FloodBase rows cols b₀ s q seen b →
      FloodClosed rows cols b₀ q seen [p] →
      FloodBase rows cols b₀ s (scanNbrs rows cols ns q seen b).1
          (scanNbrs rows cols ns q seen b).2.1 (scanNbrs rows cols ns q seen b).2.2 ∧
      FloodClosed rows cols b₀ (scanNbrs rows cols ns q seen b).1
          (scanNbrs rows cols ns q seen b).2.1 [p] ∧
      (∀ w ∈ ns, okTgt rows cols b₀ w → w ∈ (scanNbrs rows cols ns q seen b).2.1) ∧
      (∀ x ∈ seen, x ∈ (scanNbrs rows cols ns q seen b).2.1) ∧
      (scanNbrs rows cols ns q seen b).1.length + seen.length
        ≤ q.length + (scanNbrs rows cols ns q seen b).2.1.length ∧
      seen.length ≤ (scanNbrs rows cols ns q seen b).2.1.length := by
  intro ns
  induction ns with
  | nil =>
    intro q seen b hns hbase hclosed
    exact ⟨hbase, hclosed, fun w hw => absurd hw (List.not_mem_nil w),
      fun x hx => hx, Nat.le_refl _, Nat.le_refl _⟩
  | cons v vs ih =>
    intro q seen b hns hbase hclosed
    have hns' : ∀ w ∈ vs, w ∈ nbrs p.1 p.2 := fun w hw => hns w (List.mem_cons_of_mem v hw)
    have hvnbr : v ∈ nbrs p.1 p.2 := hns v (List.mem_cons_self v vs)
    unfold scanNbrs
    split
    · rename_i hcond
      obtain ⟨hinb, hvseen, hrevF, hflagF, hmineF⟩ := hcond
      -- the updated queue, seen set and board of the taken branch
      have hq'sub : ∀ x ∈ (if (getC b v.1 v.2).count = 0 then q ++ [v] else q),
          x ∈ q ∨ x = v := by
        intro x hx
        split at hx
        · exact (mem_append_singleton q v x).mp hx
        · exact Or.inl hx
      have hqsub' : ∀ x ∈ q, x ∈ (if (getC b v.1 v.2).count = 0 then q ++ [v] else q) := by
        intro x hx
        split
        · exact List.mem_append_left [v] hx
        · exact hx
      have hvq : v ∉ q := fun hx => hvseen (hbase.qSub v hx)
      have hq'nd : (if (getC b v.1 v.2).count = 0 then q ++ [v] else q).Nodup := by
        split
        · exact nodup_append_singleton q v hbase.qNodup hvq
        · exact hbase.qNodup
      have hq'len : (if (getC b v.1 v.2).count = 0 then q ++ [v] else q).length
          ≤ q.length + 1 := by
        split
        · rw [List.length_append]; exact Nat.le_refl _
        · exact Nat.le_succ _
      have hvq' : (getC b₀ v.1 v.2).count = 0 →
          v ∈ (if (getC b v.1 v.2).count = 0 then q ++ [v] else q) := by
        intro hc0
        have hcb : (getC b v.1 v.2).count = 0 := ((hbase.fieldsEq v.1 v.2).2.2).trans hc0
        rw [if_pos hcb]
        exact List.mem_append_right q (List.mem_singleton.mpr rfl)
      have hrev0 : (getC b₀ v.1 v.2).isRevealed = false := by
        cases hx : (getC b₀ v.1 v.2).isRevealed
        · rfl
        · exact absurd (hrevF ▸ hbase.revMono v.1 v.2 hx) (by simp)
      have hOk : okTgt rows cols b₀ v :=
        ⟨hinb, hrev0, ((hbase.fieldsEq v.1 v.2).2.1).symm.trans hflagF,
          ((hbase.fieldsEq v.1 v.2).1).symm.trans hmineF⟩
      have hdm := inDims_of_inBounds b rows cols v.1 v.2 hbase.dims hinb
      have hbase' : FloodBase rows cols b₀ s
          (if (getC b v.1 v.2).count = 0 then q ++ [v] else q) (v :: seen)
          (modifyCell b v.1 v.2 (fun cel => { cel with isRevealed := true })) := by
        refine ⟨dims_modifyCell _ _ _ _ _ _ hbase.dims, ?_, ?_, ?_, ?_, hq'nd, ?_, ?_, ?_, ?_, ?_⟩
        · intro r c
          obtain ⟨g1, g2, g3⟩ := getC_setRevealed_fields b v.1 v.2 r c
          obtain ⟨f1, f2, f3⟩ := hbase.fieldsEq r c
          exact ⟨g1.trans f1, g2.trans f2, g3.trans f3⟩
        · intro r c h
          exact getC_setRevealed_mono b v.1 v.2 r c (hbase.revMono r c h)
        · intro r c h
          rcases getC_setRevealed_src b v.1 v.2 r c h with h1 | h1
          · rcases hbase.revSrc r c h1 with h2 | h2
            · exact Or.inl h2
            · exact Or.inr (List.mem_cons_of_mem v h2)
          · refine Or.inr ?_
            have hrc : (r, c) = v := Prod.ext h1.1 h1.2
            rw [hrc]
            exact List.mem_cons_self v seen
        · intro x hx
          rcases hq'sub x hx with h1 | h1
          · exact List.mem_cons_of_mem v (hbase.qSub x h1)
          · rw [h1]; exact List.mem_cons_self v seen
        · rw [List.nodup_cons]; exact ⟨hvseen, hbase.seenNodup⟩
        · intro x hx
          rcases List.mem_cons.mp hx with h1 | h1
          · rw [h1]; exact hinb
          · exact hbase.seenBounds x h1
        · intro x hx
          rcases List.mem_cons.mp hx with h1 | h1
          · rw [h1]; exact FloodReach.tail p v hpR hp0 hvnbr hOk
          · exact hbase.seenReach x h1
        · intro x hx
          rcases List.mem_cons.mp hx with h1 | h1
          · refine Or.inl ?_
            rw [h1, getC_modifyCell_self b v.1 v.2 _ hdm.1 hdm.2.1 hdm.2.2.1 hdm.2.2.2]
          · rcases hbase.seenRevQ x h1 with h2 | h2
            · exact Or.inl (getC_setRevealed_mono b v.1 v.2 x.1 x.2 h2)
            · exact Or.inr (hqsub' x h2)
        · exact List.mem_cons_of_mem v hbase.startMem
      have hclosed' : FloodClosed rows cols b₀
          (if (getC b v.1 v.2).count = 0 then q ++ [v] else q) (v :: seen) [p] := by
        intro u hu hq'u hexc hcnt w hw hOkw
        rcases List.mem_cons.mp hu with h1 | h1
        · exact absurd (hvq' (h1 ▸ hcnt)) (h1 ▸ hq'u)
        · exact List.mem_cons_of_mem v
            (hclosed u h1 (fun hc => hq'u (hqsub' u hc)) hexc hcnt w hw hOkw)
      obtain ⟨ihb, ihc, ihcov, ihsub, ihlen, ihslen⟩ := ih _ _ _ hns' hbase' hclosed'
      refine ⟨ihb, ihc, ?_, ?_, ?_, ?_⟩
      · intro w hw hOkw
        rcases List.mem_cons.mp hw with h1 | h1
        · rw [h1]; exact ihsub v (List.mem_cons_self v seen)
        · exact ihcov w h1 hOkw
      · intro x hx
        exact ihsub x (List.mem_cons_of_mem v hx)
      · have := ihlen
        simp only [List.length_cons] at this
        omega
      · have := ihslen
        simp only [List.length_cons] at this
        omega
    · rename_i hncond
      obtain ⟨ihb, ihc, ihcov, ihsub, ihlen, ihslen⟩ := ih _ _ _ hns' hbase hclosed
      refine ⟨ihb, ihc, ?_, ihsub, ihlen, ihslen⟩
      intro w hw hOkw
      rcases List.mem_cons.mp hw with h1 | h1
      · subst h1
        by_cases hv : w ∈ seen
        · exact ihsub w hv
        · exfalso
          have c₃ : (getC b w.1 w.2).isRevealed = false := by
            cases hx : (getC b w.1 w.2).isRevealed
            · rfl
            · rcases hbase.revSrc w.1 w.2 hx with h2 | h2
              · rw [hOkw.2.1] at h2
                exact Bool.noConfusion h2
              · rw [Prod.mk.eta] at h2
                exact absurd h2 hv
          have c₄ : (getC b w.1 w.2).isFlagged = false :=
            ((hbase.fieldsEq w.1 w.2).2.1).trans hOkw.2.2.1
          have c₅ : (getC b w.1 w.2).isMine = false :=
            ((hbase.fieldsEq w.1 w.2).1).trans hOkw.2.2.2
          exact hncond ⟨hOkw.1, hv, c₃, c₄, c₅⟩
      · exact ihcov w h1 hOkw

theorem floodAux_inv (rows cols : Nat) (b₀ : Board) (s : Int × Int) :
    ∀ (fuel : Nat) (q seen : List (Int × Int)) (b : Board),
      FloodBase rows cols b₀ s q seen b →
      FloodClosed rows cols b₀ q seen [] →
      q.length + 2 * (rows * cols) < fuel + 2 * seen.length →
      ∃ seenF : List (Int × Int),
        FloodBase rows cols b₀ s [] seenF (floodAux rows cols fuel q seen b) ∧
        FloodClosed rows cols b₀ [] seenF [] := by
  intro fuel
  induction fuel with
  | zero =>
    intro q seen b hbase hclosed hmeas
    cases q with
    | nil => exact ⟨seen, hbase, hclosed⟩
    | cons pc rest =>
      exfalso
      have hsl : seen.length ≤ rows * cols :=
        nodup_inBounds_length rows cols seen hbase.seenNodup hbase.seenBounds
      simp only [List.length_cons] at hmeas
      omega
  | succ m ih =>
    intro q seen b hbase hclosed hmeas
    cases q with
    | nil => exact ⟨seen, hbase, hclosed⟩
    | cons pc rest =>
      have hps : pc ∈ seen := hbase.qSub pc (List.mem_cons_self pc rest)
      have hpb : inBoundsB rows cols pc.1 pc.2 = true := hbase.seenBounds pc hps
      have hdm := inDims_of_inBounds b rows cols pc.1 pc.2 hbase.dims hpb
      have hRch : FloodReach rows cols b₀ s pc := hbase.seenReach pc hps
      -- invariants for the dequeue-and-reveal step
      have hbase1 : FloodBase rows cols b₀ s rest seen
          (modifyCell b pc.1 pc.2 (fun cel => { cel with isRevealed := true })) := by
        refine ⟨dims_modifyCell _ _ _ _ _ _ hbase.dims, ?_, ?_, ?_, ?_, ?_, hbase.seenNodup,
          hbase.seenBounds, hbase.seenReach, ?_, hbase.startMem⟩
        · intro r c
          obtain ⟨g1, g2, g3⟩ := getC_setRevealed_fields b pc.1 pc.2 r c
          obtain ⟨f1, f2, f3⟩ := hbase.fieldsEq r c
          exact ⟨g1.trans f1, g2.trans f2, g3.trans f3⟩
        · intro r c h
          exact getC_setRevealed_mono b pc.1 pc.2 r c (hbase.revMono r c h)
        · intro r c h
          rcases getC_setRevealed_src b pc.1 pc.2 r c h with h1 | h1
          · exact hbase.revSrc r c h1
          · refine Or.inr ?_
            have hrc : (r, c) = pc := Prod.ext h1.1 h1.2
            rw [hrc]
            exact hps
        · intro x hx
          exact hbase.qSub x (List.mem_cons_of_mem pc hx)
        · exact (List.nodup_cons.mp hbase.qNodup).2
        · intro x hx
          rcases hbase.seenRevQ x hx with h2 | h2
          · exact Or.inl (getC_setRevealed_mono b pc.1 pc.2 x.1 x.2 h2)
          · rcases List.mem_cons.mp h2 with h3 | h3
            · refine Or.inl ?_
              rw [h3, getC_modifyCell_self b pc.1 pc.2 _ hdm.1 hdm.2.1 hdm.2.2.1 hdm.2.2.2]
            · exact Or.inr h3
      have hpc_rest : pc ∉ rest := (List.nodup_cons.mp hbase.qNodup).1
      simp only [floodAux]
      split
      · rename_i hz
        have hz0 : (getC b₀ pc.1 pc.2).count = 0 := by
          have g3 := (getC_setRevealed_fields b pc.1 pc.2 pc.1 pc.2).2.2
          have f3 := (hbase.fieldsEq pc.1 pc.2).2.2
          exact f3.symm.trans (g3.symm.trans hz)
        have hclosed1 : FloodClosed rows cols b₀ rest seen [pc] := by
          intro u hu hrestu hexc hcnt w hw hOkw
          have huq : u ∉ pc :: rest := by
            intro hx
            rcases List.mem_cons.mp hx with h1 | h1
            · exact hexc (List.mem_singleton.mpr h1)
            · exact hrestu h1
          exact hclosed u hu huq (List.not_mem_nil u) hcnt w hw hOkw
        obtain ⟨ihb, ihc, ihcov, ihsub, _, _⟩ :=
          scanNbrs_inv rows cols b₀ s pc hRch hz0 (nbrs pc.1 pc.2) rest seen
            (modifyCell b pc.1 pc.2 (fun cel => { cel with isRevealed := true }))
            (fun w hw => hw) hbase1 hclosed1
        have hclosedF : FloodClosed rows cols b₀
            (scanNbrs rows cols (nbrs pc.1 pc.2) rest seen
              (modifyCell b pc.1 pc.2 (fun cel => { cel with isRevealed := true }))).1
            (scanNbrs rows cols (nbrs pc.1 pc.2) rest seen
              (modifyCell b pc.1 pc.2 (fun cel => { cel with isRevealed := true }))).2.1
            [] := by
          intro u hu hqu _ hcnt w hw hOkw
          by_cases hupc : u = pc
          · subst hupc
            exact ihcov w hw hOkw
          · exact ihc u hu hqu (fun hx => hupc (List.mem_singleton.mp hx)) hcnt w hw hOkw
        refine ih _ _ _ ihb hclosedF ?_
        obtain ⟨_, _, _, _, ihlen, ihslen⟩ :=
          scanNbrs_inv rows cols b₀ s pc hRch hz0 (nbrs pc.1 pc.2) rest seen
            (modifyCell b pc.1 pc.2 (fun cel => { cel with isRevealed := true }))
            (fun w hw => hw) hbase1 hclosed1
        simp only [List.length_cons] at hmeas
        omega
      · rename_i hz
        have hclosed1 : FloodClosed rows cols b₀ rest seen [] := by
          intro u hu hrestu _ hcnt w hw hOkw
          by_cases hupc : u = pc
          · exfalso
            apply hz
            have g3 := (getC_setRevealed_fields b pc.1 pc.2 pc.1 pc.2).2.2
            have f3 := (hbase.fieldsEq pc.1 pc.2).2.2
            rw [g3, f3, ← hupc]
            exact hcnt
          · have huq : u ∉ pc :: rest := by
              intro hx
              rcases List.mem_cons.mp hx with h1 | h1
              · exact hupc h1
              · exact hrestu h1
            exact hclosed u hu huq (List.not_mem_nil u) hcnt w hw hOkw
        refine ih _ _ _ hbase1 hclosed1 ?_
        simp only [List.length_cons] at hmeas
        omega

theorem floodReveal_reveals_iff (b : Board) (rows cols : Nat) (sr sc : Int)
    (hD : Dims b rows cols) (hin : inBoundsB rows cols sr sc = true) :
    ∀ r c : Int, (getC (floodReveal b sr sc) r c).isRevealed = true ↔
      ((getC b r c).isRevealed = true ∨ FloodReach rows cols b (sr, sc) (r, c)) := by
  have hrows : 0 < rows := by
    rw [inBoundsB_iff] at hin
    omega
  have hbl : b.length = rows := hD.1
  have hc0 : (b.getD 0 []).length = cols := hD.2 0 hrows
  have hflood : floodReveal b sr sc
      = floodAux rows cols (2 * (rows * cols) + 1) [(sr, sc)] [(sr, sc)] b := by
    simp only [floodReveal]
    rw [hbl, hc0]
  have hbase0 : FloodBase rows cols b (sr, sc) [(sr, sc)] [(sr, sc)] b := by
    refine ⟨hD, fun r c => ⟨rfl, rfl, rfl⟩, fun r c h => h, fun r c h => Or.inl h,
      fun x hx => hx, List.nodup_singleton _, List.nodup_singleton _, ?_, ?_, ?_,
      List.mem_singleton.mpr rfl⟩
    · intro x hx
      rw [List.mem_singleton.mp hx]
      exact hin
    · intro x hx
      rw [List.mem_singleton.mp hx]
      exact FloodReach.refl
    · intro x hx
      exact Or.inr hx
  have hclosed0 : FloodClosed rows cols b [(sr, sc)] [(sr, sc)] [] := by
    intro u hu huq
    exact absurd hu huq
  have hmeas0 : ([((sr : Int), (sc : Int))] : List (Int × Int)).length + 2 * (rows * cols)
      < (2 * (rows * cols) + 1) + 2 * ([((sr : Int), (sc : Int))] : List (Int × Int)).length := by
    simp only [List.length_singleton]
    omega
  obtain ⟨seenF, hbF, hclF⟩ :=
    floodAux_inv rows cols b (sr, sc) (2 * (rows * cols) + 1) [(sr, sc)] [(sr, sc)] b
      hbase0 hclosed0 hmeas0
  have hmem : ∀ t : Int × Int, FloodReach rows cols b (sr, sc) t → t ∈ seenF := by
    intro t ht
    induction ht with
    | refl => exact hbF.startMem
    | tail u w hu hc hw hok ihu =>
      exact hclF u ihu (List.not_mem_nil u) (List.not_mem_nil u) hc w hw hok
  intro r c
  rw [hflood]
  constructor
  · intro h
    rcases hbF.revSrc r c h with h1 | h1
    · exact Or.inl h1
    · exact Or.inr (hbF.seenReach (r, c) h1)
  · intro h
    rcases h with h1 | h1
    · exact hbF.revMono r c h1
    · rcases hbF.seenRevQ (r, c) (hmem (r, c) h1) with h2 | h2
      · exact h2
      · exact absurd h2 (List.not_mem_nil _)

theorem dims_row1 (row : List Cell) : Dims [row] 1 row.length := by
  refine ⟨rfl, fun i hi => ?_⟩
  have hi0 : i = 0 := by omega
  rw [hi0]
  rfl

/-- C2 counterexample: on a 1×3 mine-free all-zero-count board whose middle
cell is already revealed, the start (0,0) satisfies every precondition of the
claim and (0,2) lies in the spec's connected zero region of (0,0), yet
`floodReveal` leaves (0,2) unrevealed: already-revealed cells block the
cascade, so the revealed cells are not exactly the spec's region plus its
nonzero border. -/
theorem C2_cascade_counterexample :
    (getC c2Board 0 0).count = 0 ∧ (getC c2Board 0 0).isMine = false ∧
    (getC c2Board 0 0).isFlagged = false ∧ (getC c2Board 0 0).isRevealed = false ∧
    SpecZeroRegion 1 3 c2Board (0, 0) (0, 2) ∧
    (getC (floodReveal c2Board 0 0) 0 2).isRevealed = false := by
  refine ⟨rfl, rfl, rfl, rfl, ?_, by decide⟩
  exact SpecZeroRegion.step (0, 1) (0, 2)
    (SpecZeroRegion.step (0, 0) (0, 1) SpecZeroRegion.refl (by decide) (by decide)
      (by decide) (by decide))
    (by decide) (by decide) (by decide) (by decide)

/-- C2 (amended): for every board and in-bounds start cell satisfying the
claim's preconditions (count 0, not a mine, not flagged, not revealed),
`floodReveal` reveals exactly the start together with the cells reachable
through zero-count cells whose scanned neighbors are eligible on the pre-flood
board — already-revealed cells block propagation, unlike the region in the
spec's sentence — and every newly revealed cell is neither a mine nor
flagged. -/
theorem C2_cascade_amended (b : Board) (rows cols : Nat) (sr sc : Int)
    (hD : Dims b rows cols) (hin : inBoundsB rows cols sr sc = true)
    (_hc0 : (getC b sr sc).count = 0) (hm : (getC b sr sc).isMine = false)
    (hf : (getC b sr sc).isFlagged = false) (_hr : (getC b sr sc).isRevealed = false) :
    (∀ r c : Int, (getC (floodReveal b sr sc) r c).isRevealed = true ↔
      ((getC b r c).isRevealed = true ∨ FloodReach rows cols b (sr, sc) (r, c))) ∧
    (∀ r c : Int, (getC (floodReveal b sr sc) r c).isRevealed = true →
      (getC b r c).isRevealed = false →
      (getC b r c).isMine = false ∧ (getC b r c).isFlagged = false) := by
  have hiff := floodReveal_reveals_iff b rows cols sr sc hD hin
  refine ⟨hiff, ?_⟩
  intro r c h hrev
  rcases (hiff r c).mp h with h1 | h1
  · rw [h1] at hrev
    exact Bool.noConfusion hrev
  · cases h1 with
    | refl => exact ⟨hm, hf⟩
    | tail u w hu hc hw hok => exact ⟨hok.2.2.2, hok.2.2.1⟩

/-- Witness for C2: the amended characterization instantiated on the concrete
1×3 board `c2Board` with start (0,0). -/
theorem C2_cascade_amended_witness :
    Dims c2Board 1 3 ∧ inBoundsB 1 3 0 0 = true ∧
    ((∀ r c : Int, (getC (floodReveal c2Board 0 0) r c).isRevealed = true ↔
        ((getC c2Board r c).isRevealed = true ∨ FloodReach 1 3 c2Board (0, 0) (r, c))) ∧
      (∀ r c : Int, (getC (floodReveal c2Board 0 0) r c).isRevealed = true →
        (getC c2Board r c).isRevealed = false →
        (getC c2Board r c).isMine = false ∧ (getC c2Board r c).isFlagged = false)) :=
  ⟨dims_row1 _, by decide,
    C2_cascade_amended c2Board 1 3 0 0 (dims_row1 _) (by decide) rfl rfl rfl rfl⟩

theorem hWrite_fresh (h : Heap) (ref : Nat) (f : Cell → Cell) :
    (hWrite h ref f).fresh = h.fresh := rfl

theorem hWrite_cells_ne (h : Heap) (ref : Nat) (f : Cell → Cell) (n : Nat)
    (hn : n ≠ ref) : (hWrite h ref f).cells n = h.cells n := by
  simp [hWrite, hn]

theorem hAlloc_fst_fresh (h : Heap) (cell : Cell) :
    (hAlloc h cell).1.fresh = h.fresh + 1 := rfl

theorem hAlloc_cells_lt (h : Heap) (cell : Cell) (n : Nat) (hn : n < h.fresh) :
    (hAlloc h cell).1.cells n = h.cells n := by
  have hne : n ≠ h.fresh := by omega
  simp [hAlloc, hne]

theorem mem_hbFlat (hb : HBoard) (row : List Nat) (ref : Nat)
    (hrow : row ∈ hb) (href : ref ∈ row) : ref ∈ hbFlat hb := by
  induction hb with
  | nil => exact absurd hrow (List.not_mem_nil row)
  | cons r rest ih =>
    show ref ∈ r ++ hbFlat rest
    rcases List.mem_cons.mp hrow with h1 | h1
    · exact List.mem_append_left _ (h1 ▸ href)
    · exact List.mem_append_right _ (ih h1)

theorem hRefAt_mem (hb : HBoard) (r c : Int) (ref : Nat)
    (h : hRefAt hb r c = some ref) : ref ∈ hbFlat hb := by
  unfold hRefAt at h
  split at h
  · exact Option.noConfusion h
  · cases hrow : hb.get? r.toNat with
    | none => rw [hrow] at h; exact Option.noConfusion h
    | some row =>
      rw [hrow] at h
      have h' : row.get? c.toNat = some ref := h
      exact mem_hbFlat hb row ref (List.get?_mem hrow) (List.get?_mem h')

theorem hModifyCell_fresh (h : Heap) (hb : HBoard) (r c : Int) (f : Cell → Cell) :
    (hModifyCell h hb r c f).fresh = h.fresh := by
  unfold hModifyCell
  cases hRefAt hb r c with
  | none => rfl
  | some ref => rfl

theorem hModifyCell_cells_nm (h : Heap) (hb : HBoard) (r c : Int) (f : Cell → Cell)
    (n : Nat) (hn : n ∉ hbFlat hb) : (hModifyCell h hb r c f).cells n = h.cells n := by
  unfold hModifyCell
  cases href : hRefAt hb r c with
  | none => rfl
  | some ref =>
    exact hWrite_cells_ne h ref f n (fun he => hn (he ▸ hRefAt_mem hb r c ref href))

theorem scanNbrs_h_frame (rows cols : Nat) (hb : HBoard) :
    ∀ (ns q seen : List (Int × Int)) (h : Heap),
      (∀ n, n ∉ hbFlat hb → (scanNbrs_h rows cols hb ns q seen h).2.2.cells n = h.cells n) ∧
      (scanNbrs_h rows cols hb ns q seen h).2.2.fresh = h.fresh := by
  intro ns
  induction ns with
  | nil => intro q seen h; exact ⟨fun n _ => rfl, rfl⟩
  | cons v vs ih =>
    intro q seen h
    unfold scanNbrs_h
    split
    · obtain ⟨hc, hf⟩ := ih (if (hGetC h hb v.1 v.2).count = 0 then q ++ [v] else q)
        (v :: seen) (hModifyCell h hb v.1 v.2 (fun cel => { cel with isRevealed := true }))

      refine ⟨fun n hn => ?_, ?_⟩
      · rw [hc n hn, hModifyCell_cells_nm h hb v.1 v.2 _ n hn]
      · rw [hf, hModifyCell_fresh]
    · exact ih _ _ _

theorem floodAux_h_frame (rows cols : Nat) (hb : HBoard) :
    ∀ (fuel : Nat) (q seen : List (Int × Int)) (h : Heap),
      (∀ n, n ∉ hbFlat hb → (floodAux_h rows cols hb fuel q seen h).cells n = h.cells n) ∧
      (floodAux_h rows cols hb fuel q seen h).fresh = h.fresh := by
  intro fuel
  induction fuel with
  | zero => intro q seen h; exact ⟨fun n _ => rfl, rfl⟩
  | succ m ih =>
    intro q seen h
    cases q with
    | nil => exact ⟨fun n _ => rfl, rfl⟩
    | cons pc rest =>
      simp only [floodAux_h]
      split
      · obtain ⟨sc, sf⟩ := scanNbrs_h_frame rows cols hb (nbrs pc.1 pc.2) rest seen
          (hModifyCell h hb pc.1 pc.2 (fun cel => { cel with isRevealed := true }))
        obtain ⟨hc, hf⟩ := ih
          (scanNbrs_h rows cols hb (nbrs pc.1 pc.2) rest seen
            (hModifyCell h hb pc.1 pc.2 (fun cel => { cel with isRevealed := true }))).1
          (scanNbrs_h rows cols hb (nbrs pc.1 pc.2) rest seen
            (hModifyCell h hb pc.1 pc.2 (fun cel => { cel with isRevealed := true }))).2.1
          (scanNbrs_h rows cols hb (nbrs pc.1 pc.2) rest seen
            (hModifyCell h hb pc.1 pc.2 (fun cel => { cel with isRevealed := true }))).2.2
        refine ⟨fun n hn => ?_, ?_⟩
        · rw [hc n hn, sc n hn, hModifyCell_cells_nm h hb pc.1 pc.2 _ n hn]
        · rw [hf, sf, hModifyCell_fresh]
      · obtain ⟨hc, hf⟩ := ih rest seen
          (hModifyCell h hb pc.1 pc.2 (fun cel => { cel with isRevealed := true }))
        refine ⟨fun n hn => ?_, ?_⟩
        · rw [hc n hn, hModifyCell_cells_nm h hb pc.1 pc.2 _ n hn]
        · rw [hf, hModifyCell_fresh]

theorem floodReveal_h_frame (h : Heap) (hb : HBoard) (r c : Int) :
    (∀ n, n ∉ hbFlat hb → (floodReveal_h h hb r c).cells n = h.cells n) ∧
    (floodReveal_h h hb r c).fresh = h.fresh :=
  floodAux_h_frame _ _ _ _ _ _ _

theorem countsPass_h_frame (rows cols : Nat) (hb : HBoard) :
    ∀ (idx : List (Nat × Nat)) (h : Heap),
      (∀ n, n ∉ hbFlat hb → (countsPass_h rows cols hb idx h).cells n = h.cells n) ∧
      (countsPass_h rows cols hb idx h).fresh = h.fresh := by
  intro idx
  induction idx with
  | nil => intro h; exact ⟨fun n _ => rfl, rfl⟩
  | cons p rest ih =>
    intro h
    obtain ⟨r, c⟩ := p
    unfold countsPass_h
    split
    · exact ih h
    · obtain ⟨hc, hf⟩ := ih (hModifyCell h hb (r : Int) (c : Int)
        (fun cel => { cel with count := hMineNbrCount h hb rows cols (r : Int) (c : Int) }))
      refine ⟨fun n hn => ?_, ?_⟩
      · rw [hc n hn, hModifyCell_cells_nm h hb (r : Int) (c : Int) _ n hn]
      · rw [hf, hModifyCell_fresh]

theorem plantLoop_h_frame (rows cols : Nat) (hb : HBoard) (forb : List (Int × Int)) :
    ∀ (rng : List (Nat × Nat)) (h : Heap) (need : Nat) (h' : Heap),
      plantLoop_h rows cols hb forb rng h need = some h' →
      (∀ n, n ∉ hbFlat hb → h'.cells n = h.cells n) ∧ h'.fresh = h.fresh := by
  intro rng
  induction rng with
  | nil =>
    intro h need h' heq
    cases need with
    | zero => cases heq; exact ⟨fun n _ => rfl, rfl⟩
    | succ k => simp [plantLoop_h] at heq
  | cons xy rest ih =>
    intro h need h' heq
    cases need with
    | zero => cases heq; exact ⟨fun n _ => rfl, rfl⟩
    | succ k =>
      obtain ⟨x, y⟩ := xy
      simp only [plantLoop_h] at heq
      split at heq
      · obtain ⟨hc, hf⟩ := ih _ _ _ heq
        refine ⟨fun n hn => ?_, ?_⟩
        · rw [hc n hn, hModifyCell_cells_nm h hb _ _ _ n hn]
        · rw [hf, hModifyCell_fresh]
      · exact ih _ _ _ heq

theorem plantMines_h_frame (h : Heap) (hb : HBoard) (rows cols mines : Nat)
    (sr sc : Int) (rng : List (Nat × Nat)) (h' : Heap)
    (heq : plantMines_h h hb rows cols mines sr sc rng = some h') :
    (∀ n, n ∉ hbFlat hb → h'.cells n = h.cells n) ∧ h'.fresh = h.fresh := by
  unfold plantMines_h at heq
  cases hpl : plantLoop_h rows cols hb (forbiddenList rows cols sr sc) rng h mines with
  | none => rw [hpl] at heq; exact Option.noConfusion heq
  | some hmid =>
    rw [hpl] at heq
    have h2 : computeCounts_h rows cols hb hmid = h' := Option.some.inj heq
    obtain ⟨pc, pf⟩ := plantLoop_h_frame rows cols hb _ rng h mines hmid hpl
    obtain ⟨cc, cf⟩ := countsPass_h_frame rows cols hb (idxGrid rows cols) hmid
    rw [← h2]
    exact ⟨fun n hn => by rw [show computeCounts_h rows cols hb hmid
        = countsPass_h rows cols hb (idxGrid rows cols) hmid from rfl, cc n hn, pc n hn],
      by rw [show computeCounts_h rows cols hb hmid
        = countsPass_h rows cols hb (idxGrid rows cols) hmid from rfl, cf, pf]⟩

theorem cloneRow_h_frame :
    ∀ (row : List Nat) (h : Heap),
      (∀ n, n < h.fresh → (cloneRow_h h row).1.cells n = h.cells n) ∧
      h.fresh ≤ (cloneRow_h h row).1.fresh ∧
      (∀ ref ∈ (cloneRow_h h row).2, h.fresh ≤ ref) := by
  intro row
  induction row with
  | nil =>
    intro h
    exact ⟨fun n _ => rfl, Nat.le_refl _, fun ref hr => absurd hr (List.not_mem_nil ref)⟩
  | cons ref0 refs ih =>
    intro h
    obtain ⟨hc, hf, hr⟩ := ih (hAlloc h (h.cells ref0)).1
    refine ⟨fun n hn => ?_, ?_, ?_⟩
    · show (cloneRow_h (hAlloc h (h.cells ref0)).1 refs).1.cells n = h.cells n
      rw [hc n (by rw [hAlloc_fst_fresh]; omega), hAlloc_cells_lt h _ n hn]
    · show h.fresh ≤ (cloneRow_h (hAlloc h (h.cells ref0)).1 refs).1.fresh
      have hm := hf
      rw [hAlloc_fst_fresh] at hm
      omega
    · intro ref hrm
      show h.fresh ≤ ref
      rcases List.mem_cons.mp hrm with h1 | h1
      · rw [h1]
        exact Nat.le_refl _
      · have hm := hr ref h1
        rw [hAlloc_fst_fresh] at hm
        omega

theorem cloneBoard_h_frame :
    ∀ (hb : HBoard) (h : Heap),
      (∀ n, n < h.fresh → (cloneBoard_h h hb).1.cells n = h.cells n) ∧
      h.fresh ≤ (cloneBoard_h h hb).1.fresh ∧
      (∀ ref ∈ hbFlat (cloneBoard_h h hb).2, h.fresh ≤ ref) := by
  intro hb
  induction hb with
  | nil =>
    intro h
    exact ⟨fun n _ => rfl, Nat.le_refl _, fun ref hr => absurd hr (List.not_mem_nil ref)⟩
  | cons row rest ih =>
    intro h
    obtain ⟨rc, rf, rr⟩ := cloneRow_h_frame row h
    obtain ⟨hc, hf, hr⟩ := ih (cloneRow_h h row).1
    refine ⟨fun n hn => ?_, ?_, ?_⟩
    · show (cloneBoard_h (cloneRow_h h row).1 rest).1.cells n = h.cells n
      rw [hc n (by omega), rc n hn]
    · show h.fresh ≤ (cloneBoard_h (cloneRow_h h row).1 rest).1.fresh
      omega
    · intro ref hrm
      show h.fresh ≤ ref
      have hrm' : ref ∈ (cloneRow_h h row).2 ++ hbFlat (cloneBoard_h (cloneRow_h h row).1 rest).2 := hrm
      rcases List.mem_append.mp hrm' with h1 | h1
      · exact rr ref h1
      · exact Nat.le_trans rf (hr ref h1)

theorem mapMineRow_h_frame (f : Cell → Cell) :
    ∀ (row : List Nat) (h : Heap),
      (∀ n, n < h.fresh → (mapMineRow_h f h row).1.cells n = h.cells n) ∧
      h.fresh ≤ (mapMineRow_h f h row).1.fresh ∧
      (∀ ref ∈ (mapMineRow_h f h row).2, ref ∈ row ∨ h.fresh ≤ ref) := by
  intro row
  induction row with
  | nil =>
    intro h
    exact ⟨fun n _ => rfl, Nat.le_refl _, fun ref hr => absurd hr (List.not_mem_nil ref)⟩
  | cons ref0 refs ih =>
    intro h
    unfold mapMineRow_h
    split
    · obtain ⟨hc, hf, hr⟩ := ih (hAlloc h (f (h.cells ref0))).1
      refine ⟨fun n hn => ?_, ?_, ?_⟩
      · rw [hc n (by rw [hAlloc_fst_fresh]; omega), hAlloc_cells_lt h _ n hn]
      · show h.fresh ≤ (mapMineRow_h f (hAlloc h (f (h.cells ref0))).1 refs).1.fresh
        have hm := hf
        rw [hAlloc_fst_fresh] at hm
        omega
      · intro ref hrm
        rcases List.mem_cons.mp hrm with h1 | h1
        · refine Or.inr ?_
          rw [h1]
          exact Nat.le_refl _
        · rcases hr ref h1 with h2 | h2
          · exact Or.inl (List.mem_cons_of_mem ref0 h2)
          · refine Or.inr ?_
            rw [hAlloc_fst_fresh] at h2
            omega
    · obtain ⟨hc, hf, hr⟩ := ih h
      refine ⟨hc, hf, ?_⟩
      intro ref hrm
      rcases List.mem_cons.mp hrm with h1 | h1
      · exact Or.inl (h1 ▸ List.mem_cons_self ref0 refs)
      · rcases hr ref h1 with h2 | h2
        · exact Or.inl (List.mem_cons_of_mem ref0 h2)
        · exact Or.inr h2

theorem mapMineBoard_h_frame (f : Cell → Cell) :
    ∀ (hb : HBoard) (h : Heap),
      (∀ n, n < h.fresh → (mapMineBoard_h f h hb).1.cells n = h.cells n) ∧
      h.fresh ≤ (mapMineBoard_h f h hb).1.fresh ∧
      (∀ ref ∈ hbFlat (mapMineBoard_h f h hb).2, ref ∈ hbFlat hb ∨ h.fresh ≤ ref) := by
  intro hb
  induction hb with
  | nil =>
    intro h
    exact ⟨fun n _ => rfl, Nat.le_refl _, fun ref hr => absurd hr (List.not_mem_nil ref)⟩
  | cons row rest ih =>
    intro h
    obtain ⟨rc, rf, rr⟩ := mapMineRow_h_frame f row h
    obtain ⟨hc, hf, hr⟩ := ih (mapMineRow_h f h row).1
    refine ⟨fun n hn => ?_, ?_, ?_⟩
    · show (mapMineBoard_h f (mapMineRow_h f h row).1 rest).1.cells n = h.cells n
      rw [hc n (by omega), rc n hn]
    · show h.fresh ≤ (mapMineBoard_h f (mapMineRow_h f h row).1 rest).1.fresh
      omega
    · intro ref hrm
      have hrm' : ref ∈ (mapMineRow_h f h row).2
          ++ hbFlat (mapMineBoard_h f (mapMineRow_h f h row).1 rest).2 := hrm
      rcases List.mem_append.mp hrm' with h1 | h1
      · rcases rr ref h1 with h2 | h2
        · exact Or.inl (List.mem_append_left _ h2)
        · exact Or.inr h2
      · rcases hr ref h1 with h2 | h2
        · exact Or.inl (List.mem_append_right _ h2)
        · exact Or.inr (Nat.le_trans rf h2)

theorem handleRevealCore_h_frame (h0 h1 : Heap) (prior next : HBoard) (s : HGameState)
    (r c : Int) (h' : Heap) (s' : HGameState)
    (hwf : ∀ ref ∈ hbFlat prior, ref < h0.fresh)
    (hsb : s.board = prior)
    (hnext : ∀ ref ∈ hbFlat next, h0.fresh ≤ ref)
    (hh1c : ∀ n, n < h0.fresh → h1.cells n = h0.cells n)
    (hh1f : h0.fresh ≤ h1.fresh)
    (heq : handleRevealCore_h h1 s next r c = some (h', s')) :
    (∀ n, n < h0.fresh → h'.cells n = h0.cells n) ∧
    (s'.board = prior ∨ ∀ ref ∈ hbFlat s'.board, ref ∉ hbFlat prior) := by
  simp only [handleRevealCore_h] at heq
  split at heq
  · exact Option.noConfusion heq
  · rename_i ref hrefeq
    have hrefge : h0.fresh ≤ ref := hnext ref (hRefAt_mem next r c ref hrefeq)
    split at heq
    · rw [Option.some.injEq, Prod.mk.injEq] at heq
      obtain ⟨hA, hB⟩ := heq
      subst hA
      subst hB
      exact ⟨hh1c, Or.inl hsb⟩
    · split at heq
      · rw [Option.some.injEq, Prod.mk.injEq] at heq
        obtain ⟨hA, hB⟩ := heq
        subst hA
        subst hB
        obtain ⟨mc, mf, mr⟩ :=
          mapMineBoard_h_frame (fun cel => { cel with isRevealed := true }) next h1
        refine ⟨fun n hn => ?_, Or.inr ?_⟩
        · rw [mc n (by omega), hh1c n hn]
        · intro ref2 hr2 hmem
          have hlt := hwf ref2 hmem
          rcases mr ref2 hr2 with hm2 | hm2
          · have := hnext ref2 hm2
            omega
          · omega
      · set h2 := (if (h1.cells ref).count = 0 then floodReveal_h h1 next r c
            else hWrite h1 ref (fun cel => { cel with isRevealed := true })) with hg
        have hh2c : ∀ n, n < h0.fresh → h2.cells n = h0.cells n := by
          rw [hg]
          split
          · intro n hn
            obtain ⟨fc, ff⟩ := floodReveal_h_frame h1 next r c
            rw [fc n (fun hmem => absurd (hnext n hmem) (by omega)), hh1c n hn]
          · intro n hn
            rw [hWrite_cells_ne h1 ref _ n (by omega), hh1c n hn]
        have hh2f : h0.fresh ≤ h2.fresh := by
          rw [hg]
          split
          · obtain ⟨fc, ff⟩ := floodReveal_h_frame h1 next r c
            rw [ff]
            exact hh1f
          · rw [hWrite_fresh]
            exact hh1f
        split at heq
        · rw [Option.some.injEq, Prod.mk.injEq] at heq
          obtain ⟨hA, hB⟩ := heq
          subst hA
          subst hB
          obtain ⟨mc, mf, mr⟩ :=
            mapMineBoard_h_frame (fun cel => { cel with isFlagged := true }) next h2
          refine ⟨fun n hn => ?_, Or.inr ?_⟩
          · rw [mc n (by omega), hh2c n hn]
          · intro ref2 hr2 hmem
            have hlt := hwf ref2 hmem
            rcases mr ref2 hr2 with hm2 | hm2
            · have := hnext ref2 hm2
              omega
            · omega
        · rw [Option.some.injEq, Prod.mk.injEq] at heq
          obtain ⟨hA, hB⟩ := heq
          subst hA
          subst hB
          refine ⟨hh2c, Or.inr ?_⟩
          intro ref2 hr2 hmem
          have hlt := hwf ref2 hmem
          have := hnext ref2 hr2
          omega

/-- C9: copy-on-write discipline.  For every reveal and toggleFlag call, under
well-formedness of the prior grid's references, every reference of the prior
grid holds the same cell value after the call as before it, and the returned
grid is either the prior grid itself (a rejected intent) or a newly
constructed grid sharing no cell reference with the prior grid. -/
theorem C9_copy_on_write (h : Heap) (s : HGameState) (rng : List (Nat × Nat)) (r c : Int)
    (hwf : ∀ ref ∈ hbFlat s.board, ref < h.fresh) :
    (∀ h' s', handleReveal_h rng h s r c = some (h', s') →
      (∀ n, n < h.fresh → h'.cells n = h.cells n) ∧
      (s'.board = s.board ∨ ∀ ref ∈ hbFlat s'.board, ref ∉ hbFlat s.board)) ∧
    (∀ h' s', handleFlag_h h s r c = some (h', s') →
      (∀ n, n < h.fresh → h'.cells n = h.cells n) ∧
      (s'.board = s.board ∨ ∀ ref ∈ hbFlat s'.board, ref ∉ hbFlat s.board)) := by
  obtain ⟨clc, clf, clr⟩ := cloneBoard_h_frame s.board h
  constructor
  · intro h' s' heq
    simp only [handleReveal_h] at heq
    split at heq
    · rw [Option.some.injEq, Prod.mk.injEq] at heq
      obtain ⟨hA, hB⟩ := heq
      subst hA
      subst hB
      exact ⟨fun n _ => rfl, Or.inl rfl⟩
    · split at heq
      · exact Option.noConfusion heq
      · rename_i h1 hpm
        have hcl : (∀ n, n < h.fresh → h1.cells n = h.cells n) ∧ h.fresh ≤ h1.fresh := by
          split at hpm
          · have hh : (cloneBoard_h h s.board).1 = h1 := Option.some.inj hpm
            rw [← hh]
            exact ⟨clc, clf⟩
          · obtain ⟨pc, pf⟩ := plantMines_h_frame (cloneBoard_h h s.board).1
              (cloneBoard_h h s.board).2 s.rows s.cols s.mines r c rng h1 hpm
            refine ⟨fun n hn => ?_, ?_⟩
            · rw [pc n (fun hmem => absurd (clr n hmem) (by omega)), clc n hn]
            · rw [pf]
              exact clf
        exact handleRevealCore_h_frame h h1 s.board (cloneBoard_h h s.board).2 s r c h' s'
          hwf rfl clr hcl.1 hcl.2 heq
  · intro h' s' heq
    simp only [handleFlag_h] at heq
    split at heq
    · rw [Option.some.injEq, Prod.mk.injEq] at heq
      obtain ⟨hA, hB⟩ := heq
      subst hA
      subst hB
      exact ⟨fun n _ => rfl, Or.inl rfl⟩
    · split at heq
      · exact Option.noConfusion heq
      · rename_i ref hrefeq
        have hrefge : h.fresh ≤ ref := clr ref (hRefAt_mem _ r c ref hrefeq)
        split at heq
        · rw [Option.some.injEq, Prod.mk.injEq] at heq
          obtain ⟨hA, hB⟩ := heq
          subst hA
          subst hB
          exact ⟨clc, Or.inl rfl⟩
        · split at heq
          · rw [Option.some.injEq, Prod.mk.injEq] at heq
            obtain ⟨hA, hB⟩ := heq
            subst hA
            subst hB
            exact ⟨clc, Or.inl rfl⟩
          · rw [Option.some.injEq, Prod.mk.injEq] at heq
            obtain ⟨hA, hB⟩ := heq
            subst hA
            subst hB
            refine ⟨fun n hn => ?_, Or.inr ?_⟩
            · rw [hWrite_cells_ne _ ref _ n (by omega), clc n hn]
            · intro ref2 hr2 hmem
              have hlt := hwf ref2 hmem
              have := clr ref2 hr2
              omega

/-- Witness for C9: the copy-on-write theorem instantiated on the concrete
heap `c9Heap` and the 1×2 session `c9S`. -/
theorem C9_copy_on_write_witness :
    (∀ ref ∈ hbFlat c9S.board, ref < c9Heap.fresh) ∧
    ((∀ h' s', handleReveal_h [] c9Heap c9S 0 0 = some (h', s') →
      (∀ n, n < c9Heap.fresh → h'.cells n = c9Heap.cells n) ∧
      (s'.board = c9S.board ∨ ∀ ref ∈ hbFlat s'.board, ref ∉ hbFlat c9S.board)) ∧
    (∀ h' s', handleFlag_h c9Heap c9S 0 0 = some (h', s') →
      (∀ n, n < c9Heap.fresh → h'.cells n = c9Heap.cells n) ∧
      (s'.board = c9S.board ∨ ∀ ref ∈ hbFlat s'.board, ref ∉ hbFlat c9S.board))) :=
  ⟨by decide, C9_copy_on_write c9Heap c9S [] 0 0 (by decide)⟩

end Minesweeper
